import Mathlib

/-!
# Priority queues: a binary heap over a vector and a pairing heap over linked nodes

Shallow embedding of `BinaryPQ.hpp` and `PairingPQ.hpp`.

* The pairing heap is embedded at the level of its pointer graph: the free store is a
  partial map from addresses to nodes, a `Node*` is an `Option Nat` (`none` is `nullptr`),
  and every dereference of a pointer that does not designate a live node makes the
  operation return `none` (undefined behaviour in the source).
* Loops and recursive traversals carry a fuel argument; running out of fuel is `none`.
  The public operations supply the allocation counter as fuel, and the theorems show
  that this is always enough on the states the queue can reach.
* The node counter of the pairing heap is a natural number: it never exceeds the number
  of allocated nodes.
* The `int` variables of the binary heap are integers: a conversion between `int` and
  `size_t` reduces modulo 2^32 or 2^64, an arithmetic operation on `int` whose result
  is not representable is undefined (`none`), and so is an access `data[k]` outside the
  vector.
-/

set_option autoImplicit false

/-- The comparator contract: irreflexive, transitive, and incomparability is transitive. -/
structure StrictWeakOrder {α : Type} (compare : α → α → Bool) : Prop where
  irrefl : ∀ a, compare a a = false
  trans : ∀ a b c, compare a b = true → compare b c = true → compare a c = true
  incomp_trans : ∀ a b c, compare a b = false → compare b a = false →
    compare b c = false → compare c b = false →
    compare a c = false ∧ compare c a = false

/-- A strict total order: a strict weak ordering in which incomparable values are equal. -/
structure StrictTotalOrder {α : Type} (compare : α → α → Bool) : Prop where
  weak : StrictWeakOrder compare
  total : ∀ a b, compare a b = false → compare b a = false → a = b

namespace PairingPQ

/-- A node of the pairing heap: the element and the three links. -/
structure Node (α : Type) where
  elt : α
  child : Option Nat
  sibling : Option Nat
  parent : Option Nat

/-- The free store: the node living at each address, `none` where nothing is allocated. -/
abbrev Mem (α : Type) := Nat → Option (Node α)

end PairingPQ

/-- The members of a `PairingPQ` object (`root`, `nodeCount`) together with the free store
it owns and the allocation counter (`fresh` is the address the next `new Node` returns). -/
structure PairingPQ (α : Type) where
  mem : PairingPQ.Mem α
  fresh : Nat
  root : Option Nat
  nodeCount : Nat

namespace PairingPQ

variable {α : Type}

/-- Overwrite the node stored at address `a`. -/
def store (m : Mem α) (a : Nat) (n : Node α) : Mem α :=
  fun b => if b = a then some n else m b

/-- The effect of `delete` on the node at address `a`. -/
def release (m : Mem α) (a : Nat) : Mem α :=
  fun b => if b = a then none else m b

/-- Assignment `a->elt = v`. -/
def setElt (m : Mem α) (a : Nat) (v : α) : Option (Mem α) :=
  (m a).map fun n => store m a { n with elt := v }

/-- Assignment `a->child = c`. -/
def setChild (m : Mem α) (a : Nat) (c : Option Nat) : Option (Mem α) :=
  (m a).map fun n => store m a { n with child := c }

/-- Assignment `a->sibling = s`. -/
def setSibling (m : Mem α) (a : Nat) (s : Option Nat) : Option (Mem α) :=
  (m a).map fun n => store m a { n with sibling := s }

/-- Assignment `a->parent = p`. -/
def setParent (m : Mem α) (a : Nat) (p : Option Nat) : Option (Mem α) :=
  (m a).map fun n => store m a { n with parent := p }

/-- The statement `if (x) x->parent = p;` for a pointer `x`. -/
def setParentIf (m : Mem α) (x : Option Nat) (p : Option Nat) : Option (Mem α) :=
  match x with
  | some a => setParent m a p
  | none => some m

/-- The constructor `PairingPQ(comp)`: no node, null root. -/
def empty_pq : PairingPQ α :=
  { mem := fun _ => none, fresh := 0, root := none, nodeCount := 0 }

/-- Method `meld(first, second)`, returning the new store and the returned pointer. -/
def meld (compare : α → α → Bool) (m : Mem α) (first second : Option Nat) :
    Option (Mem α × Option Nat) :=
  match first with
  | none => some (m, second)
  | some f =>
    match second with
    | none => some (m, first)
    | some s => do
      let sn ← m s
      let fn ← m f
      if compare sn.elt fn.elt then
        let m ← setParent m s none
        let m ← setParent m f (some s)
        let sn ← m s
        let m ← setSibling m f sn.child
        let fn ← m f
        let m ← setParentIf m fn.sibling (some s)
        let m ← setChild m s (some f)
        pure (m, some s)
      else
        let m ← setParent m s (some f)
        let fn ← m f
        let m ← setSibling m s fn.child
        let sn ← m s
        let m ← setParentIf m sn.sibling (some f)
        let m ← setChild m f (some s)
        pure (m, some f)

/-- Method `addNode(val)`: allocate a node, meld it with the root, count it. -/
def addNode (compare : α → α → Bool) (q : PairingPQ α) (val : α) :
    Option (PairingPQ α × Nat) := do
  let newNode := q.fresh
  let m := store q.mem newNode { elt := val, child := none, sibling := none, parent := none }
  let (m, r) ← meld compare m q.root (some newNode)
  pure ({ mem := m, fresh := q.fresh + 1, root := r, nodeCount := q.nodeCount + 1 }, newNode)

/-- Method `push(val)`. -/
def push (compare : α → α → Bool) (q : PairingPQ α) (val : α) : Option (PairingPQ α) :=
  (addNode compare q val).map Prod.fst

/-- The `while (nextSibling)` loop of `pop`, on the variables `current` and `nextSibling`. -/
def popLoop (compare : α → α → Bool) :
    Nat → Mem α → Nat → Option Nat → Option (Mem α × Nat)
  | _, m, current, none => some (m, current)
  | 0, _, _, some _ => none
  | fuel + 1, m, current, some nextSibling => do
    let nsn ← m nextSibling
    let next := nsn.sibling
    let m ← setSibling m nextSibling none
    let nsn ← m nextSibling
    let cn ← m current
    if compare nsn.elt cn.elt then
      let m ← setParent m nextSibling none
      let m ← setParent m current (some nextSibling)
      let nsn ← m nextSibling
      let m ← setSibling m current nsn.child
      let cn ← m current
      let m ← setParentIf m cn.sibling (some nextSibling)
      let m ← setChild m nextSibling (some current)
      popLoop compare fuel m nextSibling next
    else
      let m ← setParent m nextSibling (some current)
      let cn ← m current
      let m ← setSibling m nextSibling cn.child
      let nsn ← m nextSibling
      let m ← setParentIf m nsn.sibling (some current)
      let m ← setChild m current (some nextSibling)
      popLoop compare fuel m current next

/-- Method `pop()`. -/
def pop (compare : α → α → Bool) (q : PairingPQ α) : Option (PairingPQ α) := do
  let oldRoot ← q.root
  let rn ← q.mem oldRoot
  let (m, r) ← (match rn.child with
    | none => some (q.mem, none)
    | some current => do
      let m ← setParent q.mem current none
      let cn ← m current
      let nextSibling := cn.sibling
      let m ← setSibling m current none
      let (m, cur) ← popLoop compare q.fresh m current nextSibling
      let m ← setParent m cur none
      pure (m, some cur))
  pure { mem := release m oldRoot, fresh := q.fresh, root := r, nodeCount := q.nodeCount - 1 }

/-- Method `top()`. -/
def top (q : PairingPQ α) : Option α := do
  let r ← q.root
  let rn ← q.mem r
  pure rn.elt

/-- Method `size()`. -/
def size (q : PairingPQ α) : Nat := q.nodeCount

/-- Method `empty()`. -/
def empty (q : PairingPQ α) : Bool := q.nodeCount == 0

/-- The `while (prevSibling->sibling != node)` loop of `updateElt`. -/
def findPrev : Nat → Mem α → Nat → Nat → Option Nat
  | 0, _, _, _ => none
  | fuel + 1, m, prevSibling, node => do
    let pn ← m prevSibling
    if pn.sibling = some node then pure prevSibling
    else
      let nxt ← pn.sibling
      findPrev fuel m nxt node

/-- Method `updateElt(node, new_value)`. -/
def updateElt (compare : α → α → Bool) (q : PairingPQ α) (node : Nat) (new_value : α) :
    Option (PairingPQ α) := do
  let m ← setElt q.mem node new_value
  if q.root = some node then
    pure { q with mem := m }
  else
    let nn ← m node
    let m ← setParentIf m nn.sibling nn.parent
    let nn ← m node
    let p ← nn.parent
    let pn ← m p
    let m ← (if pn.child = some node then
        setChild m p nn.sibling
      else do
        let first ← pn.child
        let prevSibling ← findPrev q.fresh m first node
        let nn ← m node
        setSibling m prevSibling nn.sibling)
    let m ← setSibling m node none
    let m ← setParent m node none
    let (m, r) ← meld compare m q.root (some node)
    pure { q with mem := m, root := r }

/-- Method `makeDeque(node, nodes)` on a deque of node pointers. -/
def makeDeque : Nat → Mem α → Option Nat → List Nat → Option (List Nat)
  | _, _, none, nodes => some nodes
  | 0, _, some _, _ => none
  | fuel + 1, m, some a, nodes => do
    let n ← m a
    let nodes ← makeDeque fuel m n.sibling (nodes ++ [a])
    makeDeque fuel m n.child nodes

/-- The first `for` loop of `updatePriorities`: clear the three links of every node. -/
def clearLinks : Mem α → List Nat → Option (Mem α)
  | m, [] => some m
  | m, a :: rest => do
    let m ← setChild m a none
    let m ← setSibling m a none
    let m ← setParent m a none
    clearLinks m rest

/-- The second `for` loop of `updatePriorities`: meld every node into the root. -/
def meldAll (compare : α → α → Bool) :
    Mem α → Option Nat → List Nat → Option (Mem α × Option Nat)
  | m, r, [] => some (m, r)
  | m, r, a :: rest => do
    let (m, r) ← meld compare m r (some a)
    meldAll compare m r rest

/-- Method `updatePriorities()`. -/
def updatePriorities (compare : α → α → Bool) (q : PairingPQ α) : Option (PairingPQ α) :=
  match q.root with
  | none => some q
  | some _ => do
    let nodes ← makeDeque q.fresh q.mem q.root []
    let m ← clearLinks q.mem nodes
    let (m, r) ← meldAll compare m none nodes
    pure { q with mem := m, root := r }

/-- Push the values of a list in order. -/
def pushAll (compare : α → α → Bool) : PairingPQ α → List α → Option (PairingPQ α)
  | q, [] => some q
  | q, v :: vs => do
    let q ← push compare q v
    pushAll compare q vs

/-- The client loop `while (!q.empty()) { out.push_back(q.top()); q.pop(); }`. -/
def extractLoop (compare : α → α → Bool) : Nat → PairingPQ α → Option (List α)
  | fuel, q =>
    if empty q then some []
    else
      match fuel with
      | 0 => none
      | fuel + 1 => do
        let t ← top q
        let q ← pop compare q
        let rest ← extractLoop compare fuel q
        pure (t :: rest)

/-- Full extraction; the loop runs once per counted node. -/
def extractAll (compare : α → α → Bool) (q : PairingPQ α) : Option (List α) :=
  extractLoop compare q.nodeCount q

end PairingPQ

/-- The member of a `BinaryPQ` object: the vector `data`. -/
structure BinaryPQ (α : Type) where
  data : List α

namespace BinaryPQ

variable {α : Type}

/-- The conversion `(int)n` of a `size_t` value: the value congruent to `n` modulo 2^32 in
the range of `int`. -/
def toInt (n : Nat) : Int := ((n : Int) + 2 ^ 31) % 2 ^ 32 - 2 ^ 31

/-- The conversion `(size_t)i` of an `int` value: the value congruent to `i` modulo 2^64. -/
def toSize (i : Int) : Nat := (i % 2 ^ 64).toNat

/-- The result of an arithmetic operation on `int` whose mathematical value is `x`: signed
overflow is undefined. -/
def int32 (x : Int) : Option Int := if -2 ^ 31 ≤ x ∧ x < 2 ^ 31 then some x else none

/-- The default constructor: an empty vector. -/
def empty_pq : BinaryPQ α := { data := [] }

/-- The call `std::swap(data[i], data[j])`. -/
def swap (data : List α) (i j : Nat) : Option (List α) := do
  let x ← data[i]?
  let y ← data[j]?
  pure ((data.set i y).set j x)

/-- The `while (i > 0)` loop of `fixUp`, on the `int` variable `i`; `(i - 1) / 2` is the
truncating division of `int`. -/
def fixUpLoop (compare : α → α → Bool) : Nat → List α → Int → Option (List α)
  | fuel, data, i =>
    if i > 0 then
      match fuel with
      | 0 => none
      | fuel + 1 => do
        let d ← int32 (i - 1)
        let parent ← int32 (Int.tdiv d 2)
        let p ← data[toSize parent]?
        let c ← data[toSize i]?
        if compare p c then
          let data ← swap data (toSize i) (toSize parent)
          fixUpLoop compare fuel data parent
        else
          pure data
    else
      pure data

/-- Method `fixUp(i)`. -/
def fixUp (compare : α → α → Bool) (data : List α) (i : Int) : Option (List α) :=
  fixUpLoop compare data.length data i

/-- The `while (true)` loop of `fixDown`, on the `int` variables `count` and `i`. -/
def fixDownLoop (compare : α → α → Bool) : Nat → List α → Int → Int → Option (List α)
  | 0, _, _, _ => none
  | fuel + 1, data, count, i => do
    let l ← int32 (2 * i)
    let left ← int32 (l + 1)
    let r ← int32 (2 * i)
    let right ← int32 (r + 2)
    let ex := i
    let ex ← (if left < count then do
        let a ← data[toSize ex]?
        let b ← data[toSize left]?
        pure (if compare a b then left else ex)
      else pure ex)
    let ex ← (if right < count then do
        let a ← data[toSize ex]?
        let b ← data[toSize right]?
        pure (if compare a b then right else ex)
      else pure ex)
    if ex ≠ i then
      let data ← swap data (toSize i) (toSize ex)
      fixDownLoop compare fuel data count ex
    else
      pure data

/-- Method `fixDown(i)`: `int count = (int)(data.size());` and the loop. -/
def fixDown (compare : α → α → Bool) (data : List α) (i : Int) : Option (List α) :=
  fixDownLoop compare (data.length + 1) data (toInt data.length) i

/-- The `for` loop of `updatePriorities`, on the `int` variable `i`: while `i >= 0`, run
`fixDown(i)` and decrement `i`. -/
def heapifyLoop (compare : α → α → Bool) : Nat → List α → Int → Option (List α)
  | fuel, data, i =>
    if i ≥ 0 then
      match fuel with
      | 0 => none
      | fuel + 1 => do
        let data ← fixDown compare data i
        let i ← int32 (i - 1)
        heapifyLoop compare fuel data i
    else
      pure data

/-- Method `updatePriorities()`: the loop starts at `(int)(data.size() / 2) - 1`. -/
def updatePriorities (compare : α → α → Bool) (q : BinaryPQ α) : Option (BinaryPQ α) := do
  let i ← int32 (toInt (q.data.length / 2) - 1)
  let data ← heapifyLoop compare q.data.length q.data i
  pure { data := data }

/-- The range constructor: `data.assign(start, end); updatePriorities();`. -/
def ofRange (compare : α → α → Bool) (vs : List α) : Option (BinaryPQ α) :=
  updatePriorities compare { data := vs }

/-- Method `push(val)`: `data.push_back(val); fixUp((int)(data.size()) - 1);`. -/
def push (compare : α → α → Bool) (q : BinaryPQ α) (val : α) : Option (BinaryPQ α) := do
  let data := q.data ++ [val]
  let i ← int32 (toInt data.length - 1)
  let data ← fixUp compare data i
  pure { data := data }

/-- Method `pop()`. -/
def pop (compare : α → α → Bool) (q : BinaryPQ α) : Option (BinaryPQ α) := do
  let data ← swap q.data 0 (q.data.length - 1)
  let data := data.dropLast
  if data.isEmpty then
    pure { data := data }
  else
    let data ← fixDown compare data 0
    pure { data := data }

/-- Method `top()`. -/
def top (q : BinaryPQ α) : Option α := q.data[0]?

/-- Method `size()`. -/
def size (q : BinaryPQ α) : Nat := q.data.length

/-- Method `empty()`. -/
def empty (q : BinaryPQ α) : Bool := q.data.isEmpty

/-- Push the values of a list in order. -/
def pushAll (compare : α → α → Bool) : BinaryPQ α → List α → Option (BinaryPQ α)
  | q, [] => some q
  | q, v :: vs => do
    let q ← push compare q v
    pushAll compare q vs

/-- The client loop `while (!q.empty()) { out.push_back(q.top()); q.pop(); }`. -/
def extractLoop (compare : α → α → Bool) : Nat → BinaryPQ α → Option (List α)
  | fuel, q =>
    if empty q then some []
    else
      match fuel with
      | 0 => none
      | fuel + 1 => do
        let t ← top q
        let q ← pop compare q
        let rest ← extractLoop compare fuel q
        pure (t :: rest)

/-- Full extraction; the loop runs once per stored element. -/
def extractAll (compare : α → α → Bool) (q : BinaryPQ α) : Option (List α) :=
  extractLoop compare q.data.length q

end BinaryPQ

/-!
## Abstraction

Pointer graphs as trees, the representation predicate, well-formed states, operation
histories and the observers used to state properties on the pointer graph.
-/

namespace PairingPQ

variable {α : Type}

/-- The shape of a pointer graph under `child` and `sibling` links: `node a e c s` is the
node at address `a` holding `e`, with `c` the graph behind its `child` link and `s` the
graph behind its `sibling` link; `nil` is what a null link designates. -/
inductive Tree (α : Type) where
  | nil : Tree α
  | node (addr : Nat) (elt : α) (child sibling : Tree α) : Tree α

namespace Tree

/-- The pointer that designates a graph: the address of its first node, or null. -/
def ptr : Tree α → Option Nat
  | nil => none
  | node a _ _ _ => some a

/-- The nodes with their elements in the order `makeDeque` visits them:
the node, then its sibling graph, then its child graph. -/
def cells : Tree α → List (Nat × α)
  | nil => []
  | node a e c s => (a, e) :: (cells s ++ cells c)

/-- The addresses in `makeDeque` order. -/
def addrs (t : Tree α) : List Nat := t.cells.map Prod.fst

/-- The elements in `makeDeque` order. -/
def elts (t : Tree α) : List α := t.cells.map Prod.snd

/-- The number of nodes. -/
def size : Tree α → Nat
  | nil => 0
  | node _ _ c s => 1 + size s + size c

/-- The sibling graph of the first node. -/
def sib : Tree α → Tree α
  | nil => nil
  | node _ _ _ s => s

/-- Heap order: no element behind a node's `child` link is more extreme than the node's
own element. -/
def HeapOrdered (compare : α → α → Bool) : Tree α → Prop
  | nil => True
  | node _ e c s =>
    (∀ x ∈ c.elts, compare x e = false) ∧ HeapOrdered compare c ∧ HeapOrdered compare s

/-- What `meld` computes on two graphs whose first nodes have no sibling. -/
def meld (compare : α → α → Bool) : Tree α → Tree α → Tree α
  | nil, t => t
  | node a e c s, nil => node a e c s
  | node a e c _, node b f d _ =>
    if compare f e then node b f (node a e c d) nil else node a e (node b f d c) nil

/-- What the loop of `pop` computes: `acc` is the graph under `current`, the second
argument the not yet visited part of the sibling chain. -/
def foldChain (compare : α → α → Bool) : Tree α → Tree α → Tree α
  | acc, nil => acc
  | acc, node b f d s => foldChain compare (meld compare acc (node b f d nil)) s

/-- What `pop` leaves under the root. -/
def pop (compare : α → α → Bool) : Tree α → Tree α
  | nil => nil
  | node _ _ nil _ => nil
  | node _ _ (node b f d s) _ => foldChain compare (node b f d nil) s

/-- Remove the node at address `n` together with what is behind its `child` link; its
sibling graph takes its place. -/
def cut (n : Nat) : Tree α → Tree α
  | nil => nil
  | node a e c s => if a = n then s else node a e (cut n c) (cut n s)

/-- The graph behind the `child` link of the node at address `n`. -/
def childOf (n : Nat) : Tree α → Tree α
  | nil => nil
  | node a _ c s => if a = n then c else if n ∈ c.addrs then childOf n c else childOf n s

/-- The element of the node at address `n`. -/
def eltOf (n : Nat) (t : Tree α) : Option α := (t.cells.find? fun p => p.1 == n).map Prod.snd

/-- The addresses of the top-level chain: the first node and its siblings. -/
def top : Tree α → List Nat
  | nil => []
  | node a _ _ s => a :: top s

/-- Overwrite the element of the node at address `n`. -/
def setElt (n : Nat) (v : α) : Tree α → Tree α
  | nil => nil
  | node a e c s => node a (if a = n then v else e) (setElt n v c) (setElt n v s)

/-- What `updateElt(n, v)` computes. -/
def updateElt (compare : α → α → Bool) (n : Nat) (v : α) : Tree α → Tree α
  | nil => nil
  | node a e c s =>
    if a = n then node a v c s
    else meld compare (cut n (node a e c s)) (node n v (childOf n (node a e c s)) nil)

/-- What the second loop of `updatePriorities` computes from the visited nodes. -/
def meldCells (compare : α → α → Bool) : Tree α → List (Nat × α) → Tree α
  | acc, [] => acc
  | acc, (a, e) :: rest => meldCells compare (meld compare acc (node a e nil nil)) rest

/-- What `updatePriorities` computes. -/
def updatePriorities (compare : α → α → Bool) (t : Tree α) : Tree α :=
  meldCells compare nil t.cells

end Tree

/-- The store `m` holds the graph `t`, whose top-level nodes have parent link `par`:
every node of `t` is live at its address with the element and the `child` and `sibling`
links of `t`, and its `parent` link designates the node whose child chain contains it. -/
def Rep (m : Mem α) : Option Nat → Tree α → Prop
  | _, Tree.nil => True
  | par, Tree.node a e c s =>
    m a = some { elt := e, child := c.ptr, sibling := s.ptr, parent := par } ∧
      Rep m (some a) c ∧ Rep m par s

/-- The part of `updateElt` that unlinks `node` from its parent and siblings: from
`if (node->sibling)` to `node->parent = nullptr`. -/
def detach (fuel : Nat) (m : Mem α) (node : Nat) : Option (Mem α) := do
  let nn ← m node
  let m ← setParentIf m nn.sibling nn.parent
  let nn ← m node
  let p ← nn.parent
  let pn ← m p
  let m ← (if pn.child = some node then
      setChild m p nn.sibling
    else do
      let first ← pn.child
      let prevSibling ← findPrev fuel m first node
      let nn ← m node
      setSibling m prevSibling nn.sibling)
  let m ← setSibling m node none
  setParent m node none

/-- The store `m` holds the graph `t` as far as elements, `child` links and `sibling`
links go; parent links are not looked at. -/
def Links (m : Mem α) : Tree α → Prop
  | Tree.nil => True
  | Tree.node a e c s =>
    (∃ n, m a = some n ∧ n.elt = e ∧ n.child = c.ptr ∧ n.sibling = s.ptr) ∧
      Links m c ∧ Links m s

/-- The queue `q` holds a tree `t` under child and sibling links with `nodeCount` nodes:
the nodes are distinct and were handed out by the allocator. Nothing is assumed about
the elements or the parent links. -/
structure Shape (q : PairingPQ α) (t : Tree α) : Prop where
  root : q.root = t.ptr
  links : Links q.mem t
  nodup : t.addrs.Nodup
  count : q.nodeCount = t.size
  bound : ∀ a ∈ t.addrs, a < q.fresh

/-- The queue `q` is in a well-formed state whose pointer graph is `t`. -/
structure Models (q : PairingPQ α) (t : Tree α) : Prop where
  root : q.root = t.ptr
  rep : Rep q.mem none t
  noSib : t.sib = Tree.nil
  nodup : t.addrs.Nodup
  count : q.nodeCount = t.size
  owned : ∀ a, a ∉ t.addrs → q.mem a = none
  bound : ∀ a ∈ t.addrs, a < q.fresh

/-- The public operations that change a queue. -/
inductive Op (α : Type) where
  | push (v : α) : Op α
  | pop : Op α
  | updatePriorities : Op α
  | updateElt (node : Nat) (v : α) : Op α

/-- `Reach compare ops q`: running the calls `ops`, oldest first, on an empty queue gives
`q`, each call made under its precondition: `pop` on a non-empty queue, `updateElt` on a
live node with a value strictly more extreme than the one it holds. -/
inductive Reach (compare : α → α → Bool) : List (Op α) → PairingPQ α → Prop where
  | empty : Reach compare [] empty_pq
  | push {ops : List (Op α)} {q q2 : PairingPQ α} (v : α) :
      Reach compare ops q → push compare q v = some q2 →
      Reach compare (ops ++ [Op.push v]) q2
  | pop {ops : List (Op α)} {q q2 : PairingPQ α} :
      Reach compare ops q → empty q = false → pop compare q = some q2 →
      Reach compare (ops ++ [Op.pop]) q2
  | updatePriorities {ops : List (Op α)} {q q2 : PairingPQ α} :
      Reach compare ops q → updatePriorities compare q = some q2 →
      Reach compare (ops ++ [Op.updatePriorities]) q2
  | updateElt {ops : List (Op α)} {q q2 : PairingPQ α} (node : Nat) (v : α) (old : Node α) :
      Reach compare ops q → q.mem node = some old → compare v old.elt = true →
      updateElt compare q node v = some q2 →
      Reach compare (ops ++ [Op.updateElt node v]) q2

/-- Number of `push`/`addNode` calls in a history. -/
def countPush : List (Op α) → Nat
  | [] => 0
  | Op.push _ :: ops => countPush ops + 1
  | _ :: ops => countPush ops

/-- Number of `pop` calls in a history. -/
def countPop : List (Op α) → Nat
  | [] => 0
  | Op.pop :: ops => countPop ops + 1
  | _ :: ops => countPop ops

/-- The nodes reachable from the root through child and sibling links, as `makeDeque`
enumerates them. -/
def nodes (q : PairingPQ α) : Option (List Nat) :=
  makeDeque q.fresh q.mem q.root []

/-- The address and element of a live node. -/
def cellOf (q : PairingPQ α) (a : Nat) : Option (Nat × α) :=
  (q.mem a).map fun n => (a, n.elt)

/-- The reachable nodes with the element each one holds. -/
def contents (q : PairingPQ α) : Option (List (Nat × α)) :=
  (nodes q).map fun ns => ns.filterMap (cellOf q)

/-- The stored elements. -/
def elements (q : PairingPQ α) : Option (List α) :=
  (contents q).map fun cs => cs.map Prod.snd

/-- The descendants of the node at `p`: what is reachable from its `child` link through
child and sibling links. -/
def descendants (q : PairingPQ α) (p : Nat) : Option (List Nat) :=
  (q.mem p).bind fun pn => makeDeque q.fresh q.mem pn.child []

/-- Every public operation called on `q` under its precondition returns: it follows no
null or dangling link and its loops terminate. -/
def Progress (compare : α → α → Bool) (q : PairingPQ α) : Prop :=
  (∀ v, ∃ r, addNode compare q v = some r) ∧
  (empty q = false → ∃ q2, pop compare q = some q2) ∧
  (∃ q2, updatePriorities compare q = some q2) ∧
  (∀ n old v, q.mem n = some old → ∃ q2, updateElt compare q n v = some q2)

/-- The heap-order invariant on the pointer graph: every node reachable from the root is
live, and none of its descendants holds an element more extreme than its own. -/
def HeapOrder (compare : α → α → Bool) (q : PairingPQ α) : Prop :=
  ∃ ns, nodes q = some ns ∧
    ∀ p ∈ ns, ∃ pn ds, q.mem p = some pn ∧ descendants q p = some ds ∧
      ∀ d ∈ ds, ∃ dn, q.mem d = some dn ∧ compare dn.elt pn.elt = false

end PairingPQ

namespace BinaryPQ

variable {α : Type}

/-- The pair of slots `j`, `k` is in order: when both exist, `compare(data[j], data[k])`
is false. -/
def Edge (compare : α → α → Bool) (data : List α) (j k : Nat) : Prop :=
  ∀ x y, data[j]? = some x → data[k]? = some y → compare x y = false

/-- The array invariant from slot `lo` on: every slot `k >= 1` whose parent `(k-1)/2` is
at least `lo` is in order with its parent. -/
def HeapFrom (compare : α → α → Bool) (lo : Nat) (data : List α) : Prop :=
  ∀ k, 0 < k → lo ≤ (k - 1) / 2 → Edge compare data ((k - 1) / 2) k

/-- The array invariant the code maintains: `compare(data[(i-1)/2], data[i])` is false for
every index `i >= 1`. -/
def IsHeap (compare : α → α → Bool) (data : List α) : Prop :=
  HeapFrom compare 0 data

/-- The state of the array while `fixDown` is at slot `i`, for the part from `lo` on:
every slot is in order with its parent except the children of `i`, and the children of
`i` are in order with the parent of `i`. -/
def DownInv (compare : α → α → Bool) (data : List α) (lo i : Nat) : Prop :=
  (∀ k, 0 < k → lo ≤ (k - 1) / 2 → (k - 1) / 2 ≠ i → Edge compare data ((k - 1) / 2) k) ∧
  (0 < i → lo ≤ (i - 1) / 2 → ∀ k, 0 < k → (k - 1) / 2 = i → Edge compare data ((i - 1) / 2) k)

/-- The state of the array while `fixUp` is at slot `i`: every slot other than `i` is in
order with its parent, and the children of `i` are in order with the parent of `i`. -/
def UpInv (compare : α → α → Bool) (data : List α) (i : Nat) : Prop :=
  (∀ k, 0 < k → k ≠ i → Edge compare data ((k - 1) / 2) k) ∧
  (0 < i → ∀ k, 0 < k → (k - 1) / 2 = i → Edge compare data ((i - 1) / 2) k)

/-!
### The heap algorithms over unbounded indices

The same loops with natural numbers for the `int` variables. They are what the methods
compute as long as no `int` operation leaves the range of `int`, which the theorems show
for vectors of fewer than 2^30 elements.
-/

namespace Ideal

/-- The loop of `fixUp` over unbounded indices. -/
def fixUpLoop (compare : α → α → Bool) : Nat → List α → Nat → Option (List α)
  | fuel, data, i =>
    if i > 0 then
      match fuel with
      | 0 => none
      | fuel + 1 => do
        let parent := (i - 1) / 2
        let p ← data[parent]?
        let c ← data[i]?
        if compare p c then
          let data ← swap data i parent
          fixUpLoop compare fuel data parent
        else
          pure data
    else
      pure data

/-- What `fixUp(i)` computes over unbounded indices. -/
def fixUp (compare : α → α → Bool) (data : List α) (i : Nat) : Option (List α) :=
  fixUpLoop compare data.length data i

/-- The loop of `fixDown` over unbounded indices. -/
def fixDownLoop (compare : α → α → Bool) : Nat → List α → Nat → Option (List α)
  | 0, _, _ => none
  | fuel + 1, data, i => do
    let count := data.length
    let left := 2 * i + 1
    let right := 2 * i + 2
    let ex := i
    let ex ← (if left < count then do
        let a ← data[ex]?
        let b ← data[left]?
        pure (if compare a b then left else ex)
      else pure ex)
    let ex ← (if right < count then do
        let a ← data[ex]?
        let b ← data[right]?
        pure (if compare a b then right else ex)
      else pure ex)
    if ex ≠ i then
      let data ← swap data i ex
      fixDownLoop compare fuel data ex
    else
      pure data

/-- What `fixDown(i)` computes over unbounded indices. -/
def fixDown (compare : α → α → Bool) (data : List α) (i : Nat) : Option (List α) :=
  fixDownLoop compare (data.length + 1) data i

/-- The loop of `updatePriorities` over unbounded indices, on `k = i + 1`: it runs
`fixDown(i)` for `i = k - 1, ..., 0`. -/
def heapifyLoop (compare : α → α → Bool) : Nat → List α → Option (List α)
  | 0, data => some data
  | k + 1, data => do
    let data ← fixDown compare data k
    heapifyLoop compare k data

/-- What `updatePriorities()` computes over unbounded indices. -/
def updatePriorities (compare : α → α → Bool) (q : BinaryPQ α) : Option (BinaryPQ α) := do
  let data ← heapifyLoop compare (q.data.length / 2) q.data
  pure { data := data }

/-- What the range constructor computes over unbounded indices. -/
def ofRange (compare : α → α → Bool) (vs : List α) : Option (BinaryPQ α) :=
  updatePriorities compare { data := vs }

/-- What `push(val)` computes over unbounded indices. -/
def push (compare : α → α → Bool) (q : BinaryPQ α) (val : α) : Option (BinaryPQ α) := do
  let data := q.data ++ [val]
  let data ← fixUp compare data (data.length - 1)
  pure { data := data }

/-- What `pop()` computes over unbounded indices. -/
def pop (compare : α → α → Bool) (q : BinaryPQ α) : Option (BinaryPQ α) := do
  let data ← swap q.data 0 (q.data.length - 1)
  let data := data.dropLast
  if data.isEmpty then
    pure { data := data }
  else
    let data ← fixDown compare data 0
    pure { data := data }

/-- Pushing the values of a list in order, over unbounded indices. -/
def pushAll (compare : α → α → Bool) : BinaryPQ α → List α → Option (BinaryPQ α)
  | q, [] => some q
  | q, v :: vs => do
    let q ← push compare q v
    pushAll compare q vs

/-- The extraction loop over unbounded indices. -/
def extractLoop (compare : α → α → Bool) : Nat → BinaryPQ α → Option (List α)
  | fuel, q =>
    if empty q then some []
    else
      match fuel with
      | 0 => none
      | fuel + 1 => do
        let t ← top q
        let q ← pop compare q
        let rest ← extractLoop compare fuel q
        pure (t :: rest)

/-- Full extraction over unbounded indices. -/
def extractAll (compare : α → α → Bool) (q : BinaryPQ α) : Option (List α) :=
  extractLoop compare q.data.length q

/-- The selection made by one iteration of `fixDown` over unbounded indices: the final
value of `ex`. -/
def pick (compare : α → α → Bool) (data : List α) (i : Nat) : Option Nat := do
  let count := data.length
  let left := 2 * i + 1
  let right := 2 * i + 2
  let ex := i
  let ex ← (if left < count then do
      let a ← data[ex]?
      let b ← data[left]?
      pure (if compare a b then left else ex)
    else pure ex)
  (if right < count then do
      let a ← data[ex]?
      let b ← data[right]?
      pure (if compare a b then right else ex)
    else pure ex)

end Ideal

/-- The states a `BinaryPQ` reaches while its vector stays shorter than 2^30 elements:
built empty or from a range of fewer than 2^30 values, then `push` (to a size below 2^30)
and `pop` (on a non-empty queue) in any order. -/
inductive Reach (compare : α → α → Bool) : BinaryPQ α → Prop where
  | empty : Reach compare empty_pq
  | ofRange {q : BinaryPQ α} (vs : List α) : vs.length < 2 ^ 30 →
      ofRange compare vs = some q → Reach compare q
  | push {q q2 : BinaryPQ α} (v : α) : Reach compare q → q.data.length + 1 < 2 ^ 30 →
      push compare q v = some q2 → Reach compare q2
  | pop {q q2 : BinaryPQ α} : Reach compare q → empty q = false → pop compare q = some q2 →
      Reach compare q2

end BinaryPQ

/-- The ordering `a < b` on numbers, as a comparator. -/
def lessNat : Nat → Nat → Bool := fun a b => decide (a < b)

/-- The ordering `a > b` on numbers, as a comparator. -/
def greaterNat : Nat → Nat → Bool := fun a b => decide (a > b)

/-- Pairs ordered by their first component only: a strict weak ordering under which
distinct values can be equivalent. -/
def lessFst : Nat × Nat → Nat × Nat → Bool := fun a b => decide (a.1 < b.1)

namespace PairingPQ

/-- The pairing heap after pushing 5, 3, 8 under `lessNat`. -/
def demo : PairingPQ Nat := (pushAll lessNat empty_pq [5, 3, 8]).getD empty_pq

/-- The tree of `demo`: root 3 at address 1 with children 8 (address 2) and 5 (address 0). -/
def demoTree : Tree Nat :=
  Tree.node 1 3 (Tree.node 2 8 Tree.nil (Tree.node 0 5 Tree.nil Tree.nil)) Tree.nil

/-- The state `demo` after a client overwrote the root element with 9. -/
def demoMutated : PairingPQ Nat :=
  { demo with mem := store demo.mem 1 { elt := 9, child := some 2, sibling := none, parent := none } }

/-- The tree of `demoMutated`; heap order is violated at the root. -/
def demoMutatedTree : Tree Nat :=
  Tree.node 1 9 (Tree.node 2 8 Tree.nil (Tree.node 0 5 Tree.nil Tree.nil)) Tree.nil

end PairingPQ

namespace BinaryPQ

/-- The binary heap after pushing 5, 3, 8 under `lessNat`. -/
def demo : BinaryPQ Nat := (pushAll lessNat empty_pq [5, 3, 8]).getD empty_pq

end BinaryPQ

/-!
## Destruction, move construction, and further observers
-/

namespace PairingPQ

variable {α : Type}

/-- Method `destroy(node)`: release what is behind the `child` link, then what is behind
the `sibling` link, then the node itself. A `delete` of a pointer that designates no live
node is undefined. -/
def destroy : Nat → Mem α → Option Nat → Option (Mem α)
  | _, m, none => some m
  | 0, _, some _ => none
  | fuel + 1, m, some node => do
    let n ← m node
    let m ← destroy fuel m n.child
    let n ← m node
    let m ← destroy fuel m n.sibling
    let _ ← m node
    pure (release m node)

/-- The destructor `~PairingPQ()`: `destroy(root); nodeCount = 0; root = nullptr;`. -/
def destructor (q : PairingPQ α) : Option (PairingPQ α) := do
  let m ← destroy q.fresh q.mem q.root
  pure { mem := m, fresh := q.fresh, root := none, nodeCount := 0 }

/-- The defaulted move constructor `PairingPQ(PairingPQ &&) = default`: every member of
the new object is initialised from the same member of `other`. For the pointer `root` and
the integer `nodeCount` that is a copy which leaves the member of `other` as it was; the
free store is not touched. The result is the new object and `other` after the call. -/
def moveCtor (other : PairingPQ α) : PairingPQ α × PairingPQ α :=
  ({ mem := other.mem, fresh := other.fresh, root := other.root, nodeCount := other.nodeCount },
    other)

/-- The loop of `pop` in the words of its description: the next child is detached from
its sibling and parent links and then combined with the tree accumulated so far by a call
of `meld`; the loop goes on with the following sibling. -/
def foldMeld (compare : α → α → Bool) :
    Nat → Mem α → Option Nat → Option Nat → Option (Mem α × Option Nat)
  | _, m, current, none => some (m, current)
  | 0, _, _, some _ => none
  | fuel + 1, m, current, some c => do
    let cn ← m c
    let next := cn.sibling
    let m ← setSibling m c none
    let m ← setParent m c none
    let (m, r) ← meld compare m current (some c)
    foldMeld compare fuel m r next

/-- Method `pop()` in the words of its description: the children `c1, ..., cn` of the
root are folded from the left by `meld`, starting from `c1` detached from its sibling and
parent links; then the old root is deleted and the count decremented. -/
def popByMeld (compare : α → α → Bool) (q : PairingPQ α) : Option (PairingPQ α) := do
  let oldRoot ← q.root
  let rn ← q.mem oldRoot
  let (m, r) ← (match rn.child with
    | none => some (q.mem, none)
    | some c1 => do
      let cn ← q.mem c1
      let m ← setSibling q.mem c1 none
      let m ← setParent m c1 none
      foldMeld compare q.fresh m (some c1) cn.sibling)
  pure { mem := release m oldRoot, fresh := q.fresh, root := r, nodeCount := q.nodeCount - 1 }

/-- The nodes met from `start` by following sibling links until the null link. -/
def chain : Nat → Mem α → Option Nat → Option (List Nat)
  | _, _, none => some []
  | 0, _, some _ => none
  | fuel + 1, m, some a => do
    let n ← m a
    let rest ← chain fuel m n.sibling
    pure (a :: rest)

/-- The child chain of the node at `p`: `p.child` followed by sibling links. -/
def children (q : PairingPQ α) (p : Nat) : Option (List Nat) :=
  (q.mem p).bind fun pn => chain q.fresh q.mem pn.child

/-- The states reached from the empty queue by `push`/`addNode`, `pop` on a non-empty
queue, `updatePriorities`, and `updateElt` on a live node with any new value. -/
inductive Built (compare : α → α → Bool) : PairingPQ α → Prop where
  | empty : Built compare empty_pq
  | push {q q2 : PairingPQ α} (v : α) :
      Built compare q → push compare q v = some q2 → Built compare q2
  | pop {q q2 : PairingPQ α} :
      Built compare q → empty q = false → pop compare q = some q2 → Built compare q2
  | updatePriorities {q q2 : PairingPQ α} :
      Built compare q → updatePriorities compare q = some q2 → Built compare q2
  | updateElt {q q2 : PairingPQ α} (node : Nat) (v : α) (old : Node α) :
      Built compare q → q.mem node = some old → updateElt compare q node v = some q2 →
      Built compare q2

/-- The pairing heap after pushing 5, 3 under `lessNat`: root 3 at address 1 with the
single child 5 at address 0. -/
def demoTwo : PairingPQ Nat := (pushAll lessNat empty_pq [5, 3]).getD empty_pq

/-- The free store of `demoTwo` after `new Node(8)` returned address 2. -/
def demoAlloc : Mem Nat :=
  store demoTwo.mem 2 { elt := 8, child := none, sibling := none, parent := none }

/-- The pairing heap after pushing 2, 4, 1 under `lessNat`: root 1 at address 2, its child
2 at address 0, whose child is 4 at address 1. -/
def demoChain : PairingPQ Nat := (pushAll lessNat empty_pq [2, 4, 1]).getD empty_pq

end PairingPQ

namespace BinaryPQ

/-- Four pairs, two of them equivalent to each other under `lessFst` twice over. -/
def tied : List (Nat × Nat) := [(1, 0), (1, 1), (2, 0), (2, 1)]

/-- A vector of 2^30 elements: a zero at slot 2^29 - 1 and ones everywhere else. -/
def limitRange : List Nat := List.replicate (2 ^ 29 - 1) 1 ++ 0 :: List.replicate (2 ^ 29) 1

end BinaryPQ

/-!
## The store

Frame rule for the representation predicate and refinement of `meld`.
-/

namespace PairingPQ

variable {α : Type}

theorem setParent_of {m : Mem α} {a : Nat} {n : Node α} (h : m a = some n) (p : Option Nat) :
    setParent m a p = some (store m a { n with parent := p }) := by
  simp [setParent, h]

theorem setSibling_of {m : Mem α} {a : Nat} {n : Node α} (h : m a = some n) (p : Option Nat) :
    setSibling m a p = some (store m a { n with sibling := p }) := by
  simp [setSibling, h]

theorem setChild_of {m : Mem α} {a : Nat} {n : Node α} (h : m a = some n) (p : Option Nat) :
    setChild m a p = some (store m a { n with child := p }) := by
  simp [setChild, h]

theorem setElt_of {m : Mem α} {a : Nat} {n : Node α} (h : m a = some n) (v : α) :
    setElt m a v = some (store m a { n with elt := v }) := by
  simp [setElt, h]

@[simp] theorem store_same (m : Mem α) (a : Nat) (n : Node α) : store m a n a = some n := by
  simp [store]

theorem store_other (m : Mem α) {a b : Nat} (n : Node α) (h : b ≠ a) :
    store m a n b = m b := by
  simp [store, h]

theorem store_self {m : Mem α} {a : Nat} {n : Node α} (h : m a = some n) : store m a n = m := by
  funext b
  by_cases hb : b = a
  · subst hb; simp [store, h]
  · simp [store, hb]

namespace Tree

@[simp] theorem addrs_nil : (nil : Tree α).addrs = [] := rfl

@[simp] theorem addrs_node (a : Nat) (e : α) (c s : Tree α) :
    (node a e c s).addrs = a :: (s.addrs ++ c.addrs) := by
  simp [addrs, cells]

@[simp] theorem elts_nil : (nil : Tree α).elts = [] := rfl

@[simp] theorem elts_node (a : Nat) (e : α) (c s : Tree α) :
    (node a e c s).elts = e :: (s.elts ++ c.elts) := by
  simp [elts, cells]

theorem length_addrs (t : Tree α) : t.addrs.length = t.size := by
  induction t with
  | nil => rfl
  | node a e c s ihc ihs => simp [size, ihc, ihs]; omega

theorem length_cells (t : Tree α) : t.cells.length = t.size := by
  rw [← length_addrs]; simp [addrs]

theorem ptr_mem_addrs {t : Tree α} {a : Nat} (h : t.ptr = some a) : a ∈ t.addrs := by
  cases t with
  | nil => simp [ptr] at h
  | node b e c s => simp [ptr] at h; simp [h]

theorem ptr_eq_none {t : Tree α} : t.ptr = none ↔ t = nil := by
  cases t <;> simp [ptr]

end Tree

/-- Frame rule: a store that agrees with `m` on the addresses of `t` holds `t` as well. -/
theorem Rep.frame {m m2 : Mem α} {t : Tree α} :
    ∀ {par : Option Nat}, (∀ a ∈ t.addrs, m2 a = m a) → Rep m par t → Rep m2 par t := by
  induction t with
  | nil => intro _ _ _; trivial
  | node a e c s ihc ihs =>
    intro par h hr
    obtain ⟨h1, h2, h3⟩ := hr
    refine ⟨?_, ihc (fun x hx => h x (by simp [hx])) h2, ihs (fun x hx => h x (by simp [hx])) h3⟩
    rw [h a (by simp)]; exact h1

/-- Every node of a held graph is live. -/
theorem Rep.live {m : Mem α} {t : Tree α} :
    ∀ {par : Option Nat}, Rep m par t → ∀ a ∈ t.addrs, ∃ n, m a = some n := by
  induction t with
  | nil => intro _ _ a ha; simp at ha
  | node b e c s ihc ihs =>
    intro par hr a ha
    obtain ⟨h1, h2, h3⟩ := hr
    simp at ha
    rcases ha with rfl | ha | ha
    · exact ⟨_, h1⟩
    · exact ihs h3 a ha
    · exact ihc h2 a ha

/-- The first node of a held graph carries the expected parent link. -/
theorem Rep.head_parent {m : Mem α} {t : Tree α} {par : Option Nat} {x : Nat} {n : Node α}
    (hr : Rep m par t) (hx : t.ptr = some x) (hn : m x = some n) : n.parent = par := by
  cases t with
  | nil => simp [Tree.ptr] at hx
  | node b e c s =>
    simp [Tree.ptr] at hx; subst hx
    have := hr.1
    rw [hn] at this
    simp at this
    rw [this]

/-- Re-assigning the parent link of the first node of a held graph changes nothing. -/
theorem Rep.setParentIf_head {m : Mem α} {t : Tree α} {par : Option Nat}
    (hr : Rep m par t) : setParentIf m t.ptr par = some m := by
  cases t with
  | nil => rfl
  | node b e c s =>
    have h1 := hr.1
    simp only [Tree.ptr, setParentIf]
    rw [setParent_of h1]
    exact congrArg some (store_self h1)

theorem Rep.store_iff {m : Mem α} {t : Tree α} {par : Option Nat} {a : Nat} (n : Node α)
    (h : a ∉ t.addrs) : Rep (store m a n) par t ↔ Rep m par t := by
  constructor
  · intro hr
    exact hr.frame (fun x hx => (store_other m n (by rintro rfl; exact h hx)).symm)
  · intro hr
    exact hr.frame (fun x hx => store_other m n (by rintro rfl; exact h hx))

@[simp] theorem Tree.ptr_nil : (Tree.nil : Tree α).ptr = none := rfl

@[simp] theorem Tree.ptr_node (a : Nat) (e : α) (c s : Tree α) :
    (Tree.node a e c s).ptr = some a := rfl

/-- Refinement of `meld` on two non-empty graphs: the first is a root, the second has no
sibling (its parent link is arbitrary, `meld` overwrites it). Only the two first nodes
are written. -/
theorem meld_spec (compare : α → α → Bool) {m : Mem α} {a b : Nat} {e f : α} {c d : Tree α}
    {q : Option Nat}
    (h1 : Rep m none (Tree.node a e c Tree.nil)) (h2 : Rep m q (Tree.node b f d Tree.nil))
    (hab : a ≠ b) (hac : a ∉ c.addrs) (had : a ∉ d.addrs) (hbc : b ∉ c.addrs)
    (hbd : b ∉ d.addrs) :
    ∃ m2, meld compare m (some a) (some b) =
        some (m2, (Tree.meld compare (Tree.node a e c Tree.nil) (Tree.node b f d Tree.nil)).ptr) ∧
      Rep m2 none (Tree.meld compare (Tree.node a e c Tree.nil) (Tree.node b f d Tree.nil)) ∧
      ∀ x, x ≠ a → x ≠ b → m2 x = m x := by
  obtain ⟨ha, hc, -⟩ := h1
  obtain ⟨hb, hd, -⟩ := h2
  have hba : b ≠ a := fun h => hab h.symm
  by_cases hcmp : compare f e = true
  · simp (disch := simp (disch := assumption) [*, Rep.store_iff])
      [meld, setParent, setSibling, setChild, store_other, ha, hb, hab, hba, hcmp,
        Tree.meld, Rep.store_iff, Rep.setParentIf_head]
    simp (disch := assumption) [Rep, store_other, Rep.store_iff, hab, hc, hd]
    intro x hxa hxb
    simp [store_other, hxa, hxb]
  · simp (disch := simp (disch := assumption) [*, Rep.store_iff])
      [meld, setParent, setSibling, setChild, store_other, ha, hb, hab, hba, hcmp,
        Tree.meld, Rep.store_iff, Rep.setParentIf_head]
    simp (disch := assumption) [Rep, store_other, Rep.store_iff, hba, hc, hd]
    intro x hxa hxb
    simp [store_other, hxa, hxb]

theorem meld_none_left (compare : α → α → Bool) (m : Mem α) (p : Option Nat) :
    meld compare m none p = some (m, p) := rfl

theorem meld_none_right (compare : α → α → Bool) (m : Mem α) (p : Option Nat) :
    meld compare m p none = some (m, p) := by
  cases p <;> rfl

/-- One iteration of the loop of `pop` is: cut the next sibling off the chain, then
`meld(current, nextSibling)`. -/
theorem popLoop_succ (compare : α → α → Bool) (fuel : Nat) (m : Mem α) (cur ns : Nat) :
    popLoop compare (fuel + 1) m cur (some ns) =
      (m ns).bind fun nsn =>
        (setSibling m ns none).bind fun m1 =>
          (meld compare m1 (some cur) (some ns)).bind fun r =>
            r.2.bind fun c => popLoop compare fuel r.1 c nsn.sibling := by
  simp only [popLoop, meld, Option.bind_eq_bind, Option.bind_assoc, Option.pure_def]
  refine congrArg _ (funext fun nsn => ?_)
  refine congrArg _ (funext fun m1 => ?_)
  refine congrArg _ (funext fun nsn1 => ?_)
  refine congrArg _ (funext fun cn => ?_)
  split
  · simp only [Option.bind_assoc, Option.some_bind]
  · simp only [Option.bind_assoc, Option.some_bind]

namespace Tree

theorem meld_node_node (compare : α → α → Bool) (a : Nat) (e : α) (c : Tree α) (b : Nat) (f : α)
    (d : Tree α) :
    ∃ r g k, meld compare (node a e c nil) (node b f d nil) = node r g k nil ∧
      (r = a ∨ r = b) ∧
      (node r g k nil).cells.Perm ((node a e c nil).cells ++ (node b f d nil).cells) := by
  by_cases h : compare f e = true
  · refine ⟨b, f, node a e c d, by simp [meld, h], Or.inr rfl, ?_⟩
    simp only [cells, List.nil_append, List.cons_append, List.append_nil]
    rw [← Multiset.coe_eq_coe]
    simp only [← Multiset.coe_add, ← Multiset.cons_coe, ← Multiset.singleton_add]
    abel
  · refine ⟨a, e, node b f d c, by simp [meld, h], Or.inl rfl, ?_⟩
    simp only [cells, List.nil_append, List.cons_append, List.append_nil]
    rw [← Multiset.coe_eq_coe]
    simp only [← Multiset.coe_add, ← Multiset.cons_coe, ← Multiset.singleton_add]
    abel

theorem foldChain_spec (compare : α → α → Bool) (rest : Tree α) :
    ∀ (a : Nat) (e : α) (c : Tree α),
      ∃ r g k, foldChain compare (node a e c nil) rest = node r g k nil ∧
        (node r g k nil).cells.Perm ((node a e c nil).cells ++ rest.cells) := by
  induction rest with
  | nil => intro a e c; exact ⟨a, e, c, rfl, by simp [cells]⟩
  | node b f d s _ ihs =>
    intro a e c
    obtain ⟨r, g, k, hm, -, hp⟩ := meld_node_node compare a e c b f d
    obtain ⟨r2, g2, k2, hf, hp2⟩ := ihs r g k
    refine ⟨r2, g2, k2, by simp [foldChain, hm, hf], ?_⟩
    refine hp2.trans ((hp.append_right _).trans ?_)
    simp only [cells, List.nil_append, List.cons_append, List.append_nil, List.append_assoc]
    rw [← Multiset.coe_eq_coe]
    simp only [← Multiset.coe_add, ← Multiset.cons_coe, ← Multiset.singleton_add]
    abel

theorem addrs_perm2 {t u v : Tree α} (h : t.cells.Perm (u.cells ++ v.cells)) :
    t.addrs.Perm (u.addrs ++ v.addrs) := by
  simpa [addrs] using h.map Prod.fst

theorem elts_perm2 {t u v : Tree α} (h : t.cells.Perm (u.cells ++ v.cells)) :
    t.elts.Perm (u.elts ++ v.elts) := by
  simpa [elts] using h.map Prod.snd

theorem addrs_perm {t u : Tree α} (h : t.cells.Perm u.cells) : t.addrs.Perm u.addrs :=
  h.map Prod.fst

theorem elts_perm {t u : Tree α} (h : t.cells.Perm u.cells) : t.elts.Perm u.elts :=
  h.map Prod.snd

end Tree

/-!
## Refinement of `pop`
-/

/-- Refinement of the loop of `pop`: it folds `meld` over the rest of the sibling chain,
whose nodes may still carry the parent link `r` of the removed root. -/
theorem popLoop_spec (compare : α → α → Bool) (r : Option Nat) (rest : Tree α) :
    ∀ (fuel : Nat) (m : Mem α) (a : Nat) (e : α) (c : Tree α),
      rest.size ≤ fuel →
      Rep m none (Tree.node a e c Tree.nil) → Rep m r rest →
      (a :: (c.addrs ++ rest.addrs)).Nodup →
      ∃ m2 a2 e2 c2, Tree.foldChain compare (Tree.node a e c Tree.nil) rest
          = Tree.node a2 e2 c2 Tree.nil ∧
        popLoop compare fuel m a rest.ptr = some (m2, a2) ∧
        Rep m2 none (Tree.node a2 e2 c2 Tree.nil) ∧
        ∀ x, x ≠ a → x ∉ rest.addrs → m2 x = m x := by
  induction rest with
  | nil =>
    intro fuel m a e c _ h1 _ _
    exact ⟨m, a, e, c, rfl, by simp [popLoop], h1, fun _ _ _ => rfl⟩
  | node b f d s _ ihs =>
    intro fuel m a e c hfuel h1 h2 hnd
    obtain ⟨hb, hd, hs⟩ := h2
    cases fuel with
    | zero => simp [Tree.size] at hfuel
    | succ k =>
      have hperm0 := hnd
      simp only [Tree.addrs_node] at hperm0
      simp [List.nodup_append] at hnd
      obtain ⟨⟨hac, hab, has, had⟩, hcn, ⟨⟨hbs, hbd⟩, hsn, hdn, hsd⟩, hbc, hcs, hcd⟩ := hnd
      have hba : b ≠ a := fun h => hab h.symm
      -- the store after `nextSibling->sibling = nullptr`
      have h1' : Rep (store m b ⟨f, d.ptr, none, r⟩) none (Tree.node a e c Tree.nil) :=
        (Rep.store_iff _ (by simp [hba, hbc])).2 h1
      have h2' : Rep (store m b ⟨f, d.ptr, none, r⟩) r (Tree.node b f d Tree.nil) :=
        ⟨by simp, (Rep.store_iff _ hbd).2 hd, trivial⟩
      obtain ⟨m2, hmeld, hrep2, hframe2⟩ := meld_spec compare h1' h2' hab hac had hbc hbd
      obtain ⟨a1, e1, c1, hm1, ha1, hp1⟩ := Tree.meld_node_node compare a e c b f d
      rw [hm1] at hmeld hrep2
      have hpa : (a1 :: c1.addrs).Perm (a :: (c.addrs ++ b :: d.addrs)) := by
        simpa using Tree.addrs_perm2 hp1
      have hperm : (a1 :: (c1.addrs ++ s.addrs)).Perm
          (a :: (c.addrs ++ b :: (s.addrs ++ d.addrs))) := by
        have := hpa.append_right s.addrs
        simp only [List.cons_append] at this
        refine this.trans ?_
        rw [← Multiset.coe_eq_coe]
        simp only [← Multiset.coe_add, ← Multiset.cons_coe, ← Multiset.singleton_add]
        abel
      have hs2 : Rep m2 r s := by
        refine hs.frame (fun x hx => ?_)
        rw [hframe2 x (by rintro rfl; exact has hx) (by rintro rfl; exact hbs hx)]
        exact store_other _ _ (by rintro rfl; exact hbs hx)
      obtain ⟨m3, a3, e3, c3, hfold, hloop, hrep3, hframe3⟩ :=
        ihs k m2 a1 e1 c1 (by simp [Tree.size] at hfuel; omega) hrep2 hs2
          (hperm.nodup_iff.2 hperm0)
      refine ⟨m3, a3, e3, c3, by simp [Tree.foldChain, hm1, hfold], ?_, hrep3, ?_⟩
      · rw [Tree.ptr_node, popLoop_succ]
        simp [hb, setSibling, hmeld, hloop]
      · intro x hxa hx
        simp at hx
        have hxa1 : x ≠ a1 := by
          rcases ha1 with rfl | rfl
          · exact hxa
          · exact hx.1
        rw [hframe3 x hxa1 hx.2.1, hframe2 x hxa hx.1]
        exact store_other _ _ hx.1

theorem release_other (m : Mem α) {a b : Nat} (h : b ≠ a) : release m a b = m b := by
  simp [release, h]

@[simp] theorem release_same (m : Mem α) (a : Nat) : release m a a = none := by
  simp [release]

theorem Rep.release {m : Mem α} {t : Tree α} {p : Option Nat} {a : Nat}
    (h : a ∉ t.addrs) (hr : Rep m p t) : Rep (release m a) p t :=
  hr.frame (fun x hx => release_other m (by rintro rfl; exact h hx))

theorem length_le_of_nodup_bound {l : List Nat} {n : Nat} (hnd : l.Nodup)
    (hb : ∀ a ∈ l, a < n) : l.length ≤ n := by
  have hsub : l ⊆ List.range n := fun a ha => List.mem_range.2 (hb a ha)
  simpa using (List.subperm_of_subset hnd hsub).length_le

theorem Tree.size_le_of_bound {t : Tree α} {n : Nat} (hnd : t.addrs.Nodup)
    (hb : ∀ a ∈ t.addrs, a < n) : t.size ≤ n := by
  rw [← Tree.length_addrs]; exact length_le_of_nodup_bound hnd hb

theorem Tree.size_eq_of_perm {t u : Tree α} (h : t.cells.Perm u.cells) : t.size = u.size := by
  rw [← Tree.length_cells, ← Tree.length_cells]; exact h.length_eq

/-- Refinement of `pop` on a non-empty queue. -/
theorem pop_spec (compare : α → α → Bool) {q : PairingPQ α} {r : Nat} {e : α} {c s : Tree α}
    (h : Models q (Tree.node r e c s)) :
    ∃ q2, pop compare q = some q2 ∧ Models q2 (Tree.pop compare (Tree.node r e c s)) ∧
      q2.fresh = q.fresh ∧ q2.nodeCount = q.nodeCount - 1 := by
  obtain ⟨hroot, hrep, hsib, hnd, hcount, hown, hbound⟩ := h
  simp only [Tree.sib] at hsib
  subst hsib
  obtain ⟨hr, hc, -⟩ := hrep
  simp only [Tree.ptr_node] at hroot
  cases c with
  | nil =>
    refine ⟨⟨release q.mem r, q.fresh, none, q.nodeCount - 1⟩, by simp [pop, hroot, hr], ?_, rfl,
      rfl⟩
    refine ⟨rfl, trivial, rfl, by simp [Tree.pop], by simp [hcount, Tree.size, Tree.pop], ?_,
      by simp [Tree.pop]⟩
    intro a _
    by_cases ha : a = r
    · subst ha; simp
    · simp only [release_other _ ha]; exact hown a (by simp [ha])
  | node b f d s1 =>
    obtain ⟨hb, hd, hs1⟩ := hc
    have hnd0 := hnd
    simp [List.nodup_append] at hnd
    obtain ⟨⟨hrb, hrs1, hrd⟩, ⟨hbs1, hbd⟩, hs1n, hdn, hs1d⟩ := hnd
    have hndc : (b :: (d.addrs ++ s1.addrs)).Nodup := by
      simp [List.nodup_append, hbs1, hbd, hs1n, hdn, hs1d.symm]
    have hfuel : s1.size ≤ q.fresh :=
      Tree.size_le_of_bound hs1n (fun a ha => hbound a (by simp [ha]))
    have hacc : Rep (store (store q.mem b ⟨f, d.ptr, s1.ptr, none⟩) b ⟨f, d.ptr, none, none⟩)
        none (Tree.node b f d Tree.nil) := by
      simp (disch := assumption) [Rep, Rep.store_iff, hd]
    have hrest : Rep (store (store q.mem b ⟨f, d.ptr, s1.ptr, none⟩) b ⟨f, d.ptr, none, none⟩)
        (some r) s1 := by
      simp (disch := assumption) [Rep.store_iff, hs1]
    obtain ⟨m3, a3, e3, c3, hfold, hloop, hrep3, hframe3⟩ :=
      popLoop_spec compare (some r) s1 q.fresh _ b f d hfuel hacc hrest hndc
    obtain ⟨a4, e4, c4, hfold4, hperm4⟩ := Tree.foldChain_spec compare s1 b f d
    rw [hfold] at hfold4
    cases hfold4
    have hpa : (a3 :: c3.addrs).Perm (b :: (d.addrs ++ s1.addrs)) := by
      have := hperm4.map Prod.fst
      simpa [Tree.cells, Tree.addrs] using this
    have hnd3 : (a3 :: c3.addrs).Nodup := hpa.nodup_iff.2 hndc
    have hmem3 : ∀ x, x ∈ a3 :: c3.addrs ↔ x ∈ b :: (d.addrs ++ s1.addrs) := fun x => hpa.mem_iff
    have hr3 : r ∉ a3 :: c3.addrs := by
      rw [hmem3]; simp [hrb, hrs1, hrd]
    refine ⟨⟨release m3 r, q.fresh, some a3, q.nodeCount - 1⟩, ?_, ?_, rfl, rfl⟩
    · have h3 := hrep3.1
      simp [pop, hroot, hr, setParent, setSibling, hb, hloop, h3]
      exact congrArg (fun k => release k r) (store_self h3)
    · simp only [Tree.pop, hfold]
      refine ⟨rfl, hrep3.release (by simpa using hr3), rfl, by simpa using hnd3, ?_, ?_, ?_⟩
      · simp only [hcount]
        rw [← Tree.length_addrs, ← Tree.length_addrs]
        simp only [Tree.addrs_node, Tree.addrs_nil, List.nil_append, List.length_cons,
          List.length_append] at *
        have := hpa.length_eq
        simp at this
        omega
      · intro a ha
        by_cases har : a = r
        · subst har; simp
        · simp only [release_other _ har]
          have ha' : a ∉ b :: (d.addrs ++ s1.addrs) := by
            rw [← hmem3]; simpa using ha
          simp at ha'
          rw [hframe3 a ha'.1 ha'.2.2, store_other _ _ ha'.1, store_other _ _ ha'.1]
          exact hown a (by simp [har, ha'])
      · intro a ha
        have ha' : a ∈ b :: (d.addrs ++ s1.addrs) := by
          rw [← hmem3]; simpa using ha
        exact hbound a (by simp at ha'; simp; tauto)

/-!
## Refinement of `addNode`, `makeDeque` and the loops of `updatePriorities`
-/

theorem Models.nil_iff {q : PairingPQ α} {t : Tree α} (h : Models q t) :
    q.root = none ↔ t = Tree.nil := by
  rw [h.root]; exact Tree.ptr_eq_none

theorem Models.top_eq {q : PairingPQ α} {r : Nat} {e : α} {c s : Tree α}
    (h : Models q (Tree.node r e c s)) : top q = some e := by
  have h1 := h.root
  have h2 := h.rep.1
  simp only [Tree.ptr_node] at h1
  simp [top, h1, h2]

theorem models_empty : Models (empty_pq : PairingPQ α) Tree.nil :=
  ⟨rfl, trivial, rfl, by simp, rfl, fun _ _ => rfl, by simp⟩

/-- Refinement of `addNode`: the new node lives at the old allocation counter. -/
theorem addNode_spec (compare : α → α → Bool) {q : PairingPQ α} {t : Tree α}
    (h : Models q t) (v : α) :
    ∃ q2, addNode compare q v = some (q2, q.fresh) ∧
      Models q2 (Tree.meld compare t (Tree.node q.fresh v Tree.nil Tree.nil)) ∧
      q2.fresh = q.fresh + 1 ∧ q2.nodeCount = q.nodeCount + 1 := by
  obtain ⟨hroot, hrep, hsib, hnd, hcount, hown, hbound⟩ := h
  have hfresh : q.fresh ∉ t.addrs := fun hx => Nat.lt_irrefl _ (hbound _ hx)
  cases t with
  | nil =>
    simp only [Tree.ptr_nil] at hroot
    refine ⟨⟨store q.mem q.fresh ⟨v, none, none, none⟩, q.fresh + 1, some q.fresh,
      q.nodeCount + 1⟩, by simp [addNode, hroot, meld], ?_, rfl, rfl⟩
    refine ⟨rfl, by simp [Tree.meld, Rep], rfl, by simp [Tree.meld],
      by simp [hcount, Tree.meld, Tree.size], ?_, by simp [Tree.meld]⟩
    intro a ha
    simp [Tree.meld] at ha
    dsimp only
    rw [store_other _ _ ha]
    exact hown a (by simp)
  | node r e c s =>
    simp only [Tree.sib] at hsib
    subst hsib
    simp only [Tree.ptr_node] at hroot
    simp at hfresh
    have hnd0 := hnd
    simp [List.nodup_append] at hnd
    have h1 : Rep (store q.mem q.fresh ⟨v, none, none, none⟩) none (Tree.node r e c Tree.nil) :=
      (Rep.store_iff _ (by simp [hfresh])).2 hrep
    have h2 : Rep (store q.mem q.fresh ⟨v, none, none, none⟩) none
        (Tree.node q.fresh v Tree.nil Tree.nil) := by
      simp [Rep]
    obtain ⟨m2, hmeld, hrep2, hframe⟩ := meld_spec compare h1 h2 (Ne.symm hfresh.1) hnd.1
      (by simp) hfresh.2 (by simp)
    obtain ⟨a1, e1, c1, hm1, ha1, hp1⟩ := Tree.meld_node_node compare r e c q.fresh v Tree.nil
    have hpa : (a1 :: c1.addrs).Perm (r :: (c.addrs ++ [q.fresh])) := by
      simpa using Tree.addrs_perm2 hp1
    rw [hm1] at hmeld hrep2 ⊢
    refine ⟨⟨m2, q.fresh + 1, some a1, q.nodeCount + 1⟩, by simp [addNode, hroot, hmeld], ?_, rfl,
      rfl⟩
    have hmem : ∀ x, x ∈ a1 :: c1.addrs ↔ x ∈ r :: (c.addrs ++ [q.fresh]) := fun x => hpa.mem_iff
    refine ⟨rfl, hrep2, rfl, ?_, ?_, ?_, ?_⟩
    · simp only [Tree.addrs_node, Tree.addrs_nil, List.nil_append]
      refine hpa.nodup_iff.2 ?_
      simp [List.nodup_append, hnd, hfresh]
      exact Ne.symm hfresh.1
    · simp only [hcount]
      rw [← Tree.length_addrs, ← Tree.length_addrs]
      have := hpa.length_eq
      simp at this ⊢
      omega
    · intro a ha
      have ha' : a ∉ r :: (c.addrs ++ [q.fresh]) := by
        rw [← hmem]; simpa using ha
      simp at ha'
      dsimp only
      rw [hframe a ha'.1 ha'.2.2, store_other _ _ ha'.2.2]
      exact hown a (by simp [ha'])
    · intro a ha
      have ha' : a ∈ r :: (c.addrs ++ [q.fresh]) := by
        rw [← hmem]; simpa using ha
      simp at ha'
      rcases ha' with rfl | ha' | rfl
      · exact Nat.lt_succ_of_lt (hbound _ (by simp))
      · exact Nat.lt_succ_of_lt (hbound _ (by simp [ha']))
      · exact Nat.lt_succ_self _

theorem Rep.links {m : Mem α} {t : Tree α} : ∀ {p : Option Nat}, Rep m p t → Links m t := by
  induction t with
  | nil => intro _ _; trivial
  | node a e c s ihc ihs =>
    intro p h
    exact ⟨⟨_, h.1, rfl, rfl, rfl⟩, ihc h.2.1, ihs h.2.2⟩

/-- Refinement of `makeDeque`: it appends the addresses of the graph in visiting order. -/
theorem makeDeque_spec {m : Mem α} (t : Tree α) :
    ∀ (fuel : Nat) (acc : List Nat), t.size ≤ fuel → Links m t →
      makeDeque fuel m t.ptr acc = some (acc ++ t.addrs) := by
  induction t with
  | nil => intro fuel acc _ _; cases fuel <;> simp [makeDeque]
  | node a e c s ihc ihs =>
    intro fuel acc hfuel hl
    obtain ⟨⟨n, ha, -, hnc, hns⟩, hc, hs⟩ := hl
    cases fuel with
    | zero => simp [Tree.size] at hfuel
    | succ k =>
      simp only [Tree.size] at hfuel
      simp [makeDeque, ha, hnc, hns, ihs k (acc ++ [a]) (by omega) hs,
        ihc k _ (by omega) hc]

@[simp] theorem store_store (m : Mem α) (a : Nat) (n n2 : Node α) :
    store (store m a n) a n2 = store m a n2 := by
  funext b
  by_cases hb : b = a <;> simp [store, hb]

/-- Refinement of `meld(root, node)` when the root may be null. -/
theorem meld_root_spec (compare : α → α → Bool) {m : Mem α} {acc : Tree α} {b : Nat} {f : α}
    {d : Tree α} (hsib : acc.sib = Tree.nil) (h1 : Rep m none acc)
    (h2 : Rep m none (Tree.node b f d Tree.nil)) (hnd : (acc.addrs ++ b :: d.addrs).Nodup) :
    ∃ m2, meld compare m acc.ptr (some b) =
        some (m2, (Tree.meld compare acc (Tree.node b f d Tree.nil)).ptr) ∧
      Rep m2 none (Tree.meld compare acc (Tree.node b f d Tree.nil)) ∧
      ∀ x, x ∉ acc.addrs → x ≠ b → m2 x = m x := by
  cases acc with
  | nil => exact ⟨m, rfl, h2, fun _ _ _ => rfl⟩
  | node a e c s =>
    simp only [Tree.sib] at hsib
    subst hsib
    have hab : a ≠ b := by rintro rfl; simp at hnd
    have hac : a ∉ c.addrs := by intro h; simp [List.nodup_append, h] at hnd
    have had : a ∉ d.addrs := by intro h; simp [List.nodup_append, h] at hnd
    have hbc : b ∉ c.addrs := by intro h; simp [List.nodup_append, h] at hnd
    have hbd : b ∉ d.addrs := by intro h; simp [List.nodup_append, h] at hnd
    obtain ⟨m2, hmeld, hrep2, hframe⟩ := meld_spec compare h1 h2 hab hac had hbc hbd
    exact ⟨m2, hmeld, hrep2, fun x hx hxb => hframe x (by simp at hx; exact hx.1) hxb⟩

namespace Tree

theorem meld_shape (compare : α → α → Bool) (acc : Tree α) (b : Nat) (f : α) (d : Tree α)
    (hsib : acc.sib = nil) :
    (meld compare acc (node b f d nil)).sib = nil ∧
      (meld compare acc (node b f d nil)).cells.Perm (acc.cells ++ (node b f d nil).cells) := by
  cases acc with
  | nil => simp [meld, sib, cells]
  | node a e c s =>
    simp only [sib] at hsib
    subst hsib
    obtain ⟨r, g, k, hm, -, hp⟩ := meld_node_node compare a e c b f d
    rw [hm]
    exact ⟨rfl, hp⟩

theorem meldCells_shape (compare : α → α → Bool) (l : List (Nat × α)) :
    ∀ acc : Tree α, acc.sib = nil →
      (meldCells compare acc l).sib = nil ∧ (meldCells compare acc l).cells.Perm (acc.cells ++ l) := by
  induction l with
  | nil => intro acc h; simp [meldCells, h]
  | cons p rest ih =>
    intro acc h
    obtain ⟨a, e⟩ := p
    obtain ⟨h1, h2⟩ := meld_shape compare acc a e nil h
    obtain ⟨h3, h4⟩ := ih _ h1
    refine ⟨by simpa [meldCells] using h3, ?_⟩
    simp only [meldCells]
    refine h4.trans ?_
    have := h2.append_right rest
    simpa [cells] using this

end Tree

/-- Refinement of the first loop of `updatePriorities`. -/
theorem clearLinks_spec (l : List (Nat × α)) :
    ∀ m : Mem α, (l.map Prod.fst).Nodup →
      (∀ p ∈ l, ∃ n, m p.1 = some n ∧ n.elt = p.2) →
      ∃ m2, clearLinks m (l.map Prod.fst) = some m2 ∧
        (∀ p ∈ l, m2 p.1 = some ⟨p.2, none, none, none⟩) ∧
        ∀ x, x ∉ l.map Prod.fst → m2 x = m x := by
  induction l with
  | nil => intro m _ _; exact ⟨m, rfl, by simp, fun _ _ => rfl⟩
  | cons p rest ih =>
    intro m hnd hlive
    obtain ⟨a, e⟩ := p
    simp only [List.map_cons, List.nodup_cons] at hnd
    obtain ⟨n, hn, hne⟩ := hlive (a, e) (by simp)
    dsimp only at hn hne
    obtain ⟨m2, hcl, hcells, hframe⟩ := ih (store m a ⟨e, none, none, none⟩) hnd.2 (by
      intro p hp
      have : p.1 ≠ a := by
        rintro rfl
        exact hnd.1 (List.mem_map_of_mem _ hp)
      rw [store_other _ _ this]
      exact hlive p (by simp [hp]))
    refine ⟨m2, ?_, ?_, ?_⟩
    · simp [clearLinks, setChild, setSibling, setParent, hn, hne]
      simpa using hcl
    · intro p hp
      simp at hp
      rcases hp with rfl | hp
      · rw [hframe _ hnd.1]; simp
      · exact hcells p hp
    · intro x hx
      simp at hx
      rw [hframe x (by simpa using hx.2), store_other _ _ hx.1]

/-- Refinement of the second loop of `updatePriorities`. -/
theorem meldAll_spec (compare : α → α → Bool) (l : List (Nat × α)) :
    ∀ (m : Mem α) (acc : Tree α), acc.sib = Tree.nil → Rep m none acc →
      (acc.addrs ++ l.map Prod.fst).Nodup →
      (∀ p ∈ l, m p.1 = some ⟨p.2, none, none, none⟩) →
      ∃ m2, meldAll compare m acc.ptr (l.map Prod.fst) =
          some (m2, (Tree.meldCells compare acc l).ptr) ∧
        Rep m2 none (Tree.meldCells compare acc l) ∧
        ∀ x, x ∉ acc.addrs → x ∉ l.map Prod.fst → m2 x = m x := by
  induction l with
  | nil => intro m acc _ h _ _; exact ⟨m, rfl, h, fun _ _ _ => rfl⟩
  | cons p rest ih =>
    intro m acc hsib hrep hnd hcells
    obtain ⟨a, e⟩ := p
    have ha := hcells (a, e) (by simp)
    dsimp only at ha
    simp only [List.map_cons] at hnd
    have haacc : a ∉ acc.addrs := by intro h; simp [List.nodup_append, h] at hnd
    have harest : a ∉ rest.map Prod.fst := by
      intro h
      have := (List.nodup_cons.1 (List.nodup_append.1 hnd).2.1).1
      exact this h
    have hdisj : ∀ x ∈ rest.map Prod.fst, x ∉ acc.addrs := by
      intro x hx h
      exact (List.nodup_append.1 hnd).2.2 h (by simp only [List.mem_cons]; exact Or.inr hx)
    have h2 : Rep m none (Tree.node a e Tree.nil Tree.nil) := by simp [Rep, ha]
    obtain ⟨m2, hmeld, hrep2, hframe⟩ := meld_root_spec compare hsib hrep h2 (by
      simp only [Tree.addrs_nil, List.nodup_append, List.nodup_cons, List.not_mem_nil,
        not_false_eq_true, List.nodup_nil, and_self, true_and]
      refine ⟨(List.nodup_append.1 hnd).1, ?_⟩
      intro x hx hx2
      simp at hx2
      subst hx2
      exact haacc hx)
    obtain ⟨hsib2, hperm2⟩ := Tree.meld_shape compare acc a e Tree.nil hsib
    have hpa : (Tree.meld compare acc (Tree.node a e Tree.nil Tree.nil)).addrs.Perm
        (acc.addrs ++ [a]) := by
      simpa using Tree.addrs_perm2 hperm2
    have hmem : ∀ x, x ∈ (Tree.meld compare acc (Tree.node a e Tree.nil Tree.nil)).addrs ↔
        x ∈ acc.addrs ++ [a] := fun x => hpa.mem_iff
    obtain ⟨m3, hall, hrep3, hframe3⟩ := ih m2 _ hsib2 hrep2 (by
        have := (hpa.append_right (rest.map Prod.fst)).nodup_iff
        rw [this]
        simpa using hnd) (by
        intro p hp
        have hp1 : p.1 ∈ rest.map Prod.fst := List.mem_map_of_mem _ hp
        have hne : p.1 ≠ a := by
          intro h
          rw [h] at hp1
          exact harest hp1
        rw [hframe _ (hdisj _ hp1) hne]
        exact hcells p (by simp [hp]))
    refine ⟨m3, ?_, by simpa [Tree.meldCells] using hrep3, ?_⟩
    · simp [meldAll, hmeld, Tree.meldCells]
      simpa using hall
    · intro x hx hxl
      simp at hxl
      rw [hframe3 x (by rw [hmem]; simp [hx, hxl.1]) (by simpa using hxl.2), hframe x hx hxl.1]

/-!
## Refinement of `updatePriorities`
-/

/-- Every node of a held graph is live and holds its element. -/
theorem Rep.cells_held {m : Mem α} {t : Tree α} :
    ∀ {p : Option Nat}, Rep m p t → ∀ x ∈ t.cells, ∃ n, m x.1 = some n ∧ n.elt = x.2 := by
  induction t with
  | nil => intro _ _ x hx; simp [Tree.cells] at hx
  | node b e c s ihc ihs =>
    intro p hr x hx
    obtain ⟨h1, h2, h3⟩ := hr
    simp only [Tree.cells, List.mem_cons, List.mem_append] at hx
    rcases hx with rfl | hx | hx
    · exact ⟨_, h1, rfl⟩
    · exact ihs h3 x hx
    · exact ihc h2 x hx

/-- Every node of a linked graph is live and holds its element. -/
theorem Links.cells_linked {m : Mem α} {t : Tree α} :
    Links m t → ∀ x ∈ t.cells, ∃ n, m x.1 = some n ∧ n.elt = x.2 := by
  induction t with
  | nil => intro _ x hx; simp [Tree.cells] at hx
  | node b e c s ihc ihs =>
    intro hl x hx
    obtain ⟨⟨n, h1, he, -, -⟩, h2, h3⟩ := hl
    simp only [Tree.cells, List.mem_cons, List.mem_append] at hx
    rcases hx with rfl | hx | hx
    · exact ⟨n, h1, he⟩
    · exact ihs h3 x hx
    · exact ihc h2 x hx

/-- Refinement of `updatePriorities` on any tree under child and sibling links: the
result is well linked, parent links included, and no other address is written. -/
theorem updatePriorities_shape (compare : α → α → Bool) {q : PairingPQ α} {t : Tree α}
    (h : Shape q t) :
    ∃ q2, updatePriorities compare q = some q2 ∧
      q2.root = (Tree.updatePriorities compare t).ptr ∧
      Rep q2.mem none (Tree.updatePriorities compare t) ∧
      (Tree.updatePriorities compare t).sib = Tree.nil ∧
      q2.fresh = q.fresh ∧ q2.nodeCount = q.nodeCount ∧
      (Tree.updatePriorities compare t).cells.Perm t.cells ∧
      (∀ a, a ∉ t.addrs → q2.mem a = q.mem a) ∧
      (q.root = none → q2 = q) := by
  obtain ⟨hroot, hlinks, hnd, hcount, hbound⟩ := h
  rcases hq : q.root with _ | r
  · have ht : t = Tree.nil := Tree.ptr_eq_none.1 (hroot ▸ hq)
    subst ht
    exact ⟨q, by simp [updatePriorities, hq], hq, trivial, rfl, rfl, rfl, List.Perm.refl _,
      fun _ _ => rfl, fun _ => rfl⟩
  · have hfuel : t.size ≤ q.fresh := Tree.size_le_of_bound hnd hbound
    have hdq := makeDeque_spec t q.fresh [] hfuel hlinks
    obtain ⟨m2, hcl, hcells2, hframe2⟩ := clearLinks_spec t.cells q.mem hnd hlinks.cells_linked
    obtain ⟨m3, hall, hrep3, hframe3⟩ := meldAll_spec compare t.cells m2
      Tree.nil rfl trivial (by simpa using hnd) hcells2
    obtain ⟨hsib3, hperm3⟩ := Tree.meldCells_shape compare t.cells Tree.nil rfl
    have hperm4 : (Tree.updatePriorities compare t).cells.Perm t.cells := by
      simpa [Tree.cells] using hperm3
    refine ⟨⟨m3, q.fresh, (Tree.updatePriorities compare t).ptr, q.nodeCount⟩, ?_, rfl, hrep3,
      hsib3, rfl, rfl, hperm4, ?_, fun h => by simp at h⟩
    · rw [← hroot] at hdq
      simp only [List.nil_append] at hdq
      simp only [Tree.ptr_nil] at hall
      simp only [updatePriorities, hq]
      rw [← hq, hdq]
      simp only [Tree.addrs] at hcl hall ⊢
      simp [hcl, hall, Tree.updatePriorities]
    · intro a ha
      dsimp only
      rw [hframe3 a (by simp) ha, hframe2 a ha]

theorem Models.shape {q : PairingPQ α} {t : Tree α} (h : Models q t) : Shape q t :=
  ⟨h.root, h.rep.links, h.nodup, h.count, h.bound⟩

/-- Refinement of `updatePriorities` on a well-formed state. -/
theorem updatePriorities_spec (compare : α → α → Bool) {q : PairingPQ α} {t : Tree α}
    (h : Models q t) :
    ∃ q2, updatePriorities compare q = some q2 ∧
      Models q2 (Tree.updatePriorities compare t) ∧ q2.fresh = q.fresh ∧
      q2.nodeCount = q.nodeCount ∧ (Tree.updatePriorities compare t).cells.Perm t.cells := by
  obtain ⟨q2, hup, hroot2, hrep2, hsib2, hfresh, hcnt, hperm, hframe, -⟩ :=
    updatePriorities_shape compare h.shape
  have hpa : (Tree.updatePriorities compare t).addrs.Perm t.addrs := Tree.addrs_perm hperm
  refine ⟨q2, hup, ⟨hroot2, hrep2, hsib2, hpa.nodup_iff.2 h.nodup, ?_, ?_, ?_⟩, hfresh, hcnt,
    hperm⟩
  · rw [hcnt, h.count]
    exact (Tree.size_eq_of_perm hperm).symm
  · intro a ha
    have ha' : a ∉ t.addrs := fun hx => ha (hpa.mem_iff.2 hx)
    rw [hframe a ha']
    exact h.owned a ha'
  · intro a ha
    rw [hfresh]
    exact h.bound a (hpa.mem_iff.1 ha)

/-!
## Unlinking a node: the first half of `updateElt`
-/

/-- The body of `updateElt` is: overwrite the element, then for a non-root node unlink it
and meld it with the root. -/
theorem updateElt_eq (compare : α → α → Bool) (q : PairingPQ α) (n : Nat) (v : α) :
    updateElt compare q n v =
      (setElt q.mem n v).bind fun m =>
        if q.root = some n then some { q with mem := m }
        else (detach q.fresh m n).bind fun m2 =>
          (meld compare m2 q.root (some n)).bind fun r =>
            some { q with mem := r.1, root := r.2 } := by
  simp only [updateElt, detach, Option.bind_eq_bind, Option.bind_assoc, Option.pure_def]

namespace Tree

theorem top_subset (t : Tree α) : ∀ x ∈ t.top, x ∈ t.addrs := by
  induction t with
  | nil => intro x hx; simp [top] at hx
  | node a e c s _ ihs =>
    intro x hx
    simp only [top, List.mem_cons] at hx
    rcases hx with rfl | hx
    · simp
    · simp [ihs x hx]

theorem cut_of_not_mem (n : Nat) (t : Tree α) (h : n ∉ t.addrs) : cut n t = t := by
  induction t with
  | nil => rfl
  | node a e c s ihc ihs =>
    simp at h
    simp [cut, Ne.symm h.1, ihc h.2.2, ihs h.2.1]

theorem cut_ptr_of_ne (n : Nat) (t : Tree α) (h : t.ptr ≠ some n) : (cut n t).ptr = t.ptr := by
  cases t with
  | nil => rfl
  | node a e c s =>
    simp at h
    simp [cut, h]

end Tree

/-- The predecessor walk of `updateElt`, for a node `n` of the top-level chain of `u` that
is not its first node: the walk finds the node before `n`, and unlinking `n` there leaves
the chain without `n` and `n` as a root of its own. -/
theorem walk_spec (n : Nat) (u : Tree α) :
    ∀ (p : Option Nat) (m : Mem α) (fuel : Nat),
      Rep m p u → u.addrs.Nodup → n ∈ u.sib.top → u.size ≤ fuel →
      ∃ a prev pnode nn, u.ptr = some a ∧ a ≠ n ∧ findPrev fuel m a n = some prev ∧
        m prev = some pnode ∧ m n = some nn ∧ prev ≠ n ∧ prev ∈ u.addrs ∧ nn.parent = p ∧
        setParentIf m nn.sibling nn.parent = some m ∧
        Rep (store (store m prev { pnode with sibling := nn.sibling }) n
          ⟨nn.elt, nn.child, none, none⟩) p (Tree.cut n u) ∧
        Rep (store (store m prev { pnode with sibling := nn.sibling }) n
          ⟨nn.elt, nn.child, none, none⟩) none (Tree.node n nn.elt (Tree.childOf n u) Tree.nil) := by
  induction u with
  | nil => intro p m fuel _ _ h _; simp [Tree.sib, Tree.top] at h
  | node a e c s _ ihs =>
    intro p m fuel hrep hnd hn hfuel
    obtain ⟨ha, hc, hs⟩ := hrep
    simp only [Tree.sib] at hn
    have hnd0 := hnd
    simp only [Tree.addrs_node, List.nodup_cons, List.mem_append, not_or,
      List.nodup_append] at hnd
    obtain ⟨⟨has, hac⟩, hsn, hcn, hsc⟩ := hnd
    have hns : n ∈ s.addrs := Tree.top_subset s n hn
    have han : a ≠ n := by rintro rfl; exact has hns
    have hnc : n ∉ c.addrs := fun h => hsc hns h
    cases fuel with
    | zero => simp [Tree.size] at hfuel
    | succ k =>
      cases s with
      | nil => simp [Tree.top] at hn
      | node b f d s2 =>
        obtain ⟨hb, hd, hs2⟩ := hs
        simp only [Tree.top, List.mem_cons] at hn
        by_cases hbn : b = n
        · subst hbn
          simp only [Tree.addrs_node, List.nodup_cons, List.mem_append, not_or,
            List.nodup_append, List.mem_cons] at hsn has hsc
          refine ⟨a, a, _, _, rfl, han, ?_, ha, hb, han, by simp, rfl, ?_, ?_, ?_⟩
          · simp [findPrev, ha]
          · exact hs2.setParentIf_head
          · simp only [Tree.cut, if_neg han, Tree.cut_of_not_mem _ _ hnc, if_true]
            have hab : a ≠ b := han
            refine ⟨by simp [store_other _ _ hab], ?_, ?_⟩
            · exact (Rep.store_iff _ hnc).2 ((Rep.store_iff _ hac).2 hc)
            · exact (Rep.store_iff _ hsn.1.1).2 ((Rep.store_iff _ has.2.1).2 hs2)
          · have hcd : Tree.childOf b (Tree.node a e c (Tree.node b f d s2)) = d := by
              simp [Tree.childOf, han, hnc]
            rw [hcd]
            refine ⟨by simp, ?_, trivial⟩
            refine (Rep.store_iff _ hsn.1.2).2 ((Rep.store_iff _ has.2.2).2 hd)
        · have hn2 : n ∈ (Tree.node b f d s2).sib.top := by
            simpa [Tree.sib, Ne.symm hbn] using hn
          simp only [Tree.size] at hfuel
          obtain ⟨b', prev, pnode, nn, hptr, hbn', hfind, hprev, hnn, hpn, hpmem, hpar, hstep,
              hrep1, hrep2⟩ :=
            ihs p m k ⟨hb, hd, hs2⟩ hsn hn2 (by simp only [Tree.size]; omega)
          simp only [Tree.ptr_node, Option.some.injEq] at hptr
          subst hptr
          have hap : a ≠ prev := by rintro rfl; exact has hpmem
          have hpc : prev ∉ c.addrs := fun h => hsc hpmem h
          have hpmem2 : prev ∈ (Tree.node a e c (Tree.node b f d s2)).addrs := by
            rw [Tree.addrs_node]
            exact List.mem_cons_of_mem _ (List.mem_append_left _ hpmem)
          refine ⟨a, prev, pnode, nn, rfl, han, ?_, hprev, hnn, hpn, hpmem2, hpar,
            hstep, ?_, ?_⟩
          · simp [findPrev, ha, hbn, hfind]
          · simp only [Tree.cut, if_neg han, Tree.cut_of_not_mem _ _ hnc]
            refine ⟨?_, ?_, hrep1⟩
            · rw [store_other _ _ han, store_other _ _ hap, ha]
              simp [hbn]
            · exact (Rep.store_iff _ hnc).2 ((Rep.store_iff _ hpc).2 hc)
          · have hcd : Tree.childOf n (Tree.node a e c (Tree.node b f d s2)) =
                Tree.childOf n (Tree.node b f d s2) := by
              simp [Tree.childOf, han, hnc]
            rw [hcd]
            exact hrep2

theorem Tree.ptr_mem_top {t : Tree α} {n : Nat} (h : t.ptr = some n) : n ∈ t.top := by
  cases t with
  | nil => simp at h
  | node a e c s => simp at h; simp [Tree.top, h]

/-- Unlinking a node `n` of the child chain `ch` of the node at `p`. -/
theorem detach_chain (n : Nat) {m : Mem α} {p : Nat} {pn : Node α} {ch : Tree α} {fuel : Nat}
    (hp : m p = some pn) (hpc : pn.child = ch.ptr) (hrep : Rep m (some p) ch)
    (hnd : ch.addrs.Nodup) (hpch : p ∉ ch.addrs) (hn : n ∈ ch.top) (hfuel : ch.size ≤ fuel) :
    ∃ nn m2, m n = some nn ∧ detach fuel m n = some m2 ∧
      m2 p = some { pn with child := (Tree.cut n ch).ptr } ∧
      Rep m2 (some p) (Tree.cut n ch) ∧
      Rep m2 none (Tree.node n nn.elt (Tree.childOf n ch) Tree.nil) ∧
      ∀ x, x ≠ p → x ∉ ch.addrs → m2 x = m x := by
  cases ch with
  | nil => simp [Tree.top] at hn
  | node a e c s =>
    by_cases han : a = n
    · subst han
      obtain ⟨ha, hc, hs⟩ := hrep
      have hpa : p ≠ a := by rintro rfl; simp at hpch
      have hap : a ≠ p := Ne.symm hpa
      simp only [Tree.addrs_node, List.nodup_cons, List.mem_append, not_or,
        List.nodup_append, List.mem_cons] at hnd hpch
      obtain ⟨⟨has, hac⟩, hsn, hcn, hsc⟩ := hnd
      simp only [Tree.ptr_node] at hpc
      refine ⟨_, store (store m p { pn with child := s.ptr }) a ⟨e, c.ptr, none, none⟩, ha, ?_,
        ?_, ?_, ?_, ?_⟩
      · simp [detach, ha, hs.setParentIf_head, hp, hpc, setChild, setSibling, setParent,
          store_other _ _ hap]
      · simp [store_other _ _ hpa, Tree.cut]
      · simp only [Tree.cut, if_true]
        exact (Rep.store_iff _ has).2 ((Rep.store_iff _ hpch.2.1).2 hs)
      · simp only [Tree.childOf, if_true]
        exact ⟨by simp, (Rep.store_iff _ hac).2 ((Rep.store_iff _ hpch.2.2).2 hc), trivial⟩
      · intro x hxp hx
        simp only [Tree.addrs_node, List.mem_cons, not_or] at hx
        rw [store_other _ _ hx.1, store_other _ _ hxp]
    · have hn2 : n ∈ (Tree.node a e c s).sib.top := by
        simpa [Tree.top, Tree.sib, Ne.symm han] using hn
      obtain ⟨a', prev, pnode, nn, hptr, -, hfind, hprev, hnn, hpn, hpmem, hpar, hstep,
          hrep1, hrep2⟩ := walk_spec n _ (some p) m fuel hrep hnd hn2 hfuel
      simp only [Tree.ptr_node, Option.some.injEq] at hptr
      subst hptr
      have hnmem : n ∈ (Tree.node a e c s).addrs := Tree.top_subset _ n hn
      have hpn2 : p ≠ n := by rintro rfl; exact hpch hnmem
      have hpprev : p ≠ prev := by rintro rfl; exact hpch hpmem
      simp only [Tree.ptr_node] at hpc
      refine ⟨nn, _, hnn, ?_, ?_, hrep1, hrep2, ?_⟩
      · rw [hpar] at hstep
        simp [detach, hnn, hpar, hstep, hp, hpc, han, hfind, setSibling, setParent, hprev,
          store_other _ _ (Ne.symm hpn)]
      · rw [store_other _ _ hpn2, store_other _ _ hpprev, hp]
        simp [Tree.cut, han, ← hpc]
      · intro x hxp hx
        have hx1 : x ≠ n := by rintro rfl; exact hx hnmem
        have hx2 : x ≠ prev := by rintro rfl; exact hx hpmem
        rw [store_other _ _ hx1, store_other _ _ hx2]

/-- Unlinking a node `n` that lies strictly below the top-level chain of `t`. -/
theorem detach_spec (n : Nat) (t : Tree α) :
    ∀ (p : Option Nat) (m : Mem α) (fuel : Nat),
      Rep m p t → t.addrs.Nodup → n ∈ t.addrs → n ∉ t.top → t.size ≤ fuel →
      ∃ nn m2, m n = some nn ∧ detach fuel m n = some m2 ∧
        Rep m2 p (Tree.cut n t) ∧
        Rep m2 none (Tree.node n nn.elt (Tree.childOf n t) Tree.nil) ∧
        ∀ x, x ∉ t.addrs → m2 x = m x := by
  induction t with
  | nil => intro p m fuel _ _ h _ _; simp at h
  | node a e c s ihc ihs =>
    intro p m fuel hrep hnd hn hntop hfuel
    obtain ⟨ha, hc, hs⟩ := hrep
    simp only [Tree.top, List.mem_cons, not_or] at hntop
    have hna : n ≠ a := hntop.1
    have han : a ≠ n := Ne.symm hna
    simp only [Tree.addrs_node, List.nodup_cons, List.mem_append, not_or,
      List.nodup_append] at hnd
    obtain ⟨⟨has, hac⟩, hsn, hcn, hsc⟩ := hnd
    simp only [Tree.addrs_node, List.mem_cons, List.mem_append] at hn
    simp only [Tree.size] at hfuel
    rcases hn with hn | hn | hn
    · exact absurd hn hna
    · -- `n` lies below a later sibling
      have hnc : n ∉ c.addrs := fun h => hsc hn h
      obtain ⟨nn, m2, hnn, hdet, hrep1, hrep2, hframe⟩ :=
        ihs p m fuel hs hsn hn hntop.2 (by omega)
      have hsptr : (Tree.cut n s).ptr = s.ptr :=
        Tree.cut_ptr_of_ne n s (fun h => hntop.2 (Tree.ptr_mem_top h))
      refine ⟨nn, m2, hnn, hdet, ?_, ?_, ?_⟩
      · simp only [Tree.cut, if_neg han, Tree.cut_of_not_mem _ _ hnc]
        refine ⟨by rw [hframe a has, ha, hsptr], ?_, hrep1⟩
        exact hc.frame (fun x hx => hframe x (fun h => hsc h hx))
      · have : Tree.childOf n (Tree.node a e c s) = Tree.childOf n s := by
          simp [Tree.childOf, han, hnc]
        rw [this]; exact hrep2
      · intro x hx
        simp only [Tree.addrs_node, List.mem_cons, List.mem_append, not_or] at hx
        exact hframe x hx.2.1
    · -- `n` lies in the child graph
      have hns : n ∉ s.addrs := fun h => hsc h hn
      have hcof : Tree.childOf n (Tree.node a e c s) = Tree.childOf n c := by
        simp [Tree.childOf, han, hn]
      by_cases htop : n ∈ c.top
      · obtain ⟨nn, m2, hnn, hdet, hm2a, hrep1, hrep2, hframe⟩ :=
          detach_chain n ha rfl hc hcn hac htop (show c.size ≤ fuel by omega)
        refine ⟨nn, m2, hnn, hdet, ?_, by rw [hcof]; exact hrep2, ?_⟩
        · simp only [Tree.cut, if_neg han, Tree.cut_of_not_mem _ _ hns]
          refine ⟨hm2a, hrep1, ?_⟩
          exact hs.frame (fun x hx => hframe x (by rintro rfl; exact has hx)
            (fun h => hsc hx h))
        · intro x hx
          simp only [Tree.addrs_node, List.mem_cons, List.mem_append, not_or] at hx
          exact hframe x hx.1 hx.2.2
      · obtain ⟨nn, m2, hnn, hdet, hrep1, hrep2, hframe⟩ :=
          ihc (some a) m fuel hc hcn hn htop (by omega)
        have hcptr : (Tree.cut n c).ptr = c.ptr :=
          Tree.cut_ptr_of_ne n c (fun h => htop (Tree.ptr_mem_top h))
        refine ⟨nn, m2, hnn, hdet, ?_, by rw [hcof]; exact hrep2, ?_⟩
        · simp only [Tree.cut, if_neg han, Tree.cut_of_not_mem _ _ hns]
          refine ⟨by rw [hframe a hac, ha, hcptr], hrep1, ?_⟩
          exact hs.frame (fun x hx => hframe x (fun h => hsc hx h))
        · intro x hx
          simp only [Tree.addrs_node, List.mem_cons, List.mem_append, not_or] at hx
          exact hframe x hx.2.2

/-!
## Refinement of `updateElt`
-/

namespace Tree

theorem setElt_of_not_mem (n : Nat) (v : α) (t : Tree α) (h : n ∉ t.addrs) :
    setElt n v t = t := by
  induction t with
  | nil => rfl
  | node a e c s ihc ihs =>
    simp at h
    simp [setElt, Ne.symm h.1, ihc h.2.2, ihs h.2.1]

@[simp] theorem addrs_setElt (n : Nat) (v : α) (t : Tree α) : (setElt n v t).addrs = t.addrs := by
  induction t with
  | nil => rfl
  | node a e c s ihc ihs => simp [setElt, ihc, ihs]

@[simp] theorem ptr_setElt (n : Nat) (v : α) (t : Tree α) : (setElt n v t).ptr = t.ptr := by
  cases t <;> rfl

@[simp] theorem top_setElt (n : Nat) (v : α) (t : Tree α) : (setElt n v t).top = t.top := by
  induction t with
  | nil => rfl
  | node a e c s _ ihs => simp [setElt, top, ihs]

@[simp] theorem size_setElt (n : Nat) (v : α) (t : Tree α) : (setElt n v t).size = t.size := by
  rw [← length_addrs, ← length_addrs, addrs_setElt]

theorem cut_setElt (n : Nat) (v : α) (t : Tree α) (hnd : t.addrs.Nodup) :
    cut n (setElt n v t) = cut n t := by
  induction t with
  | nil => rfl
  | node a e c s ihc ihs =>
    simp only [addrs_node, List.nodup_cons, List.mem_append, not_or, List.nodup_append] at hnd
    obtain ⟨⟨has, hac⟩, hsn, hcn, hsc⟩ := hnd
    by_cases han : a = n
    · subst han
      simp [setElt, cut, setElt_of_not_mem _ _ _ has]
    · simp [setElt, cut, han, ihc hcn, ihs hsn]

theorem childOf_setElt (n : Nat) (v : α) (t : Tree α) (hnd : t.addrs.Nodup) :
    childOf n (setElt n v t) = childOf n t := by
  induction t with
  | nil => rfl
  | node a e c s ihc ihs =>
    simp only [addrs_node, List.nodup_cons, List.mem_append, not_or, List.nodup_append] at hnd
    obtain ⟨⟨has, hac⟩, hsn, hcn, hsc⟩ := hnd
    by_cases han : a = n
    · subst han
      simp [setElt, childOf, setElt_of_not_mem _ _ _ hac]
    · simp [setElt, childOf, han, ihc hcn, ihs hsn]

/-- Cutting `n` out splits the nodes into `n`, the graph below it and the rest. -/
theorem cut_cells_perm (n : Nat) (t : Tree α) (hnd : t.addrs.Nodup) (hn : n ∈ t.addrs) :
    ∃ e, t.cells.Perm ((n, e) :: ((childOf n t).cells ++ (cut n t).cells)) := by
  induction t with
  | nil => simp at hn
  | node a e c s ihc ihs =>
    simp only [addrs_node, List.nodup_cons, List.mem_append, not_or, List.nodup_append] at hnd
    obtain ⟨⟨has, hac⟩, hsn, hcn, hsc⟩ := hnd
    by_cases han : a = n
    · subst han
      refine ⟨e, ?_⟩
      simp only [cells, childOf, cut, if_true]
      exact List.Perm.cons _ List.perm_append_comm
    · simp only [addrs_node, List.mem_cons, List.mem_append] at hn
      rcases hn with hn | hn | hn
      · exact absurd hn.symm han
      · have hnc : n ∉ c.addrs := fun h => hsc hn h
        obtain ⟨e2, hp⟩ := ihs hsn hn
        refine ⟨e2, ?_⟩
        simp only [cells, childOf, cut, if_neg han, if_neg hnc, cut_of_not_mem _ _ hnc]
        refine ((hp.append_right c.cells).cons (a, e)).trans ?_
        rw [← Multiset.coe_eq_coe]
        simp only [List.cons_append, ← Multiset.coe_add, ← Multiset.cons_coe,
          ← Multiset.singleton_add]
        abel
      · have hns : n ∉ s.addrs := fun h => hsc h hn
        obtain ⟨e2, hp⟩ := ihc hcn hn
        refine ⟨e2, ?_⟩
        simp only [cells, childOf, cut, if_neg han, if_pos hn, cut_of_not_mem _ _ hns]
        refine ((hp.append_left s.cells).cons (a, e)).trans ?_
        rw [← Multiset.coe_eq_coe]
        simp only [List.cons_append, ← Multiset.coe_add, ← Multiset.cons_coe,
          ← Multiset.singleton_add]
        abel

theorem mem_cells_setElt (n : Nat) (v : α) (t : Tree α) :
    ∀ e, (n, e) ∈ (setElt n v t).cells → e = v := by
  induction t with
  | nil => intro e h; simp [setElt, cells] at h
  | node a g c s ihc ihs =>
    intro e h
    simp only [setElt, cells, List.mem_cons, List.mem_append, Prod.mk.injEq] at h
    rcases h with ⟨h1, h2⟩ | h | h
    · simp [← h1] at h2; exact h2
    · exact ihs e h
    · exact ihc e h

theorem cut_ne_nil_of_top (n : Nat) (a : Nat) (e : α) (c s : Tree α) (h : a ≠ n) :
    cut n (node a e c s) = node a e (cut n c) (cut n s) := by
  simp [cut, h]

end Tree

/-- Overwriting the element of a live node. -/
theorem Rep.setElt {m : Mem α} (n : Nat) (v : α) (t : Tree α) :
    ∀ {p : Option Nat}, Rep m p t → n ∈ t.addrs →
      ∃ nn, m n = some nn ∧ Rep (store m n { nn with elt := v }) p (Tree.setElt n v t) := by
  induction t with
  | nil => intro _ _ h; simp at h
  | node a e c s ihc ihs =>
    intro p hrep hn
    obtain ⟨nn, hnn⟩ := hrep.live n hn
    refine ⟨nn, hnn, ?_⟩
    obtain ⟨ha, hc, hs⟩ := hrep
    have hsub : ∀ (u : Tree α) (r : Option Nat), Rep m r u →
        (n ∈ u.addrs → ∃ nn, m n = some nn ∧
          Rep (store m n { nn with elt := v }) r (Tree.setElt n v u)) →
        Rep (store m n { nn with elt := v }) r (Tree.setElt n v u) := by
      intro u r hu ih
      by_cases hnu : n ∈ u.addrs
      · obtain ⟨nn2, hnn2, hr2⟩ := ih hnu
        rw [hnn] at hnn2
        cases hnn2
        exact hr2
      · rw [Tree.setElt_of_not_mem _ _ _ hnu]
        exact (Rep.store_iff _ hnu).2 hu
    refine ⟨?_, hsub c _ hc (ihc hc), hsub s _ hs (ihs hs)⟩
    by_cases han : a = n
    · subst han
      rw [ha] at hnn
      cases hnn
      simp
    · simp [store_other _ _ han, ha, han]

/-- Refinement of `updateElt` on a live node. No ordering assumption is needed for the
links to stay well formed. -/
theorem updateElt_spec (compare : α → α → Bool) {q : PairingPQ α} {t : Tree α}
    (h : Models q t) {n : Nat} (hn : n ∈ t.addrs) (v : α) :
    ∃ q2, updateElt compare q n v = some q2 ∧ Models q2 (Tree.updateElt compare n v t) ∧
      q2.fresh = q.fresh ∧ q2.nodeCount = q.nodeCount ∧
      (Tree.updateElt compare n v t).cells.Perm (Tree.setElt n v t).cells := by
  obtain ⟨hroot, hrep, hsib, hnd, hcount, hown, hbound⟩ := h
  cases t with
  | nil => simp at hn
  | node r e c s =>
    simp only [Tree.sib] at hsib
    subst hsib
    simp only [Tree.ptr_node] at hroot
    obtain ⟨nn, hnn, hrep1⟩ := hrep.setElt n v _ hn
    have hnd0 := hnd
    simp only [Tree.addrs_node, Tree.addrs_nil, List.nil_append, List.nodup_cons] at hnd
    by_cases hrn : r = n
    · subst hrn
      have ht : Tree.setElt r v (Tree.node r e c Tree.nil) = Tree.node r v c Tree.nil := by
        simp [Tree.setElt, Tree.setElt_of_not_mem _ _ _ hnd.1]
      have hu : Tree.updateElt compare r v (Tree.node r e c Tree.nil) =
          Tree.node r v c Tree.nil := by
        simp [Tree.updateElt]
      rw [ht] at hrep1
      rw [hu, ht]
      refine ⟨{ q with mem := store q.mem r { nn with elt := v } }, ?_, ?_, rfl, rfl,
        List.Perm.refl _⟩
      · rw [updateElt_eq]
        simp [PairingPQ.setElt, hnn, hroot]
      · refine ⟨hroot, hrep1, rfl, hnd0, hcount, ?_, hbound⟩
        intro a ha
        have : a ≠ r := by rintro rfl; simp at ha
        dsimp only
        rw [store_other _ _ this]
        exact hown a ha
    · have hnc : n ∈ c.addrs := by
        simp only [Tree.addrs_node, Tree.addrs_nil, List.nil_append, List.mem_cons] at hn
        rcases hn with hn | hn
        · exact absurd hn.symm hrn
        · exact hn
      have hfuel : (Tree.setElt n v (Tree.node r e c Tree.nil)).size ≤ q.fresh := by
        rw [Tree.size_setElt]; exact Tree.size_le_of_bound hnd0 hbound
      obtain ⟨nn1, m2, hnn1, hdet, hrepc, hrepn, hframe⟩ :=
        detach_spec n _ none _ q.fresh hrep1 (by simpa using hnd0) (by simpa using hn)
          (by simp [Tree.top, Ne.symm hrn]) hfuel
      rw [store_same] at hnn1
      cases hnn1
      rw [Tree.cut_setElt _ _ _ hnd0, Tree.cut_ne_nil_of_top _ _ _ _ _ hrn] at hrepc
      simp only [Tree.cut] at hrepc
      rw [Tree.childOf_setElt _ _ _ hnd0] at hrepn
      dsimp only at hrepn
      obtain ⟨e0, hperm0⟩ := Tree.cut_cells_perm n _ hnd0 hn
      rw [Tree.cut_ne_nil_of_top _ _ _ _ _ hrn] at hperm0
      simp only [Tree.cut] at hperm0
      have hu : Tree.updateElt compare n v (Tree.node r e c Tree.nil) =
          Tree.meld compare (Tree.node r e (Tree.cut n c) Tree.nil)
            (Tree.node n v (Tree.childOf n (Tree.node r e c Tree.nil)) Tree.nil) := by
        simp [Tree.updateElt, hrn, Tree.cut]
      obtain ⟨e1, hperm1⟩ := Tree.cut_cells_perm n (Tree.setElt n v (Tree.node r e c Tree.nil))
        (by simpa using hnd0) (by simpa using hn)
      have he1 : e1 = v := Tree.mem_cells_setElt n v _ e1 (hperm1.mem_iff.2 (by simp))
      rw [he1] at hperm1
      rw [Tree.cut_setElt _ _ _ hnd0, Tree.childOf_setElt _ _ _ hnd0,
        Tree.cut_ne_nil_of_top _ _ _ _ _ hrn] at hperm1
      simp only [Tree.cut] at hperm1
      -- address bookkeeping
      have hpa : (Tree.node r e c Tree.nil).addrs.Perm
          (n :: ((Tree.childOf n (Tree.node r e c Tree.nil)).addrs ++
            (r :: (Tree.cut n c).addrs))) := by
        have := hperm0.map Prod.fst
        simpa [Tree.cells, Tree.addrs] using this
      have hnd1 := hpa.nodup_iff.1 hnd0
      have hrcut : r ∉ (Tree.cut n c).addrs := by
        intro hx; simp [List.nodup_append, hx] at hnd1
      have hrch : r ∉ (Tree.childOf n (Tree.node r e c Tree.nil)).addrs := by
        intro hx
        have := (List.nodup_append.1 (List.nodup_cons.1 hnd1).2).2.2 hx
        exact this (by simp)
      have hncut : n ∉ (Tree.cut n c).addrs := by
        intro hx; simp [List.nodup_append, hx] at hnd1
      have hnch : n ∉ (Tree.childOf n (Tree.node r e c Tree.nil)).addrs := by
        intro hx; simp [List.nodup_append, hx] at hnd1
      obtain ⟨m3, hmeld, hrep3, hframe3⟩ :=
        meld_spec compare hrepc hrepn hrn hrcut hrch hncut hnch
      obtain ⟨hsib3, hperm3⟩ := Tree.meld_shape compare (Tree.node r e (Tree.cut n c) Tree.nil) n v
        (Tree.childOf n (Tree.node r e c Tree.nil)) rfl
      rw [← hu] at hmeld hrep3 hsib3 hperm3
      have hperm4 : (Tree.updateElt compare n v (Tree.node r e c Tree.nil)).cells.Perm
          (Tree.setElt n v (Tree.node r e c Tree.nil)).cells := by
        refine hperm3.trans (List.Perm.trans ?_ hperm1.symm)
        simp only [Tree.cells, List.nil_append, List.cons_append]
        rw [← Multiset.coe_eq_coe]
        simp only [← Multiset.coe_add, ← Multiset.cons_coe, ← Multiset.singleton_add]
        abel
      have hpa4 : (Tree.updateElt compare n v (Tree.node r e c Tree.nil)).addrs.Perm
          (Tree.node r e c Tree.nil).addrs := by
        have := Tree.addrs_perm hperm4
        rwa [Tree.addrs_setElt] at this
      refine ⟨{ q with mem := m3,
                       root := (Tree.updateElt compare n v (Tree.node r e c Tree.nil)).ptr },
        ?_, ?_, rfl, rfl, hperm4⟩
      · rw [updateElt_eq]
        simp [PairingPQ.setElt, hnn, hroot, hrn, hdet, hmeld]
      · refine ⟨rfl, hrep3, hsib3, hpa4.nodup_iff.2 hnd0, ?_, ?_, ?_⟩
        · simp only [hcount]
          rw [← Tree.length_addrs, ← Tree.length_addrs]
          exact hpa4.length_eq.symm
        · intro a ha
          have ha' : a ∉ (Tree.node r e c Tree.nil).addrs := fun hx => ha (hpa4.mem_iff.2 hx)
          have har : a ≠ r := by rintro rfl; simp at ha'
          have han : a ≠ n := by rintro rfl; exact ha' hn
          dsimp only
          rw [hframe3 a har han, hframe a (by simpa using ha'), store_other _ _ han]
          exact hown a ha'
        · intro a ha
          exact hbound a (hpa4.mem_iff.1 ha)

end PairingPQ

/-!
## Heap order on trees
-/

namespace StrictWeakOrder

variable {α : Type} {compare : α → α → Bool}

theorem asymm (h : StrictWeakOrder compare) {a b : α} (hab : compare a b = true) :
    compare b a = false := by
  cases hba : compare b a with
  | false => rfl
  | true =>
    have := h.trans a b a hab hba
    rw [h.irrefl] at this
    exact absurd this (by simp)

/-- Negative transitivity: "not more extreme than" is transitive. -/
theorem neg_trans (h : StrictWeakOrder compare) {a b c : α} (hab : compare a b = false)
    (hbc : compare b c = false) : compare a c = false := by
  cases hac : compare a c with
  | false => rfl
  | true =>
    exfalso
    cases hba : compare b a with
    | true =>
      have := h.trans b a c hba hac
      rw [hbc] at this
      exact absurd this (by simp)
    | false =>
      cases hcb : compare c b with
      | true =>
        have := h.trans a c b hac hcb
        rw [hab] at this
        exact absurd this (by simp)
      | false =>
        have := (h.incomp_trans a b c hab hba hbc hcb).1
        rw [hac] at this
        exact absurd this (by simp)

/-- An element more extreme than `b` is not beaten by anything `b` is not beaten by. -/
theorem not_lt_of_lt (h : StrictWeakOrder compare) {x a b : α} (hxb : compare x b = false)
    (hab : compare a b = true) : compare x a = false := by
  cases hxa : compare x a with
  | false => rfl
  | true =>
    have := h.trans x a b hxa hab
    rw [hxb] at this
    exact absurd this (by simp)

end StrictWeakOrder

namespace PairingPQ

variable {α : Type}

namespace Tree

variable {compare : α → α → Bool}

theorem HeapOrdered.meld (h : StrictWeakOrder compare) {a b : Nat} {e f : α} {c d : Tree α}
    (h1 : HeapOrdered compare (node a e c nil)) (h2 : HeapOrdered compare (node b f d nil)) :
    HeapOrdered compare (Tree.meld compare (node a e c nil) (node b f d nil)) := by
  obtain ⟨h1a, h1c, -⟩ := h1
  obtain ⟨h2a, h2c, -⟩ := h2
  by_cases hcmp : compare f e = true
  · simp only [Tree.meld, hcmp, if_true]
    refine ⟨?_, ⟨h1a, h1c, h2c⟩, trivial⟩
    intro x hx
    simp only [elts_node, List.mem_cons, List.mem_append] at hx
    rcases hx with rfl | hx | hx
    · exact h.asymm hcmp
    · exact h2a x hx
    · exact h.not_lt_of_lt (h1a x hx) hcmp
  · simp only [Bool.not_eq_true] at hcmp
    simp only [Tree.meld, hcmp, Bool.false_eq_true, if_false]
    refine ⟨?_, ⟨h2a, h2c, h1c⟩, trivial⟩
    intro x hx
    simp only [elts_node, List.mem_cons, List.mem_append] at hx
    rcases hx with rfl | hx | hx
    · exact hcmp
    · exact h1a x hx
    · exact h.neg_trans (h2a x hx) hcmp

theorem HeapOrdered.meld_root (h : StrictWeakOrder compare) {acc : Tree α} {b : Nat} {f : α}
    {d : Tree α} (hsib : acc.sib = nil) (h1 : HeapOrdered compare acc)
    (h2 : HeapOrdered compare (node b f d nil)) :
    HeapOrdered compare (Tree.meld compare acc (node b f d nil)) := by
  cases acc with
  | nil => exact h2
  | node a e c s =>
    simp only [sib] at hsib
    subst hsib
    exact h1.meld h h2

theorem HeapOrdered.foldChain (h : StrictWeakOrder compare) (rest : Tree α) :
    ∀ (a : Nat) (e : α) (c : Tree α), HeapOrdered compare (node a e c nil) →
      HeapOrdered compare rest → HeapOrdered compare (Tree.foldChain compare (node a e c nil) rest) := by
  induction rest with
  | nil => intro a e c h1 _; exact h1
  | node b f d s _ ihs =>
    intro a e c h1 h2
    obtain ⟨h2a, h2d, h2s⟩ := h2
    obtain ⟨r, g, k, hm, -, -⟩ := meld_node_node compare a e c b f d
    have := h1.meld h (show HeapOrdered compare (node b f d nil) from ⟨h2a, h2d, trivial⟩)
    rw [hm] at this
    simp only [Tree.foldChain, hm]
    exact ihs r g k this h2s

theorem HeapOrdered.pop (h : StrictWeakOrder compare) {t : Tree α}
    (h1 : HeapOrdered compare t) : HeapOrdered compare (Tree.pop compare t) := by
  cases t with
  | nil => trivial
  | node a e c s =>
    cases c with
    | nil => trivial
    | node b f d s1 =>
      obtain ⟨-, ⟨hb, hd, hs1⟩, -⟩ := h1
      exact HeapOrdered.foldChain h s1 b f d ⟨hb, hd, trivial⟩ hs1

theorem HeapOrdered.meldCells (h : StrictWeakOrder compare) (l : List (Nat × α)) :
    ∀ acc : Tree α, acc.sib = nil → HeapOrdered compare acc →
      HeapOrdered compare (Tree.meldCells compare acc l) := by
  induction l with
  | nil => intro acc _ h1; exact h1
  | cons p rest ih =>
    intro acc hsib h1
    obtain ⟨a, e⟩ := p
    simp only [Tree.meldCells]
    refine ih _ (meld_shape compare acc a e nil hsib).1 ?_
    exact h1.meld_root h hsib ⟨by simp, trivial, trivial⟩

theorem HeapOrdered.updatePriorities (h : StrictWeakOrder compare) (t : Tree α) :
    HeapOrdered compare (Tree.updatePriorities compare t) :=
  HeapOrdered.meldCells h t.cells nil rfl trivial

theorem cut_elts_subset (n : Nat) (t : Tree α) : ∀ x ∈ (cut n t).elts, x ∈ t.elts := by
  induction t with
  | nil => intro x hx; simp [cut] at hx
  | node a e c s ihc ihs =>
    intro x hx
    by_cases han : a = n
    · simp only [cut, han, if_true] at hx
      simp [hx]
    · simp only [cut, han, if_false, elts_node, List.mem_cons, List.mem_append] at hx
      simp only [elts_node, List.mem_cons, List.mem_append]
      rcases hx with hx | hx | hx
      · exact Or.inl hx
      · exact Or.inr (Or.inl (ihs x hx))
      · exact Or.inr (Or.inr (ihc x hx))

theorem HeapOrdered.cut (n : Nat) {t : Tree α} (h1 : HeapOrdered compare t) :
    HeapOrdered compare (Tree.cut n t) := by
  induction t with
  | nil => trivial
  | node a e c s ihc ihs =>
    obtain ⟨ha, hc, hs⟩ := h1
    by_cases han : a = n
    · simp only [Tree.cut, han, if_true]; exact hs
    · simp only [Tree.cut, han, if_false]
      exact ⟨fun x hx => ha x (cut_elts_subset n c x hx), ihc hc, ihs hs⟩

theorem mem_addrs_of_mem_cells {t : Tree α} {n : Nat} {e : α} (h : (n, e) ∈ t.cells) :
    n ∈ t.addrs :=
  List.mem_map_of_mem Prod.fst h

theorem mem_elts_of_mem_cells {t : Tree α} {n : Nat} {e : α} (h : (n, e) ∈ t.cells) :
    e ∈ t.elts :=
  List.mem_map_of_mem Prod.snd h

/-- In a heap-ordered graph the graph below `n` is heap ordered and bounded by the
element of `n`. -/
theorem HeapOrdered.childOf_bound (n : Nat) {t : Tree α} (h1 : HeapOrdered compare t)
    (hnd : t.addrs.Nodup) :
    HeapOrdered compare (Tree.childOf n t) ∧
      ∀ e, (n, e) ∈ t.cells → ∀ x ∈ (Tree.childOf n t).elts, compare x e = false := by
  induction t with
  | nil => exact ⟨trivial, fun e he => by simp [cells] at he⟩
  | node a g c s ihc ihs =>
    obtain ⟨ha, hc, hs⟩ := h1
    simp only [addrs_node, List.nodup_cons, List.mem_append, not_or, List.nodup_append] at hnd
    obtain ⟨⟨has, hac⟩, hsn, hcn, hsc⟩ := hnd
    by_cases han : a = n
    · subst han
      simp only [Tree.childOf, if_true]
      refine ⟨hc, ?_⟩
      intro e he x hx
      simp only [cells, List.mem_cons, List.mem_append, Prod.mk.injEq] at he
      rcases he with he | he | he
      · rw [he.2]; exact ha x hx
      · exact absurd (mem_addrs_of_mem_cells he) has
      · exact absurd (mem_addrs_of_mem_cells he) hac
    · by_cases hnc : n ∈ c.addrs
      · simp only [Tree.childOf, han, if_false, hnc, if_true]
        refine ⟨(ihc hc hcn).1, ?_⟩
        intro e he x hx
        simp only [cells, List.mem_cons, List.mem_append, Prod.mk.injEq] at he
        rcases he with he | he | he
        · exact absurd he.1.symm han
        · exact absurd hnc (fun h => hsc (mem_addrs_of_mem_cells he) h)
        · exact (ihc hc hcn).2 e he x hx
      · simp only [Tree.childOf, han, if_false, hnc]
        refine ⟨(ihs hs hsn).1, ?_⟩
        intro e he x hx
        simp only [cells, List.mem_cons, List.mem_append, Prod.mk.injEq] at he
        rcases he with he | he | he
        · exact absurd he.1.symm han
        · exact (ihs hs hsn).2 e he x hx
        · exact absurd (mem_addrs_of_mem_cells he) hnc

/-- `updateElt` with a strictly more extreme value keeps the heap order. -/
theorem HeapOrdered.updateElt (h : StrictWeakOrder compare) {t : Tree α} {n : Nat} {old v : α}
    (h1 : HeapOrdered compare t) (hsib : t.sib = nil) (hnd : t.addrs.Nodup)
    (hn : (n, old) ∈ t.cells) (hv : compare v old = true) :
    HeapOrdered compare (Tree.updateElt compare n v t) := by
  cases t with
  | nil => trivial
  | node a e c s =>
    simp only [sib] at hsib
    subst hsib
    obtain ⟨hch, hbound⟩ := h1.childOf_bound n hnd
    have hnd0 := hnd
    simp only [addrs_node, addrs_nil, List.nil_append, List.nodup_cons] at hnd
    by_cases han : a = n
    · subst han
      simp only [Tree.updateElt, if_true]
      have hc : Tree.childOf a (node a e c nil) = c := by simp [Tree.childOf]
      rw [hc] at hbound
      exact ⟨fun x hx => h.not_lt_of_lt (hbound old hn x hx) hv, h1.2.1, trivial⟩
    · simp only [Tree.updateElt, han, if_false]
      have hcut := h1.cut n
      rw [cut_ne_nil_of_top _ _ _ _ _ han] at hcut ⊢
      simp only [Tree.cut] at hcut ⊢
      exact hcut.meld h
        ⟨fun x hx => h.not_lt_of_lt (hbound old hn x hx) hv, hch, trivial⟩

end Tree

/-!
## Observing the pointer graph and the invariant of reachable states
-/

theorem countPush_append (ops : List (Op α)) (op : Op α) :
    countPush (ops ++ [op]) = countPush ops + countPush [op] := by
  induction ops with
  | nil => simp [countPush]
  | cons o rest ih =>
    cases o <;> simp [countPush, ih]
    omega

theorem countPop_append (ops : List (Op α)) (op : Op α) :
    countPop (ops ++ [op]) = countPop ops + countPop [op] := by
  induction ops with
  | nil => simp [countPop]
  | cons o rest ih =>
    cases o <;> simp [countPop, ih]
    omega

theorem Models.nodes_eq {q : PairingPQ α} {t : Tree α} (h : Models q t) :
    nodes q = some t.addrs := by
  have := makeDeque_spec t q.fresh [] (Tree.size_le_of_bound h.nodup h.bound) h.rep.links
  simpa [nodes, h.root] using this

theorem filterMap_cells {β : Type} (f : Nat → Option (Nat × β)) (l : List (Nat × β))
    (h : ∀ x ∈ l, f x.1 = some x) : (l.map Prod.fst).filterMap f = l := by
  induction l with
  | nil => rfl
  | cons x rest ih =>
    simp only [List.map_cons, List.filterMap_cons, h x (by simp)]
    rw [ih (fun y hy => h y (by simp [hy]))]

theorem Models.contents_eq {q : PairingPQ α} {t : Tree α} (h : Models q t) :
    contents q = some t.cells := by
  simp only [contents, h.nodes_eq, Option.map_some', Tree.addrs]
  refine congrArg some (filterMap_cells _ _ ?_)
  intro x hx
  obtain ⟨n, hn, he⟩ := h.rep.cells_held x hx
  simp [cellOf, hn, he]

theorem Models.elements_eq {q : PairingPQ α} {t : Tree α} (h : Models q t) :
    elements q = some t.elts := by
  simp [elements, h.contents_eq, Tree.elts]

theorem Models.mem_addrs {q : PairingPQ α} {t : Tree α} (h : Models q t) {a : Nat} {n : Node α}
    (ha : q.mem a = some n) : a ∈ t.addrs := by
  by_contra hna
  rw [h.owned a hna] at ha
  exact absurd ha (by simp)

theorem Models.mem_cells {q : PairingPQ α} {t : Tree α} (h : Models q t) {a : Nat} {n : Node α}
    (ha : q.mem a = some n) : (a, n.elt) ∈ t.cells := by
  have hmem := h.mem_addrs ha
  simp only [Tree.addrs, List.mem_map] at hmem
  obtain ⟨x, hx, hxa⟩ := hmem
  obtain ⟨n2, hn2, he⟩ := h.rep.cells_held x hx
  rw [hxa, ha] at hn2
  cases hn2
  rw [he, ← hxa]
  exact hx

theorem Tree.size_childOf_le (n : Nat) (t : Tree α) : (Tree.childOf n t).size ≤ t.size := by
  induction t with
  | nil => simp [Tree.childOf]
  | node a e c s ihc ihs =>
    simp only [Tree.childOf, Tree.size]
    split
    · omega
    · split
      · omega
      · omega

/-- The graph behind the `child` link of a node of a held graph. -/
theorem Rep.childOf_held {m : Mem α} (n : Nat) (t : Tree α) :
    ∀ {p : Option Nat}, Rep m p t → t.addrs.Nodup → n ∈ t.addrs →
      ∃ nn, m n = some nn ∧ nn.child = (Tree.childOf n t).ptr ∧
        Rep m (some n) (Tree.childOf n t) := by
  induction t with
  | nil => intro _ _ _ h; simp at h
  | node a e c s ihc ihs =>
    intro p hrep hnd hn
    obtain ⟨ha, hc, hs⟩ := hrep
    simp only [Tree.addrs_node, List.nodup_cons, List.mem_append, not_or,
      List.nodup_append] at hnd
    obtain ⟨⟨has, hac⟩, hsn, hcn, hsc⟩ := hnd
    by_cases han : a = n
    · subst han
      exact ⟨_, ha, by simp [Tree.childOf], by simpa [Tree.childOf] using hc⟩
    · simp only [Tree.addrs_node, List.mem_cons, List.mem_append] at hn
      by_cases hnc : n ∈ c.addrs
      · simpa [Tree.childOf, han, hnc] using ihc hc hcn hnc
      · have hns : n ∈ s.addrs := by
          rcases hn with hn | hn | hn
          · exact absurd hn.symm han
          · exact hn
          · exact absurd hn hnc
        simpa [Tree.childOf, han, hnc] using ihs hs hsn hns

theorem Tree.childOf_addrs_subset (n : Nat) (t : Tree α) :
    ∀ x ∈ (Tree.childOf n t).addrs, x ∈ t.addrs := by
  induction t with
  | nil => intro x hx; simp [Tree.childOf] at hx
  | node a e c s ihc ihs =>
    intro x hx
    simp only [Tree.childOf] at hx
    simp only [Tree.addrs_node, List.mem_cons, List.mem_append]
    split at hx
    · exact Or.inr (Or.inr hx)
    · split at hx
      · exact Or.inr (Or.inr (ihc x hx))
      · exact Or.inr (Or.inl (ihs x hx))

/-- Heap order of the abstract graph is the heap order of the pointer graph. -/
theorem heapOrder_of_rep {compare : α → α → Bool} {q : PairingPQ α} {t : Tree α}
    (hroot : q.root = t.ptr) (hrep : Rep q.mem none t) (hnd : t.addrs.Nodup)
    (hbound : ∀ a ∈ t.addrs, a < q.fresh) (ho : Tree.HeapOrdered compare t) :
    HeapOrder compare q := by
  have hn : nodes q = some t.addrs := by
    have := makeDeque_spec t q.fresh [] (Tree.size_le_of_bound hnd hbound) hrep.links
    simpa [nodes, hroot] using this
  refine ⟨t.addrs, hn, ?_⟩
  intro p hpmem
  obtain ⟨pn, hp, hchild, hrepc⟩ := hrep.childOf_held p t hnd hpmem
  have hfuel : (Tree.childOf p t).size ≤ q.fresh :=
    le_trans (Tree.size_childOf_le p t) (Tree.size_le_of_bound hnd hbound)
  have hmd := makeDeque_spec (Tree.childOf p t) q.fresh [] hfuel hrepc.links
  refine ⟨pn, (Tree.childOf p t).addrs, hp, by simpa [descendants, hp, hchild] using hmd, ?_⟩
  intro d hd
  obtain ⟨dn, hdn⟩ := hrep.live d (Tree.childOf_addrs_subset p t d hd)
  refine ⟨dn, hdn, ?_⟩
  have hcell : ∃ x ∈ (Tree.childOf p t).cells, x.1 = d := by
    simpa [Tree.addrs] using hd
  obtain ⟨x, hx, hxd⟩ := hcell
  obtain ⟨n2, hn2, he2⟩ := hrepc.cells_held x hx
  rw [hxd, hdn] at hn2
  cases hn2
  have hxe : dn.elt ∈ (Tree.childOf p t).elts := by
    rw [he2]; exact List.mem_map_of_mem Prod.snd hx
  have hpc : (p, pn.elt) ∈ t.cells := by
    have hmem := hpmem
    simp only [Tree.addrs, List.mem_map] at hmem
    obtain ⟨y, hy, hyp⟩ := hmem
    obtain ⟨n3, hn3, he3⟩ := hrep.cells_held y hy
    rw [hyp, hp] at hn3
    cases hn3
    rw [he3, ← hyp]
    exact hy
  exact (ho.childOf_bound p hnd).2 pn.elt hpc dn.elt hxe

theorem Models.heapOrder {compare : α → α → Bool} {q : PairingPQ α} {t : Tree α}
    (h : Models q t) (ho : Tree.HeapOrdered compare t) : HeapOrder compare q :=
  heapOrder_of_rep h.root h.rep h.nodup h.bound ho

theorem Models.empty_iff {q : PairingPQ α} {t : Tree α} (h : Models q t) :
    empty q = true ↔ t = Tree.nil := by
  simp only [empty, beq_iff_eq, h.count]
  cases t with
  | nil => simp [Tree.size]
  | node a e c s => simp [Tree.size]

/-- Refinement of `push`. -/
theorem push_spec (compare : α → α → Bool) {q : PairingPQ α} {t : Tree α} (h : Models q t)
    (v : α) :
    ∃ q2, push compare q v = some q2 ∧
      Models q2 (Tree.meld compare t (Tree.node q.fresh v Tree.nil Tree.nil)) ∧
      q2.fresh = q.fresh + 1 ∧ q2.nodeCount = q.nodeCount + 1 := by
  obtain ⟨q2, h1, h2, h3⟩ := addNode_spec compare h v
  exact ⟨q2, by simp [push, h1], h2, h3⟩

/-- Every reachable state is well formed, the counter follows the history, and under a
strict weak ordering the graph is heap ordered. -/
theorem Reach.inv {compare : α → α → Bool} {ops : List (Op α)} {q : PairingPQ α}
    (hr : Reach compare ops q) :
    ∃ t, Models q t ∧ q.nodeCount + countPop ops = countPush ops ∧
      (StrictWeakOrder compare → Tree.HeapOrdered compare t) := by
  induction hr with
  | empty => exact ⟨Tree.nil, models_empty, rfl, fun _ => trivial⟩
  | @push ops q q2 v _ hp ih =>
    obtain ⟨t, hm, hc, ho⟩ := ih
    obtain ⟨q3, h1, h2, -, hn⟩ := push_spec compare hm v
    rw [hp] at h1
    cases h1
    refine ⟨_, h2, ?_, fun hs => (ho hs).meld_root hs hm.noSib ⟨by simp, trivial, trivial⟩⟩
    rw [countPush_append, countPop_append, hn]
    simp [countPush, countPop]
    omega
  | @pop ops q q2 _ hne hp ih =>
    obtain ⟨t, hm, hc, ho⟩ := ih
    cases t with
    | nil =>
      have := hm.empty_iff.2 rfl
      rw [hne] at this
      exact absurd this (by simp)
    | node r e c s =>
      obtain ⟨q3, h1, h2, -, hn⟩ := pop_spec compare hm
      rw [hp] at h1
      cases h1
      refine ⟨_, h2, ?_, fun hs => (ho hs).pop hs⟩
      have hpos : 0 < q.nodeCount := by
        rw [hm.count]; simp [Tree.size]
      rw [countPush_append, countPop_append, hn]
      simp [countPush, countPop]
      omega
  | @updatePriorities ops q q2 _ hp ih =>
    obtain ⟨t, hm, hc, ho⟩ := ih
    obtain ⟨q3, h1, h2, -, hn, -⟩ := updatePriorities_spec compare hm
    rw [hp] at h1
    cases h1
    refine ⟨_, h2, ?_, fun hs => Tree.HeapOrdered.updatePriorities hs t⟩
    rw [countPush_append, countPop_append, hn]
    simpa [countPush, countPop] using hc
  | @updateElt ops q q2 node v old _ hlive hv hp ih =>
    obtain ⟨t, hm, hc, ho⟩ := ih
    obtain ⟨q3, h1, h2, -, hn, hperm⟩ := updateElt_spec compare hm (hm.mem_addrs hlive) v
    rw [hp] at h1
    cases h1
    refine ⟨_, h2, ?_, fun hs =>
      (ho hs).updateElt hs hm.noSib hm.nodup (hm.mem_cells hlive) hv⟩
    rw [countPush_append, countPop_append, hn]
    simpa [countPush, countPop] using hc

/-!
## Pushing and extracting
-/

theorem Tree.pop_cells_perm (compare : α → α → Bool) (r : Nat) (e : α) (c : Tree α) :
    (Tree.pop compare (Tree.node r e c Tree.nil)).cells.Perm c.cells := by
  cases c with
  | nil => simp [Tree.pop]
  | node b f d s =>
    obtain ⟨a2, e2, c2, hf, hp⟩ := Tree.foldChain_spec compare s b f d
    simp only [Tree.pop, hf]
    refine hp.trans ?_
    simp only [Tree.cells, List.nil_append, List.cons_append]
    exact List.Perm.cons _ List.perm_append_comm

theorem extractLoop_of_empty (compare : α → α → Bool) (fuel : Nat) {q : PairingPQ α}
    (h : empty q = true) : extractLoop compare fuel q = some [] := by
  unfold extractLoop
  simp [h]

theorem extractLoop_succ (compare : α → α → Bool) (fuel : Nat) {q : PairingPQ α}
    (h : empty q = false) :
    extractLoop compare (fuel + 1) q =
      (top q).bind fun t => (pop compare q).bind fun q2 =>
        (extractLoop compare fuel q2).bind fun rest => some (t :: rest) := by
  rw [extractLoop]
  simp [h]

/-- Pushing a list of values, on the abstract graph. -/
theorem pushAll_spec (compare : α → α → Bool) (vs : List α) :
    ∀ (q : PairingPQ α) (t : Tree α) (ops : List (Op α)), Models q t → Reach compare ops q →
      ∃ q2 t2, pushAll compare q vs = some q2 ∧ Models q2 t2 ∧ t2.elts.Perm (t.elts ++ vs) ∧
        Reach compare (ops ++ vs.map Op.push) q2 := by
  induction vs with
  | nil => intro q t ops h hr; exact ⟨q, t, rfl, h, by simp, by simpa using hr⟩
  | cons v rest ih =>
    intro q t ops h hr
    obtain ⟨q1, hp, hm1, -, -⟩ := push_spec compare h v
    obtain ⟨q2, t2, hall, hm2, hperm, hr2⟩ := ih q1 _ (ops ++ [Op.push v]) hm1
      (Reach.push v hr hp)
    refine ⟨q2, t2, by simp [pushAll, hp, hall], hm2, ?_, by simpa using hr2⟩
    refine hperm.trans ?_
    have := Tree.elts_perm2 (Tree.meld_shape compare t q.fresh v Tree.nil h.noSib).2
    refine (this.append_right rest).trans ?_
    simp

/-- Full extraction from a well-formed, heap-ordered queue: it terminates, returns every
stored element once, and no later output is more extreme than an earlier one. -/
theorem extractAll_spec {compare : α → α → Bool} (hs : StrictWeakOrder compare) :
    ∀ (n : Nat) (q : PairingPQ α) (t : Tree α), t.size = n → Models q t →
      Tree.HeapOrdered compare t →
      ∃ out, extractAll compare q = some out ∧ out.Perm t.elts ∧
        out.Pairwise (fun a b => compare b a = false) := by
  intro n
  induction n with
  | zero =>
    intro q t hsz hm _
    have ht : t = Tree.nil := by
      cases t with
      | nil => rfl
      | node a e c s => simp [Tree.size] at hsz
    subst ht
    refine ⟨[], ?_, by simp, List.Pairwise.nil⟩
    have : empty q = true := hm.empty_iff.2 rfl
    simp [extractAll, extractLoop_of_empty compare _ this]
  | succ k ih =>
    intro q t hsz hm ho
    cases t with
    | nil => simp [Tree.size] at hsz
    | node r e c s =>
      have hsib := hm.noSib
      simp only [Tree.sib] at hsib
      subst hsib
      have hne : empty q = false := by
        cases hq : empty q with
        | false => rfl
        | true => exact absurd (hm.empty_iff.1 hq) (by simp)
      obtain ⟨q2, hpop, hm2, -, hcount⟩ := pop_spec compare hm
      have hperm := Tree.pop_cells_perm compare r e c
      have hsz2 : (Tree.pop compare (Tree.node r e c Tree.nil)).size = k := by
        rw [Tree.size_eq_of_perm hperm]
        simp only [Tree.size] at hsz
        omega
      obtain ⟨rest, hrest, hrp, hrs⟩ := ih q2 _ hsz2 hm2 (ho.pop hs)
      have hq2 : q2.nodeCount = k := by rw [hm2.count, hsz2]
      have hq : q.nodeCount = k + 1 := by rw [hm.count, hsz]
      have hrc : rest.Perm c.elts := hrp.trans (Tree.elts_perm hperm)
      refine ⟨e :: rest, ?_, ?_, ?_⟩
      · simp only [extractAll, hq2] at hrest
        simp [extractAll, hq, extractLoop_succ compare _ hne, hm.top_eq, hpop, hrest]
      · simpa using hrc
      · refine List.Pairwise.cons ?_ hrs
        intro x hx
        exact ho.1 x (hrc.mem_iff.1 hx)

/-- On a well-formed state every operation returns under its precondition. -/
theorem Models.progress (compare : α → α → Bool) {q : PairingPQ α} {t : Tree α}
    (h : Models q t) : Progress compare q := by
  refine ⟨?_, ?_, ?_, ?_⟩
  · intro v
    obtain ⟨q2, h1, -⟩ := addNode_spec compare h v
    exact ⟨_, h1⟩
  · intro hne
    cases t with
    | nil =>
      have := h.empty_iff.2 rfl
      rw [hne] at this
      exact absurd this (by simp)
    | node r e c s =>
      obtain ⟨q2, h1, -⟩ := pop_spec compare h
      exact ⟨q2, h1⟩
  · obtain ⟨q2, h1, -⟩ := updatePriorities_spec compare h
    exact ⟨q2, h1⟩
  · intro n old v hlive
    obtain ⟨q2, h1, -⟩ := updateElt_spec compare h (h.mem_addrs hlive) v
    exact ⟨q2, h1⟩

end PairingPQ

/-!
## BinaryPQ: `swap`, `fixDown`, `fixUp`
-/

namespace BinaryPQ

variable {α : Type}

namespace Ideal

theorem set_getElem_self (l : List α) (i : Nat) (hi : i < l.length) : l.set i l[i] = l := by
  apply List.ext_getElem
  · simp
  · intro k h1 h2
    rw [List.getElem_set]
    split
    · rename_i h; subst h; rfl
    · rfl

theorem swap_perm_aux (l : List α) (i j : Nat) (hi : i < l.length) (hj : j < l.length) :
    ((l.set i l[j]).set j l[i]).Perm l := by
  classical
  by_cases hij : i = j
  · subst hij
    simp [set_getElem_self]
  · rw [List.perm_iff_count]
    intro b
    have hj2 : j < (l.set i l[j]).length := by simpa using hj
    rw [List.count_set _ _ _ _ hj2, List.count_set _ _ _ _ hi]
    have h1 : (l.set i l[j])[j] = l[j] := by
      rw [List.getElem_set]; simp [hij]
    rw [h1]
    have hpos : (if l[i] == b then 1 else 0) ≤ List.count b l := by
      split
      · rename_i h
        have : l[i] = b := by simpa using h
        have hm : b ∈ l := this ▸ List.getElem_mem hi
        exact List.count_pos_iff.2 hm
      · exact Nat.zero_le _
    omega

theorem swap_eq {data : List α} {i j : Nat} (hi : i < data.length) (hj : j < data.length) :
    swap data i j = some ((data.set i data[j]).set j data[i]) := by
  simp [swap, List.getElem?_eq_getElem hi, List.getElem?_eq_getElem hj]

/-- The effect of `std::swap(data[i], data[j])` on two valid, distinct slots. -/
theorem swap_spec {data : List α} {i j : Nat} (hi : i < data.length) (hj : j < data.length)
    (hij : i ≠ j) :
    ∃ d, swap data i j = some d ∧ d.length = data.length ∧ d.Perm data ∧
      d[i]? = data[j]? ∧ d[j]? = data[i]? ∧ ∀ k, k ≠ i → k ≠ j → d[k]? = data[k]? := by
  refine ⟨_, swap_eq hi hj, by simp, swap_perm_aux data i j hi hj, ?_, ?_, ?_⟩
  · rw [List.getElem?_set_ne (Ne.symm hij), List.getElem?_set]
    simp [hi, List.getElem?_eq_getElem hj]
  · rw [List.getElem?_set]
    simp [hj, List.getElem?_eq_getElem hi]
  · intro k hki hkj
    rw [List.getElem?_set_ne (Ne.symm hkj), List.getElem?_set_ne (Ne.symm hki)]

/-- One iteration of `fixDown`: select `ex`, then swap and continue, or stop. -/
theorem fixDownLoop_succ (compare : α → α → Bool) (fuel : Nat) (data : List α) (i : Nat) :
    fixDownLoop compare (fuel + 1) data i =
      (pick compare data i).bind fun ex =>
        if ex ≠ i then (swap data i ex).bind fun d => fixDownLoop compare fuel d ex
        else some data := by
  simp only [fixDownLoop, pick, Option.bind_eq_bind, Option.bind_assoc, Option.pure_def]

theorem Edge.self {compare : α → α → Bool} (hs : StrictWeakOrder compare) (data : List α)
    (j : Nat) : Edge compare data j j := by
  intro x y hx hy
  rw [hx] at hy
  cases hy
  exact hs.irrefl x

/-- The slot `fixDown` selects exists and holds an element that neither `data[i]` nor the
children of `i` compare below. -/
theorem pick_spec {compare : α → α → Bool} (hs : StrictWeakOrder compare) (data : List α)
    (i : Nat) :
    ∃ ex, pick compare data i = some ex ∧
      (ex = i ∨ (ex = 2 * i + 1 ∧ ex < data.length) ∨ (ex = 2 * i + 2 ∧ ex < data.length)) ∧
      Edge compare data ex i ∧ Edge compare data ex (2 * i + 1) ∧
      Edge compare data ex (2 * i + 2) := by
  have hnone : ∀ k, data.length ≤ k → ∀ j, Edge compare data j k := by
    intro k hk j x y _ hy
    rw [List.getElem?_eq_none hk] at hy
    exact absurd hy (by simp)
  by_cases hl : 2 * i + 1 < data.length
  · have hi : i < data.length := by omega
    by_cases hc1 : compare data[i] data[2 * i + 1] = true
    · by_cases hr : 2 * i + 2 < data.length
      · by_cases hc2 : compare data[2 * i + 1] data[2 * i + 2] = true
        · refine ⟨2 * i + 2, ?_, Or.inr (Or.inr ⟨rfl, hr⟩), ?_, ?_, Edge.self hs _ _⟩
          · simp [pick, hl, hr, hc1, hc2, List.getElem?_eq_getElem hi,
              List.getElem?_eq_getElem hl, List.getElem?_eq_getElem hr]
          · intro x y hx hy
            rw [List.getElem?_eq_getElem hr] at hx
            rw [List.getElem?_eq_getElem hi] at hy
            cases hx; cases hy
            exact hs.asymm (hs.trans _ _ _ hc1 hc2)
          · intro x y hx hy
            rw [List.getElem?_eq_getElem hr] at hx
            rw [List.getElem?_eq_getElem hl] at hy
            cases hx; cases hy
            exact hs.asymm hc2
        · simp only [Bool.not_eq_true] at hc2
          refine ⟨2 * i + 1, ?_, Or.inr (Or.inl ⟨rfl, hl⟩), ?_, Edge.self hs _ _, ?_⟩
          · simp [pick, hl, hr, hc1, hc2, List.getElem?_eq_getElem hi,
              List.getElem?_eq_getElem hl, List.getElem?_eq_getElem hr]
          · intro x y hx hy
            rw [List.getElem?_eq_getElem hl] at hx
            rw [List.getElem?_eq_getElem hi] at hy
            cases hx; cases hy
            exact hs.asymm hc1
          · intro x y hx hy
            rw [List.getElem?_eq_getElem hl] at hx
            rw [List.getElem?_eq_getElem hr] at hy
            cases hx; cases hy
            exact hc2
      · refine ⟨2 * i + 1, ?_, Or.inr (Or.inl ⟨rfl, hl⟩), ?_, Edge.self hs _ _,
          hnone _ (by omega) _⟩
        · simp [pick, hl, hr, hc1, List.getElem?_eq_getElem hi, List.getElem?_eq_getElem hl]
        · intro x y hx hy
          rw [List.getElem?_eq_getElem hl] at hx
          rw [List.getElem?_eq_getElem hi] at hy
          cases hx; cases hy
          exact hs.asymm hc1
    · simp only [Bool.not_eq_true] at hc1
      by_cases hr : 2 * i + 2 < data.length
      · by_cases hc2 : compare data[i] data[2 * i + 2] = true
        · refine ⟨2 * i + 2, ?_, Or.inr (Or.inr ⟨rfl, hr⟩), ?_, ?_, Edge.self hs _ _⟩
          · simp [pick, hl, hr, hc1, hc2, List.getElem?_eq_getElem hi,
              List.getElem?_eq_getElem hl, List.getElem?_eq_getElem hr]
          · intro x y hx hy
            rw [List.getElem?_eq_getElem hr] at hx
            rw [List.getElem?_eq_getElem hi] at hy
            cases hx; cases hy
            exact hs.asymm hc2
          · intro x y hx hy
            rw [List.getElem?_eq_getElem hr] at hx
            rw [List.getElem?_eq_getElem hl] at hy
            cases hx; cases hy
            cases hq : compare data[2 * i + 2] data[2 * i + 1] with
            | false => rfl
            | true =>
              have := hs.trans _ _ _ hc2 hq
              rw [hc1] at this
              exact absurd this (by simp)
        · simp only [Bool.not_eq_true] at hc2
          refine ⟨i, ?_, Or.inl rfl, Edge.self hs _ _, ?_, ?_⟩
          · simp [pick, hl, hr, hc1, hc2, List.getElem?_eq_getElem hi,
              List.getElem?_eq_getElem hl, List.getElem?_eq_getElem hr]
          · intro x y hx hy
            rw [List.getElem?_eq_getElem hi] at hx
            rw [List.getElem?_eq_getElem hl] at hy
            cases hx; cases hy
            exact hc1
          · intro x y hx hy
            rw [List.getElem?_eq_getElem hi] at hx
            rw [List.getElem?_eq_getElem hr] at hy
            cases hx; cases hy
            exact hc2
      · refine ⟨i, ?_, Or.inl rfl, Edge.self hs _ _, ?_, hnone _ (by omega) _⟩
        · simp [pick, hl, hr, hc1, List.getElem?_eq_getElem hi, List.getElem?_eq_getElem hl]
        · intro x y hx hy
          rw [List.getElem?_eq_getElem hi] at hx
          rw [List.getElem?_eq_getElem hl] at hy
          cases hx; cases hy
          exact hc1
  · have hr : ¬ 2 * i + 2 < data.length := by omega
    refine ⟨i, by simp [pick, hl, hr], Or.inl rfl, Edge.self hs _ _, hnone _ (by omega) _,
      hnone _ (by omega) _⟩

theorem Edge.congr {compare : α → α → Bool} {d data : List α} {a b a2 b2 : Nat}
    (ha : d[a]? = data[a2]?) (hb : d[b]? = data[b2]?) (h : Edge compare data a2 b2) :
    Edge compare d a b := by
  intro x y hx hy
  exact h x y (ha ▸ hx) (hb ▸ hy)

/-- The loop of `fixDown` terminates and repairs the part of the array from `lo` on. -/
theorem fixDownLoop_spec {compare : α → α → Bool} (hs : StrictWeakOrder compare) (lo : Nat) :
    ∀ (fuel : Nat) (data : List α) (i : Nat), data.length - i < fuel → lo ≤ i →
      DownInv compare data lo i →
      ∃ d, fixDownLoop compare fuel data i = some d ∧ d.length = data.length ∧
        d.Perm data ∧ HeapFrom compare lo d := by
  intro fuel
  induction fuel with
  | zero => intro data i h _ _; omega
  | succ fuel ih =>
    intro data i hfuel hlo hinv
    obtain ⟨hinv1, hinv2⟩ := hinv
    obtain ⟨ex, hpick, hex, he0, he1, he2⟩ := pick_spec hs data i
    rw [fixDownLoop_succ, hpick]
    by_cases hexi : ex = i
    · subst hexi
      refine ⟨data, by simp, rfl, List.Perm.refl _, ?_⟩
      intro k hk hpar
      by_cases hp : (k - 1) / 2 = ex
      · have : k = 2 * ex + 1 ∨ k = 2 * ex + 2 := by omega
        rw [hp]
        rcases this with rfl | rfl
        · exact he1
        · exact he2
      · exact hinv1 k hk hpar hp
    · have hexlt : ex < data.length := by
        rcases hex with h | h | h
        · exact absurd h hexi
        · exact h.2
        · exact h.2
      have hch : ex = 2 * i + 1 ∨ ex = 2 * i + 2 := by
        rcases hex with h | h | h
        · exact absurd h hexi
        · exact Or.inl h.1
        · exact Or.inr h.1
      have hilt : i < data.length := by omega
      obtain ⟨d1, hswap, hlen1, hperm1, hd1i, hd1ex, hd1o⟩ :=
        swap_spec hilt hexlt (Ne.symm hexi)
      have hinv' : DownInv compare d1 lo ex := by
        constructor
        · intro k hk hpar hne
          by_cases hp : (k - 1) / 2 = i
          · rw [hp]
            by_cases hkex : k = ex
            · subst hkex
              exact Edge.congr hd1i hd1ex he0
            · have hk2 : k = 2 * i + 1 ∨ k = 2 * i + 2 := by omega
              have hki : k ≠ i := by omega
              refine Edge.congr hd1i (hd1o k hki hkex) ?_
              rcases hk2 with rfl | rfl
              · exact he1
              · exact he2
          · have hpo := hd1o ((k - 1) / 2) hp hne
            by_cases hki : k = i
            · subst hki
              exact Edge.congr hpo hd1i (hinv2 hk hpar ex (by omega) (by omega))
            · have hkex : k ≠ ex := by omega
              exact Edge.congr hpo (hd1o k hki hkex) (hinv1 k hk hpar hp)
        · intro hex0 hpar k hk hpk
          have hpi : (ex - 1) / 2 = i := by omega
          rw [hpi]
          have hki : k ≠ i := by omega
          have hkex : k ≠ ex := by omega
          refine Edge.congr hd1i (hd1o k hki hkex) ?_
          have := hinv1 k hk (by omega) (by omega)
          rwa [hpk] at this
      obtain ⟨d, hloop, hlen, hperm, hheap⟩ := ih d1 ex (by omega) (by omega) hinv'
      refine ⟨d, by simp [hexi, hswap, hloop], by omega, hperm.trans hperm1, hheap⟩

theorem fixUpLoop_zero (compare : α → α → Bool) (fuel : Nat) (data : List α) :
    fixUpLoop compare fuel data 0 = some data := by
  unfold fixUpLoop
  simp

theorem fixUpLoop_succ (compare : α → α → Bool) (fuel : Nat) (data : List α) {i : Nat}
    (hi : 0 < i) :
    fixUpLoop compare (fuel + 1) data i =
      (data[(i - 1) / 2]?).bind fun p => (data[i]?).bind fun c =>
        if compare p c then
          (swap data i ((i - 1) / 2)).bind fun d => fixUpLoop compare fuel d ((i - 1) / 2)
        else some data := by
  rw [fixUpLoop]
  simp [hi]

/-- The loop of `fixUp` terminates and repairs the array. -/
theorem fixUpLoop_spec {compare : α → α → Bool} (hs : StrictWeakOrder compare) :
    ∀ (fuel : Nat) (data : List α) (i : Nat), i ≤ fuel → i < data.length →
      UpInv compare data i →
      ∃ d, fixUpLoop compare fuel data i = some d ∧ d.length = data.length ∧
        d.Perm data ∧ IsHeap compare d := by
  intro fuel
  induction fuel with
  | zero =>
    intro data i hi _ hinv
    have hi0 : i = 0 := by omega
    subst hi0
    refine ⟨data, fixUpLoop_zero compare 0 data, rfl, List.Perm.refl _, ?_⟩
    intro k hk _
    exact hinv.1 k hk (by omega)
  | succ fuel ih =>
    intro data i hfuel hlt hinv
    obtain ⟨hinv1, hinv2⟩ := hinv
    by_cases hi0 : i = 0
    · subst hi0
      refine ⟨data, fixUpLoop_zero compare _ data, rfl, List.Perm.refl _, ?_⟩
      intro k hk _
      exact hinv1 k hk (by omega)
    · have hipos : 0 < i := by omega
      have hplt : (i - 1) / 2 < data.length := by omega
      rw [fixUpLoop_succ compare fuel data hipos, List.getElem?_eq_getElem hplt,
        List.getElem?_eq_getElem hlt]
      simp only [Option.some_bind]
      by_cases hc : compare data[(i - 1) / 2] data[i] = true
      · have hne : i ≠ (i - 1) / 2 := by omega
        obtain ⟨d1, hswap, hlen1, hperm1, hd1i, hd1p, hd1o⟩ := swap_spec hlt hplt hne
        have hinv' : UpInv compare d1 ((i - 1) / 2) := by
          constructor
          · intro k hk hkp
            by_cases hki : k = i
            · subst hki
              refine Edge.congr hd1p hd1i ?_
              intro x y hx hy
              rw [List.getElem?_eq_getElem hlt] at hx
              rw [List.getElem?_eq_getElem hplt] at hy
              cases hx; cases hy
              exact hs.asymm hc
            · by_cases hpk : (k - 1) / 2 = i
              · rw [hpk]
                refine Edge.congr hd1i (hd1o k hki hkp) ?_
                exact hinv2 hipos k hk hpk
              · by_cases hpk2 : (k - 1) / 2 = (i - 1) / 2
                · rw [hpk2]
                  refine Edge.congr hd1p (hd1o k hki hkp) ?_
                  intro x y hx hy
                  rw [List.getElem?_eq_getElem hlt] at hx
                  cases hx
                  have e1 := hinv1 k hk hki _ y
                    (by rw [hpk2]; exact List.getElem?_eq_getElem hplt) hy
                  cases hq : compare data[i] y with
                  | false => rfl
                  | true =>
                    have := hs.trans _ _ _ hc hq
                    rw [e1] at this
                    exact absurd this (by simp)
                · exact Edge.congr (hd1o _ hpk hpk2) (hd1o k hki hkp) (hinv1 k hk hki)
          · intro hp0 k hk hpk
            have hgi : ((i - 1) / 2 - 1) / 2 ≠ i := by omega
            have hgp : ((i - 1) / 2 - 1) / 2 ≠ (i - 1) / 2 := by omega
            have hg := hd1o _ hgi hgp
            have hkp : k ≠ (i - 1) / 2 := by omega
            have epar := hinv1 ((i - 1) / 2) hp0 (by omega)
            by_cases hki : k = i
            · subst hki
              exact Edge.congr hg hd1i epar
            · refine Edge.congr hg (hd1o k hki hkp) ?_
              intro x y hx hy
              have e1 := epar x _ hx (List.getElem?_eq_getElem hplt)
              have e2 := hinv1 k hk hki _ y
                (by rw [hpk]; exact List.getElem?_eq_getElem hplt) hy
              exact hs.neg_trans e1 e2
        obtain ⟨d, hloop, hlen, hperm, hheap⟩ := ih d1 ((i - 1) / 2) (by omega) (by omega) hinv'
        exact ⟨d, by simp [hc, hswap, hloop], by omega, hperm.trans hperm1, hheap⟩
      · refine ⟨data, by simp [hc], rfl, List.Perm.refl _, ?_⟩
        intro k hk _
        by_cases hki : k = i
        · subst hki
          intro x y hx hy
          rw [List.getElem?_eq_getElem hplt] at hx
          rw [List.getElem?_eq_getElem hlt] at hy
          cases hx; cases hy
          simpa using hc
        · exact hinv1 k hk hki

end Ideal

/-!
## BinaryPQ: `push`, `pop`, `updatePriorities`
-/

namespace Ideal

theorem Edge.of_none_right {compare : α → α → Bool} {data : List α} (j : Nat) {k : Nat}
    (hk : data.length ≤ k) : Edge compare data j k := by
  intro x y _ hy
  rw [List.getElem?_eq_none hk] at hy
  exact absurd hy (by simp)

theorem isHeap_nil (compare : α → α → Bool) : IsHeap compare ([] : List α) := by
  intro k _ _
  exact Edge.of_none_right _ (by simp)

/-- `push` keeps the array invariant and adds exactly the pushed value. -/
theorem binary_push_spec {compare : α → α → Bool} (hs : StrictWeakOrder compare) {q : BinaryPQ α}
    (h : IsHeap compare q.data) (v : α) :
    ∃ q2, push compare q v = some q2 ∧ IsHeap compare q2.data ∧
      q2.data.Perm (q.data ++ [v]) := by
  have hinv : UpInv compare (q.data ++ [v]) q.data.length := by
    constructor
    · intro k hk hkn
      by_cases hlt : k < q.data.length
      · have hp : (k - 1) / 2 < q.data.length := by omega
        exact Edge.congr (List.getElem?_append_left hp) (List.getElem?_append_left hlt)
          (h k hk (Nat.zero_le _))
      · exact Edge.of_none_right _ (by simp; omega)
    · intro _ k hk hpk
      exact Edge.of_none_right _ (by simp; omega)
  obtain ⟨d, hloop, -, hperm, hheap⟩ :=
    fixUpLoop_spec hs (q.data ++ [v]).length (q.data ++ [v]) q.data.length (by simp)
      (by simp) hinv
  refine ⟨⟨d⟩, ?_, hheap, hperm⟩
  simp only [push, fixUp, List.length_append, List.length_singleton, Nat.add_sub_cancel]
  simp only [List.length_append, List.length_singleton] at hloop
  simp [hloop]

/-- The loop of `updatePriorities` terminates and establishes the invariant. -/
theorem heapifyLoop_spec {compare : α → α → Bool} (hs : StrictWeakOrder compare) :
    ∀ (k : Nat) (data : List α), HeapFrom compare k data →
      ∃ d, heapifyLoop compare k data = some d ∧ d.length = data.length ∧ d.Perm data ∧
        IsHeap compare d := by
  intro k
  induction k with
  | zero => intro data h; exact ⟨data, rfl, rfl, List.Perm.refl _, h⟩
  | succ k ih =>
    intro data h
    have hinv : DownInv compare data k k := by
      constructor
      · intro j hj hpar hne
        exact h j hj (by omega)
      · intro hk hpar
        omega
    obtain ⟨d1, hloop, hlen1, hperm1, hheap1⟩ :=
      fixDownLoop_spec hs k (data.length + 1) data k (by omega) (Nat.le_refl _) hinv
    obtain ⟨d, hd, hlen, hperm, hheap⟩ := ih d1 hheap1
    exact ⟨d, by simp [heapifyLoop, fixDown, hloop, hd], by omega, hperm.trans hperm1, hheap⟩

/-- `updatePriorities` on an arbitrary array. -/
theorem binary_updatePriorities_spec {compare : α → α → Bool} (hs : StrictWeakOrder compare)
    (q : BinaryPQ α) :
    ∃ q2, updatePriorities compare q = some q2 ∧ IsHeap compare q2.data ∧
      q2.data.Perm q.data := by
  have h0 : HeapFrom compare (q.data.length / 2) q.data := by
    intro k hk hpar
    exact Edge.of_none_right _ (by omega)
  obtain ⟨d, hd, -, hperm, hheap⟩ := heapifyLoop_spec hs _ _ h0
  exact ⟨⟨d⟩, by simp [updatePriorities, hd], hheap, hperm⟩

/-- `pop` on a non-empty queue keeps the array invariant and removes exactly the front. -/
theorem binary_pop_spec {compare : α → α → Bool} (hs : StrictWeakOrder compare) {q : BinaryPQ α}
    (h : IsHeap compare q.data) (hne : empty q = false) :
    ∃ q2 x, pop compare q = some q2 ∧ top q = some x ∧ IsHeap compare q2.data ∧
      (x :: q2.data).Perm q.data := by
  have hpos : 0 < q.data.length := by
    cases hq : q.data with
    | nil => simp [empty, hq] at hne
    | cons a l => simp
  by_cases h1 : q.data.length = 1
  · refine ⟨⟨[]⟩, q.data[0], ?_, by simp [top, List.getElem?_eq_getElem hpos],
      isHeap_nil compare, ?_⟩
    · have hsw : swap q.data 0 (q.data.length - 1) = some q.data := by
        rw [swap_eq hpos (by omega)]
        simp [h1, set_getElem_self]
      have hdl : q.data.dropLast = [] := by
        apply List.eq_nil_of_length_eq_zero
        simp [h1]
      simp [pop, hsw, hdl]
    · have hq : q.data = [q.data[0]] := by
        apply List.ext_getElem
        · simp [h1]
        · intro k hk1 hk2
          have : k = 0 := by simp at hk2; omega
          subst this
          simp
      exact List.Perm.of_eq hq.symm
  · have hlast : q.data.length - 1 < q.data.length := by omega
    obtain ⟨d1, hswap, hlen1, hperm1, hd10, hd1l, hd1o⟩ :=
      swap_spec hpos hlast (by omega)
    have hlen2 : d1.dropLast.length = q.data.length - 1 := by simp [hlen1]
    have hget2 : ∀ k, k < q.data.length - 1 → 0 < k → d1.dropLast[k]? = q.data[k]? := by
      intro k hk hk0
      rw [List.getElem?_dropLast, if_pos (by omega)]
      exact hd1o k (by omega) (by omega)
    have hinv : DownInv compare d1.dropLast 0 0 := by
      constructor
      · intro k hk _ hpar
        by_cases hlt : k < q.data.length - 1
        · exact Edge.congr (hget2 _ (by omega) (by omega)) (hget2 k hlt hk)
            (h k hk (Nat.zero_le _))
        · exact Edge.of_none_right _ (by omega)
      · intro h0
        omega
    obtain ⟨d, hloop, -, hperm, hheap⟩ :=
      fixDownLoop_spec hs 0 (d1.dropLast.length + 1) d1.dropLast 0 (by omega) (Nat.le_refl _)
        hinv
    have hne2 : d1.dropLast.isEmpty = false := by
      cases hd : d1.dropLast with
      | nil => simp [hd] at hlen2; omega
      | cons a l => rfl
    refine ⟨⟨d⟩, q.data[0], ?_, by simp [top, List.getElem?_eq_getElem hpos], hheap, ?_⟩
    · simp only [List.length_dropLast] at hloop
      simp [pop, hswap, hne2, fixDown, hloop]
    · have hd1ne : d1 ≠ [] := by
        intro hnil
        rw [hnil] at hlen1
        simp at hlen1
        omega
      have hsplit := List.dropLast_append_getLast hd1ne
      have hgl : d1.getLast hd1ne = q.data[0] := by
        have h2 : d1.getLast? = some (q.data[0]) := by
          rw [List.getLast?_eq_getElem?, hlen1, hd1l, List.getElem?_eq_getElem hpos]
        rw [List.getLast?_eq_getLast _ hd1ne] at h2
        exact Option.some.inj h2
      rw [hgl] at hsplit
      have : (q.data[0] :: d).Perm (d1.dropLast ++ [q.data[0]]) :=
        (List.Perm.cons _ hperm).trans (List.perm_append_singleton _ _).symm
      rw [hsplit] at this
      exact this.trans hperm1

end Ideal

/-!
## BinaryPQ: extraction
-/

namespace Ideal

/-- Under the array invariant the front is not below any stored element. -/
theorem IsHeap.front {compare : α → α → Bool} (hs : StrictWeakOrder compare) {data : List α}
    (h : IsHeap compare data) {t : α} (ht : data[0]? = some t) :
    ∀ (k : Nat) (x : α), data[k]? = some x → compare t x = false := by
  intro k
  induction k using Nat.strong_induction_on with
  | _ k ih =>
    intro x hx
    by_cases hk : k = 0
    · subst hk
      rw [ht] at hx
      cases hx
      exact hs.irrefl _
    · have hlt : k < data.length := by
        by_contra hge
        rw [List.getElem?_eq_none (by omega)] at hx
        exact absurd hx (by simp)
      have hp : (k - 1) / 2 < data.length := by omega
      have e1 := ih ((k - 1) / 2) (by omega) _ (List.getElem?_eq_getElem hp)
      have e2 := h k (by omega) (Nat.zero_le _) _ x (List.getElem?_eq_getElem hp) hx
      exact hs.neg_trans e1 e2

theorem binary_pushAll_spec {compare : α → α → Bool} (hs : StrictWeakOrder compare) (vs : List α) :
    ∀ q : BinaryPQ α, IsHeap compare q.data →
      ∃ q2, pushAll compare q vs = some q2 ∧ IsHeap compare q2.data ∧
        q2.data.Perm (q.data ++ vs) := by
  induction vs with
  | nil => intro q h; exact ⟨q, rfl, h, by simp⟩
  | cons v rest ih =>
    intro q h
    obtain ⟨q1, hp, hh1, hperm1⟩ := binary_push_spec hs h v
    obtain ⟨q2, hall, hh2, hperm2⟩ := ih q1 hh1
    refine ⟨q2, by simp [pushAll, hp, hall], hh2, ?_⟩
    refine hperm2.trans ((hperm1.append_right rest).trans ?_)
    simp

theorem binary_extractLoop_of_empty (compare : α → α → Bool) (fuel : Nat) {q : BinaryPQ α}
    (h : empty q = true) : extractLoop compare fuel q = some [] := by
  unfold extractLoop
  simp [h]

theorem binary_extractLoop_succ (compare : α → α → Bool) (fuel : Nat) {q : BinaryPQ α}
    (h : empty q = false) :
    extractLoop compare (fuel + 1) q =
      (top q).bind fun t => (pop compare q).bind fun q2 =>
        (extractLoop compare fuel q2).bind fun rest => some (t :: rest) := by
  rw [extractLoop]
  simp [h]

/-- Full extraction from an array that satisfies the invariant: it terminates, returns
every stored element once, and no earlier output compares below a later one. -/
theorem binary_extractAll_spec {compare : α → α → Bool} (hs : StrictWeakOrder compare) :
    ∀ (n : Nat) (q : BinaryPQ α), q.data.length = n → IsHeap compare q.data →
      ∃ out, extractAll compare q = some out ∧ out.Perm q.data ∧
        out.Pairwise (fun a b => compare a b = false) := by
  intro n
  induction n with
  | zero =>
    intro q hlen _
    have hnil : q.data = [] := List.eq_nil_of_length_eq_zero hlen
    refine ⟨[], ?_, by simp [hnil], List.Pairwise.nil⟩
    simp [extractAll, binary_extractLoop_of_empty compare _ (show empty q = true by simp [empty, hnil])]
  | succ k ih =>
    intro q hlen h
    have hne : empty q = false := by
      cases hq : q.data with
      | nil => simp [hq] at hlen
      | cons a l => simp [empty, hq]
    obtain ⟨q2, x, hpop, htop, hh2, hperm⟩ := binary_pop_spec hs h hne
    have hlen2 : q2.data.length = k := by
      have := hperm.length_eq
      simp at this
      omega
    obtain ⟨rest, hrest, hrp, hrs⟩ := ih q2 hlen2 hh2
    refine ⟨x :: rest, ?_, (List.Perm.cons _ hrp).trans hperm, ?_⟩
    · simp only [extractAll, hlen2] at hrest
      simp [extractAll, hlen, binary_extractLoop_succ compare _ hne, htop, hpop, hrest]
    · refine List.Pairwise.cons ?_ hrs
      intro y hy
      have hy2 : y ∈ q.data := hperm.subset (List.mem_cons_of_mem _ (hrp.subset hy))
      obtain ⟨j, hj, hjy⟩ := List.getElem_of_mem hy2
      exact IsHeap.front hs h htop j y (by rw [List.getElem?_eq_getElem hj, hjy])

end Ideal

/-!
## The `int` variables of the binary heap

Below 2^30 elements no conversion wraps and no `int` operation overflows, and the
methods compute what the loops over unbounded indices compute.
-/

theorem toInt_of_lt {n : Nat} (h : n < 2 ^ 31) : toInt n = (n : Int) := by
  unfold toInt
  omega

theorem toSize_natCast (k : Nat) (h : k < 2 ^ 64) : toSize (k : Int) = k := by
  unfold toSize
  omega

theorem int32_of_range {x : Int} (h1 : -2 ^ 31 ≤ x) (h2 : x < 2 ^ 31) : int32 x = some x := by
  unfold int32
  rw [if_pos ⟨h1, h2⟩]

theorem int32_of_ge {x : Int} (h : 2 ^ 31 ≤ x) : int32 x = none := by
  unfold int32
  rw [if_neg]
  omega

theorem swap_length {data d : List α} {i j : Nat} (h : swap data i j = some d) :
    d.length = data.length := by
  unfold swap at h
  cases hi : data[i]? with
  | none => simp [hi] at h
  | some x =>
    cases hj : data[j]? with
    | none => simp [hi, hj] at h
    | some y =>
      simp [hi, hj] at h
      rw [← h]
      simp

theorem fixUpLoop_nonpos (compare : α → α → Bool) (fuel : Nat) (data : List α) {i : Int}
    (hi : i ≤ 0) : fixUpLoop compare fuel data i = some data := by
  unfold fixUpLoop
  simp [not_lt.2 hi]

theorem fixUpLoop_pos (compare : α → α → Bool) (fuel : Nat) (data : List α) {i : Int}
    (hi : 0 < i) :
    fixUpLoop compare (fuel + 1) data i =
      (int32 (i - 1)).bind fun d => (int32 (Int.tdiv d 2)).bind fun parent =>
        (data[toSize parent]?).bind fun p => (data[toSize i]?).bind fun c =>
          if compare p c then
            (swap data (toSize i) (toSize parent)).bind fun d =>
              fixUpLoop compare fuel d parent
          else some data := by
  rw [fixUpLoop]
  simp [hi]

theorem fixUpLoop_out_of_fuel (compare : α → α → Bool) (data : List α) {i : Int}
    (hi : 0 < i) : fixUpLoop compare 0 data i = none := by
  rw [fixUpLoop]
  simp [hi]

/-- The loop of `fixUp` from an index below 2^31. -/
theorem fixUpLoop_eq (compare : α → α → Bool) :
    ∀ (fuel : Nat) (data : List α) (i : Nat), i < 2 ^ 31 →
      fixUpLoop compare fuel data (i : Int) = Ideal.fixUpLoop compare fuel data i := by
  intro fuel
  induction fuel with
  | zero =>
    intro data i _
    by_cases h0 : 0 < i
    · rw [fixUpLoop_out_of_fuel compare data (by omega)]
      rw [Ideal.fixUpLoop]
      simp [h0]
    · have hi0 : i = 0 := by omega
      subst hi0
      rw [fixUpLoop_nonpos compare 0 data (by simp), Ideal.fixUpLoop_zero]
  | succ k ih =>
    intro data i hi
    by_cases h0 : 0 < i
    · have h1 : int32 ((i : Int) - 1) = some ((i : Int) - 1) :=
        int32_of_range (by omega) (by omega)
      have hd : Int.tdiv ((i : Int) - 1) 2 = (((i - 1) / 2 : Nat) : Int) := by
        rw [Int.tdiv_eq_ediv (by omega) (by omega)]
        omega
      have h2 : int32 ((((i - 1) / 2 : Nat) : Int)) = some (((i - 1) / 2 : Nat) : Int) :=
        int32_of_range (by omega) (by omega)
      have hs1 : toSize (i : Int) = i := toSize_natCast i (by omega)
      have hs2 : toSize (((i - 1) / 2 : Nat) : Int) = (i - 1) / 2 :=
        toSize_natCast _ (by omega)
      have e1 := fixUpLoop_pos compare k data (show (0 : Int) < (i : Int) by omega)
      have e2 := Ideal.fixUpLoop_succ compare k data h0
      rw [e1, e2, h1]
      simp only [Option.some_bind]
      rw [hd, h2]
      simp only [Option.some_bind, hs1, hs2]
      cases hp : data[(i - 1) / 2]? with
      | none => rfl
      | some p =>
        cases hc : data[i]? with
        | none => rfl
        | some c =>
          simp only [Option.some_bind]
          by_cases hcmp : compare p c = true
          · simp only [hcmp, if_true]
            cases hsw : swap data i ((i - 1) / 2) with
            | none => rfl
            | some d =>
              simp only [Option.some_bind]
              exact ih d ((i - 1) / 2) (by omega)
          · simp only [hcmp, Bool.false_eq_true, if_false]
    · have hi0 : i = 0 := by omega
      subst hi0
      rw [fixUpLoop_nonpos compare _ data (by simp), Ideal.fixUpLoop_zero]

theorem fixUp_eq (compare : α → α → Bool) (data : List α) {i : Nat} (hi : i < 2 ^ 31) :
    fixUp compare data (i : Int) = Ideal.fixUp compare data i :=
  fixUpLoop_eq compare data.length data i hi

theorem fixDownLoop_out_of_fuel (compare : α → α → Bool) (data : List α) (count i : Int) :
    fixDownLoop compare 0 data count i = none := rfl

/-- One iteration of the loop of `fixDown`. -/
theorem fixDownLoop_unfold (compare : α → α → Bool) (fuel : Nat) (data : List α)
    (count i : Int) :
    fixDownLoop compare (fuel + 1) data count i =
      (int32 (2 * i)).bind fun l => (int32 (l + 1)).bind fun left =>
      (int32 (2 * i)).bind fun r => (int32 (r + 2)).bind fun right =>
      (if left < count then
          (data[toSize i]?).bind fun a => (data[toSize left]?).bind fun b =>
            some (if compare a b then left else i)
        else some i).bind fun ex =>
      (if right < count then
          (data[toSize ex]?).bind fun a => (data[toSize right]?).bind fun b =>
            some (if compare a b then right else ex)
        else some ex).bind fun ex =>
      if ex ≠ i then
        (swap data (toSize i) (toSize ex)).bind fun d => fixDownLoop compare fuel d count ex
      else some data := rfl

theorem bind_some_eq {β γ : Type} (a : β) (f : β → Option γ) : (some a).bind f = f a := by
  cases h : f a <;> simp [h]

/-- One iteration of `fixDown` at a slot `i` whose children have indices below 2^31, with
`count` the length of the vector: the `int` variables take the values of the unbounded
ones. -/
theorem fixDownLoop_step (compare : α → α → Bool) (fuel : Nat) (data : List α) (i : Nat)
    (hi : i < data.length) (hb : 2 * i + 2 < 2 ^ 31) :
    fixDownLoop compare (fuel + 1) data (data.length : Int) (i : Int) =
      (Ideal.pick compare data i).bind fun ex =>
        if ex ≠ i then
          (swap data i ex).bind fun d => fixDownLoop compare fuel d (data.length : Int) (ex : Int)
        else some data := by
  have h1 : int32 (2 * (i : Int)) = some (2 * (i : Int)) := int32_of_range (by omega) (by omega)
  have h2 : int32 (2 * (i : Int) + 1) = some (2 * (i : Int) + 1) :=
    int32_of_range (by omega) (by omega)
  have h3 : int32 (2 * (i : Int) + 2) = some (2 * (i : Int) + 2) :=
    int32_of_range (by omega) (by omega)
  have hs0 : toSize (i : Int) = i := toSize_natCast i (by omega)
  have hs1 : toSize (2 * (i : Int) + 1) = 2 * i + 1 := by unfold toSize; omega
  have hs2 : toSize (2 * (i : Int) + 2) = 2 * i + 2 := by unfold toSize; omega
  have hn0 : ¬ ((i : Int) ≠ (i : Int)) := fun h => h rfl
  have hn1 : (2 * (i : Int) + 1 ≠ (i : Int)) := by omega
  have hn2 : (2 * (i : Int) + 2 ≠ (i : Int)) := by omega
  have hm0 : ¬ (i ≠ i) := fun h => h rfl
  have hm1 : 2 * i + 1 ≠ i := by omega
  have hm2 : 2 * i + 2 ≠ i := by omega
  have hk1 : ((2 * i + 1 : Nat) : Int) = 2 * (i : Int) + 1 := by omega
  have hk2 : ((2 * i + 2 : Nat) : Int) = 2 * (i : Int) + 2 := by omega
  have ha : data[i]? = some data[i] := List.getElem?_eq_getElem hi
  rw [fixDownLoop_unfold, h1, bind_some_eq, h2, bind_some_eq]
  simp only [bind_some_eq]
  rw [h3, bind_some_eq]
  by_cases hl : 2 * i + 1 < data.length
  · have hlI : 2 * (i : Int) + 1 < (data.length : Int) := by omega
    have hb : data[2 * i + 1]? = some data[2 * i + 1] := List.getElem?_eq_getElem hl
    by_cases hr : 2 * i + 2 < data.length
    · have hrI : 2 * (i : Int) + 2 < (data.length : Int) := by omega
      have hc : data[2 * i + 2]? = some data[2 * i + 2] := List.getElem?_eq_getElem hr
      by_cases e1 : compare data[i] data[2 * i + 1] = true
      · by_cases e2 : compare data[2 * i + 1] data[2 * i + 2] = true
        · have hp : Ideal.pick compare data i = some (2 * i + 2) := by
            simp [Ideal.pick, hl, hr, ha, hb, hc, e1, e2]
          simp only [hp, bind_some_eq, if_pos hlI, if_pos hrI, hs0, hs1, hs2, ha, hb, hc,
            if_pos e1, if_pos e2, if_pos hn2, if_pos hm2, hk2]
        · have hp : Ideal.pick compare data i = some (2 * i + 1) := by
            simp [Ideal.pick, hl, hr, ha, hb, hc, e1, e2]
          simp only [hp, bind_some_eq, if_pos hlI, if_pos hrI, hs0, hs1, hs2, ha, hb, hc,
            if_pos e1, if_neg e2, if_pos hn1, if_pos hm1, hk1]
      · by_cases e2 : compare data[i] data[2 * i + 2] = true
        · have hp : Ideal.pick compare data i = some (2 * i + 2) := by
            simp [Ideal.pick, hl, hr, ha, hb, hc, e1, e2]
          simp only [hp, bind_some_eq, if_pos hlI, if_pos hrI, hs0, hs1, hs2, ha, hb, hc,
            if_neg e1, if_pos e2, if_pos hn2, if_pos hm2, hk2]
        · have hp : Ideal.pick compare data i = some i := by
            simp [Ideal.pick, hl, hr, ha, hb, hc, e1, e2]
          simp only [hp, bind_some_eq, if_pos hlI, if_pos hrI, hs0, hs1, hs2, ha, hb, hc,
            if_neg e1, if_neg e2, if_neg hn0, if_neg hm0]
    · have hrI : ¬ 2 * (i : Int) + 2 < (data.length : Int) := by omega
      by_cases e1 : compare data[i] data[2 * i + 1] = true
      · have hp : Ideal.pick compare data i = some (2 * i + 1) := by
          simp [Ideal.pick, hl, hr, ha, hb, e1]
        simp only [hp, bind_some_eq, if_pos hlI, if_neg hrI, hs0, hs1, ha, hb,
          if_pos e1, if_pos hn1, if_pos hm1, hk1]
      · have hp : Ideal.pick compare data i = some i := by
          simp [Ideal.pick, hl, hr, ha, hb, e1]
        simp only [hp, bind_some_eq, if_pos hlI, if_neg hrI, hs0, hs1, ha, hb,
          if_neg e1, if_neg hn0, if_neg hm0]
  · have hr : ¬ 2 * i + 2 < data.length := by omega
    have hlI : ¬ 2 * (i : Int) + 1 < (data.length : Int) := by omega
    have hrI : ¬ 2 * (i : Int) + 2 < (data.length : Int) := by omega
    have hp : Ideal.pick compare data i = some i := by
      simp [Ideal.pick, hl, hr]
    simp only [hp, bind_some_eq, if_neg hlI, if_neg hrI, if_neg hn0, if_neg hm0]

/-- The loop of `fixDown` on a vector shorter than 2^30. -/
theorem fixDownLoop_eq (compare : α → α → Bool) :
    ∀ (fuel : Nat) (data : List α) (i : Nat), data.length < 2 ^ 30 → i < data.length →
      fixDownLoop compare fuel data (data.length : Int) (i : Int) =
        Ideal.fixDownLoop compare fuel data i := by
  intro fuel
  induction fuel with
  | zero => intro data i _ _; rfl
  | succ k ih =>
    intro data i hn hi
    rw [fixDownLoop_step compare k data i hi (by omega), Ideal.fixDownLoop_succ]
    cases hp : Ideal.pick compare data i with
    | none => rfl
    | some ex =>
      simp only [Option.some_bind]
      by_cases hex : ex = i
      · simp [hex]
      · simp only [ne_eq, hex, not_false_eq_true, if_true]
        cases hsw : swap data i ex with
        | none => rfl
        | some d =>
          simp only [Option.some_bind]
          have hlen := swap_length hsw
          have hexlt : ex < data.length := by
            unfold swap at hsw
            cases hj : data[ex]? with
            | none => simp [hj] at hsw
            | some y =>
              by_contra hge
              rw [List.getElem?_eq_none (by omega)] at hj
              exact absurd hj (by simp)
          rw [← hlen]
          exact ih d ex (by omega) (by omega)

theorem fixDown_eq (compare : α → α → Bool) {data : List α} {i : Nat}
    (hn : data.length < 2 ^ 30) (hi : i < data.length) :
    fixDown compare data (i : Int) = Ideal.fixDown compare data i := by
  unfold fixDown Ideal.fixDown
  rw [toInt_of_lt (by omega)]
  exact fixDownLoop_eq compare _ data i hn hi

theorem Ideal.fixDownLoop_length (compare : α → α → Bool) :
    ∀ (fuel : Nat) (data d : List α) (i : Nat),
      Ideal.fixDownLoop compare fuel data i = some d → d.length = data.length := by
  intro fuel
  induction fuel with
  | zero => intro data d i h; simp [Ideal.fixDownLoop] at h
  | succ k ih =>
    intro data d i h
    rw [Ideal.fixDownLoop_succ] at h
    cases hp : Ideal.pick compare data i with
    | none => simp [hp] at h
    | some ex =>
      simp only [hp, Option.some_bind] at h
      by_cases hex : ex = i
      · simp [hex] at h
        rw [← h]
      · simp only [ne_eq, hex, not_false_eq_true, if_true] at h
        cases hsw : swap data i ex with
        | none => simp [hsw] at h
        | some d1 =>
          simp only [hsw, Option.some_bind] at h
          rw [ih d1 d ex h, swap_length hsw]

theorem heapifyLoop_neg (compare : α → α → Bool) (fuel : Nat) (data : List α) {i : Int}
    (hi : i < 0) : heapifyLoop compare fuel data i = some data := by
  unfold heapifyLoop
  rw [if_neg (by omega)]
  rfl

theorem heapifyLoop_nonneg (compare : α → α → Bool) (fuel : Nat) (data : List α) {i : Int}
    (hi : 0 ≤ i) :
    heapifyLoop compare (fuel + 1) data i =
      (fixDown compare data i).bind fun d =>
        (int32 (i - 1)).bind fun j => heapifyLoop compare fuel d j := by
  rw [heapifyLoop, if_pos (by omega)]
  rfl

/-- The loop of `updatePriorities` started at `k - 1` on a vector shorter than 2^30. -/
theorem heapifyLoop_eq (compare : α → α → Bool) :
    ∀ (k fuel : Nat) (data : List α), k ≤ fuel → data.length < 2 ^ 30 → k ≤ data.length →
      heapifyLoop compare fuel data ((k : Int) - 1) = Ideal.heapifyLoop compare k data := by
  intro k
  induction k with
  | zero =>
    intro fuel data _ _ _
    rw [heapifyLoop_neg compare fuel data (by omega)]
    rfl
  | succ k ih =>
    intro fuel data hf hn hk
    cases fuel with
    | zero => omega
    | succ f =>
      have hcast : (((k + 1 : Nat) : Int) - 1) = (k : Int) := by omega
      rw [hcast, heapifyLoop_nonneg compare f data (by omega), fixDown_eq compare hn (by omega)]
      rw [Ideal.heapifyLoop]
      cases hd : Ideal.fixDown compare data k with
      | none => rfl
      | some d =>
        have hlen : d.length = data.length := Ideal.fixDownLoop_length compare _ _ _ _ hd
        rw [bind_some_eq, int32_of_range (by omega) (by omega), bind_some_eq]
        exact ih f d (by omega) (by omega) (by omega)

/-- On a vector shorter than 2^30, `updatePriorities` computes what the loop over
unbounded indices computes. -/
theorem updatePriorities_eq (compare : α → α → Bool) {q : BinaryPQ α}
    (hn : q.data.length < 2 ^ 30) :
    updatePriorities compare q = Ideal.updatePriorities compare q := by
  unfold updatePriorities Ideal.updatePriorities
  rw [toInt_of_lt (by omega)]
  have h1 : int32 (((q.data.length / 2 : Nat) : Int) - 1) =
      some (((q.data.length / 2 : Nat) : Int) - 1) := int32_of_range (by omega) (by omega)
  have h2 := heapifyLoop_eq compare (q.data.length / 2) q.data.length q.data (by omega) hn
    (by omega)
  simp only [Option.bind_eq_bind, h1, bind_some_eq, h2]

theorem ofRange_eq (compare : α → α → Bool) {vs : List α} (hn : vs.length < 2 ^ 30) :
    ofRange compare vs = Ideal.ofRange compare vs :=
  updatePriorities_eq compare hn

theorem bind_none_eq {β γ : Type} (f : β → Option γ) : (none : Option β).bind f = none := by
  cases h : (none : Option β).bind f <;> simp_all

theorem push_unfold (compare : α → α → Bool) (q : BinaryPQ α) (v : α) :
    push compare q v =
      (int32 (toInt (q.data ++ [v]).length - 1)).bind fun i =>
        (fixUp compare (q.data ++ [v]) i).bind fun d => some { data := d } := rfl

theorem Ideal.push_unfold_ideal (compare : α → α → Bool) (q : BinaryPQ α) (v : α) :
    Ideal.push compare q v =
      (Ideal.fixUp compare (q.data ++ [v]) ((q.data ++ [v]).length - 1)).bind fun d =>
        some { data := d } := rfl

/-- Up to 2^31 - 1 elements, `push` computes what it computes over unbounded indices. -/
theorem push_eq (compare : α → α → Bool) {q : BinaryPQ α} (hn : q.data.length + 1 < 2 ^ 31)
    (v : α) : push compare q v = Ideal.push compare q v := by
  have hlen : (q.data ++ [v]).length = q.data.length + 1 := by simp
  have h1 : int32 (((q.data.length + 1 : Nat) : Int) - 1) = some (q.data.length : Int) := by
    have : (((q.data.length + 1 : Nat) : Int) - 1) = (q.data.length : Int) := by omega
    rw [this]
    exact int32_of_range (by omega) (by omega)
  have h2 := fixUp_eq compare (q.data ++ [v]) (show q.data.length < 2 ^ 31 by omega)
  rw [push_unfold, Ideal.push_unfold_ideal, hlen, toInt_of_lt hn, h1, bind_some_eq, h2,
    Nat.add_sub_cancel]

theorem pop_unfold (compare : α → α → Bool) (q : BinaryPQ α) :
    pop compare q =
      (swap q.data 0 (q.data.length - 1)).bind fun d =>
        if d.dropLast.isEmpty then some { data := d.dropLast }
        else (fixDown compare d.dropLast 0).bind fun d2 => some { data := d2 } := rfl

theorem Ideal.pop_unfold_ideal (compare : α → α → Bool) (q : BinaryPQ α) :
    Ideal.pop compare q =
      (swap q.data 0 (q.data.length - 1)).bind fun d =>
        if d.dropLast.isEmpty then some { data := d.dropLast }
        else (Ideal.fixDown compare d.dropLast 0).bind fun d2 => some { data := d2 } := rfl

/-- Up to 2^30 elements, `pop` computes what it computes over unbounded indices. -/
theorem pop_eq (compare : α → α → Bool) {q : BinaryPQ α} (hn : q.data.length ≤ 2 ^ 30) :
    pop compare q = Ideal.pop compare q := by
  rw [pop_unfold, Ideal.pop_unfold_ideal]
  cases hsw : swap q.data 0 (q.data.length - 1) with
  | none => rw [bind_none_eq, bind_none_eq]
  | some d =>
    have hlen := swap_length hsw
    rw [bind_some_eq, bind_some_eq]
    by_cases he : d.dropLast.isEmpty = true
    · rw [if_pos he, if_pos he]
    · rw [if_neg he, if_neg he]
      have hpos : 0 < d.dropLast.length := by
        cases hdl : d.dropLast with
        | nil => simp [hdl] at he
        | cons x xs => simp
      have hlt : d.dropLast.length < 2 ^ 30 := by
        rw [List.length_dropLast]
        omega
      have := fixDown_eq compare hlt hpos
      rw [Nat.cast_zero] at this
      rw [this]

/-!
## The binary heap below 2^30 elements
-/

/-- On fewer than 2^30 elements `updatePriorities` returns a permutation that satisfies
the array invariant. -/
theorem updatePriorities_bounded {compare : α → α → Bool} (hs : StrictWeakOrder compare)
    (q : BinaryPQ α) (hn : q.data.length < 2 ^ 30) :
    ∃ q2, updatePriorities compare q = some q2 ∧ IsHeap compare q2.data ∧
      q2.data.Perm q.data := by
  rw [updatePriorities_eq compare hn]
  exact Ideal.binary_updatePriorities_spec hs q

theorem ofRange_bounded {compare : α → α → Bool} (hs : StrictWeakOrder compare) (vs : List α)
    (hn : vs.length < 2 ^ 30) :
    ∃ q, ofRange compare vs = some q ∧ IsHeap compare q.data ∧ q.data.Perm vs :=
  updatePriorities_bounded hs { data := vs } hn

theorem push_bounded {compare : α → α → Bool} (hs : StrictWeakOrder compare) {q : BinaryPQ α}
    (h : IsHeap compare q.data) (hn : q.data.length + 1 < 2 ^ 31) (v : α) :
    ∃ q2, push compare q v = some q2 ∧ IsHeap compare q2.data ∧
      q2.data.Perm (q.data ++ [v]) := by
  rw [push_eq compare hn]
  exact Ideal.binary_push_spec hs h v

theorem pop_bounded {compare : α → α → Bool} (hs : StrictWeakOrder compare) {q : BinaryPQ α}
    (h : IsHeap compare q.data) (hne : empty q = false) (hn : q.data.length ≤ 2 ^ 30) :
    ∃ q2 x, pop compare q = some q2 ∧ top q = some x ∧ IsHeap compare q2.data ∧
      (x :: q2.data).Perm q.data := by
  rw [pop_eq compare hn]
  exact Ideal.binary_pop_spec hs h hne

/-- Every state reached while the vector stays shorter than 2^30 satisfies the array
invariant and is shorter than 2^30. -/
theorem Reach.isHeap {compare : α → α → Bool} (hs : StrictWeakOrder compare) {q : BinaryPQ α}
    (hr : Reach compare q) : IsHeap compare q.data ∧ q.data.length < 2 ^ 30 := by
  induction hr with
  | empty => exact ⟨Ideal.isHeap_nil compare, by simp [empty_pq]⟩
  | @ofRange q vs hlen hq =>
    obtain ⟨q2, h1, h2, h3⟩ := ofRange_bounded hs vs hlen
    rw [hq] at h1
    cases h1
    exact ⟨h2, by rw [h3.length_eq]; exact hlen⟩
  | @push q q2 v _ hb hp ih =>
    obtain ⟨q3, h1, h2, h3⟩ := push_bounded hs ih.1 (by omega) v
    rw [hp] at h1
    cases h1
    refine ⟨h2, ?_⟩
    have := h3.length_eq
    simp at this
    omega
  | @pop q q2 _ hne hp ih =>
    obtain ⟨q3, x, h1, -, h2, h3⟩ := pop_bounded hs ih.1 hne (by omega)
    rw [hp] at h1
    cases h1
    refine ⟨h2, ?_⟩
    have := h3.length_eq
    simp at this
    omega

theorem pushAll_bounded {compare : α → α → Bool} (hs : StrictWeakOrder compare) (vs : List α) :
    ∀ q : BinaryPQ α, Reach compare q → q.data.length + vs.length < 2 ^ 30 →
      ∃ q2, pushAll compare q vs = some q2 ∧ IsHeap compare q2.data ∧
        q2.data.Perm (q.data ++ vs) ∧ Reach compare q2 := by
  induction vs with
  | nil => intro q hr _; exact ⟨q, rfl, (hr.isHeap hs).1, by simp, hr⟩
  | cons v rest ih =>
    intro q hr hn
    simp only [List.length_cons] at hn
    obtain ⟨q1, hp, -, hperm1⟩ := push_bounded hs (hr.isHeap hs).1 (by omega) v
    have hlen1 : q1.data.length = q.data.length + 1 := by
      have := hperm1.length_eq
      simpa using this
    obtain ⟨q2, hall, hh2, hperm2, hr2⟩ := ih q1 (Reach.push v hr (by omega) hp) (by omega)
    refine ⟨q2, by simp [pushAll, hp, hall], hh2, ?_, hr2⟩
    refine hperm2.trans ((hperm1.append_right rest).trans ?_)
    simp

theorem extractLoop_done (compare : α → α → Bool) (fuel : Nat) {q : BinaryPQ α}
    (h : empty q = true) : extractLoop compare fuel q = some [] := by
  unfold extractLoop
  simp [h]

theorem extractLoop_more (compare : α → α → Bool) (fuel : Nat) {q : BinaryPQ α}
    (h : empty q = false) :
    extractLoop compare (fuel + 1) q =
      (top q).bind fun t => (pop compare q).bind fun q2 =>
        (extractLoop compare fuel q2).bind fun rest => some (t :: rest) := by
  rw [extractLoop]
  simp [h]

/-- Full extraction from a vector of at most 2^30 elements that satisfies the array
invariant: it terminates, returns every stored element once, and no earlier output
compares below a later one. -/
theorem extractAll_bounded {compare : α → α → Bool} (hs : StrictWeakOrder compare) :
    ∀ (n : Nat) (q : BinaryPQ α), q.data.length = n → n ≤ 2 ^ 30 → IsHeap compare q.data →
      ∃ out, extractAll compare q = some out ∧ out.Perm q.data ∧
        out.Pairwise (fun a b => compare a b = false) := by
  intro n
  induction n with
  | zero =>
    intro q hlen _ _
    have hnil : q.data = [] := List.eq_nil_of_length_eq_zero hlen
    refine ⟨[], ?_, by simp [hnil], List.Pairwise.nil⟩
    simp [extractAll, extractLoop_done compare _ (show empty q = true by simp [empty, hnil])]
  | succ k ih =>
    intro q hlen hn h
    have hne : empty q = false := by
      cases hq : q.data with
      | nil => simp [hq] at hlen
      | cons a l => simp [empty, hq]
    obtain ⟨q2, x, hpop, htop, hh2, hperm⟩ := pop_bounded hs h hne (by omega)
    have hlen2 : q2.data.length = k := by
      have := hperm.length_eq
      simp at this
      omega
    obtain ⟨rest, hrest, hrp, hrs⟩ := ih q2 hlen2 (by omega) hh2
    refine ⟨x :: rest, ?_, (List.Perm.cons _ hrp).trans hperm, ?_⟩
    · simp only [extractAll, hlen2] at hrest
      simp [extractAll, hlen, extractLoop_more compare _ hne, htop, hpop, hrest]
    · refine List.Pairwise.cons ?_ hrs
      intro y hy
      have hy2 : y ∈ q.data := hperm.subset (List.mem_cons_of_mem _ (hrp.subset hy))
      obtain ⟨j, hj, hjy⟩ := List.getElem_of_mem hy2
      exact Ideal.IsHeap.front hs h htop j y (by rw [List.getElem?_eq_getElem hj, hjy])

/-!
## Vectors too long for the `int` variables
-/

theorem fixDown_unfold (compare : α → α → Bool) (data : List α) (i : Int) :
    fixDown compare data i =
      fixDownLoop compare (data.length + 1) data (toInt data.length) i := rfl

/-- One iteration of `fixDown` at a slot whose right child index `2 * i + 2` is not
representable: the computation of `right` overflows. -/
theorem fixDownLoop_overflow (compare : α → α → Bool) (fuel : Nat) (data : List α)
    (count i : Int) (h0 : 0 ≤ i) (h1 : 2 * i + 1 < 2 ^ 31) (h2 : 2 ^ 31 ≤ 2 * i + 2) :
    fixDownLoop compare (fuel + 1) data count i = none := by
  rw [fixDownLoop_unfold, int32_of_range (by omega) (by omega), bind_some_eq,
    int32_of_range (by omega) (by omega), bind_some_eq, bind_some_eq, int32_of_ge h2,
    bind_none_eq]

/-- The descent of `fixDown` through a vector of 2^30 elements that holds 0 at slot `i` and
1 everywhere else, under `lessNat`: the 0 moves to the left child at every step, and at
slot 2^30 - 1 the computation of `right` overflows. -/
theorem fixDownLoop_descent :
    ∀ (m i fuel : Nat) (D : List Nat), (i + 1) * 2 ^ m = 2 ^ 30 → m < fuel →
      D.length = 2 ^ 30 → D[i]? = some 0 → (∀ j, j < 2 ^ 30 → j ≠ i → D[j]? = some 1) →
      fixDownLoop lessNat fuel D ((2 ^ 30 : Nat) : Int) (i : Int) = none := by
  intro m
  induction m with
  | zero =>
    intro i fuel D hi hf _ _ _
    simp only [pow_zero, mul_one] at hi
    cases fuel with
    | zero => omega
    | succ f => exact fixDownLoop_overflow lessNat f D _ _ (by omega) (by omega) (by omega)
  | succ m ih =>
    intro i fuel D hi hf hlen h0 h1
    have hpow : 2 ^ (m + 1) = 2 * 2 ^ m := by rw [pow_succ]; ring
    have hge : 1 ≤ 2 ^ m := Nat.one_le_two_pow
    have hchild : ((2 * i + 1) + 1) * 2 ^ m = 2 ^ 30 := by
      rw [← hi, hpow]; ring
    have hle : (2 * i + 1) + 1 ≤ ((2 * i + 1) + 1) * 2 ^ m := Nat.le_mul_of_pos_right _ hge
    have hl : 2 * i + 1 < D.length := by omega
    cases fuel with
    | zero => omega
    | succ f =>
      have hc : ((2 ^ 30 : Nat) : Int) = (D.length : Int) := by rw [hlen]
      have hb : D[2 * i + 1]? = some 1 := h1 _ (by omega) (by omega)
      have e1 : lessNat 0 1 = true := rfl
      have e2 : lessNat 1 1 = false := rfl
      have hp : Ideal.pick lessNat D i = some (2 * i + 1) := by
        by_cases hr : 2 * i + 2 < D.length
        · have hcr : D[2 * i + 2]? = some 1 := h1 _ (by omega) (by omega)
          simp [Ideal.pick, hl, hr, h0, hb, hcr, e1, e2]
        · simp [Ideal.pick, hl, hr, h0, hb, e1]
      obtain ⟨d, hsw, hdl, -, hdi, hdj, hdo⟩ :=
        Ideal.swap_spec (show i < D.length by omega) hl (show i ≠ 2 * i + 1 by omega)
      rw [hc, fixDownLoop_step lessNat f D i (by omega) (by omega), hp, bind_some_eq,
        if_pos (show 2 * i + 1 ≠ i by omega), hsw, bind_some_eq, ← hc]
      refine ih (2 * i + 1) f d hchild (by omega) (hdl.trans hlen) (by rw [hdj, h0]) ?_
      intro j hj hne
      by_cases hji : j = i
      · rw [hji, hdi, hb]
      · rw [hdo j hji hne]
        exact h1 j hj hji

theorem length_limitRange : limitRange.length = 2 ^ 30 := by
  unfold limitRange
  rw [List.length_append, List.length_replicate, List.length_cons, List.length_replicate]
  norm_num

theorem getElem?_limitRange_zero : limitRange[2 ^ 29 - 1]? = some 0 := by
  unfold limitRange
  rw [List.getElem?_append_right (by rw [List.length_replicate]), List.length_replicate,
    Nat.sub_self, List.getElem?_cons_zero]

theorem getElem?_limitRange_one {j : Nat} (hj : j < 2 ^ 30) (hne : j ≠ 2 ^ 29 - 1) :
    limitRange[j]? = some 1 := by
  unfold limitRange
  by_cases hlt : j < 2 ^ 29 - 1
  · rw [List.getElem?_append_left (by rw [List.length_replicate]; exact hlt),
      List.getElem?_replicate_of_lt hlt]
  · have hk : j - (2 ^ 29 - 1) = (j - 2 ^ 29) + 1 := by omega
    rw [List.getElem?_append_right (by rw [List.length_replicate]; omega),
      List.length_replicate, hk, List.getElem?_cons_succ,
      List.getElem?_replicate_of_lt (by omega)]

theorem updatePriorities_data_unfold (compare : α → α → Bool) (data : List α) :
    updatePriorities compare { data := data } =
      (int32 (toInt (data.length / 2) - 1)).bind fun i =>
        (heapifyLoop compare data.length data i).bind fun d => some { data := d } := rfl

/-- On `limitRange` the first `fixDown` of `updatePriorities` moves the zero to slot
2^30 - 1, where the computation of `right` overflows. -/
theorem updatePriorities_limitRange :
    updatePriorities lessNat { data := limitRange } = none := by
  have hlen := length_limitRange
  have e1 : (2 ^ 30 : Nat) / 2 = 2 ^ 29 := by norm_num
  have e2 : toInt (2 ^ 29) = ((2 ^ 29 : Nat) : Int) := toInt_of_lt (by omega)
  have e3 : ((2 ^ 29 : Nat) : Int) - 1 = ((2 ^ 29 - 1 : Nat) : Int) := by omega
  have e4 : int32 ((2 ^ 29 - 1 : Nat) : Int) = some ((2 ^ 29 - 1 : Nat) : Int) :=
    int32_of_range (by omega) (by omega)
  have e5 : toInt (2 ^ 30) = ((2 ^ 30 : Nat) : Int) := toInt_of_lt (by omega)
  have hfd : fixDown lessNat limitRange ((2 ^ 29 - 1 : Nat) : Int) = none := by
    rw [fixDown_unfold, hlen, e5]
    exact fixDownLoop_descent 1 (2 ^ 29 - 1) _ limitRange (by norm_num) (by omega) hlen
      getElem?_limitRange_zero (fun j hj hne => getElem?_limitRange_one hj hne)
  have hloop : ∀ fuel, heapifyLoop lessNat (fuel + 1) limitRange ((2 ^ 29 - 1 : Nat) : Int)
      = none := by
    intro fuel
    rw [heapifyLoop_nonneg lessNat fuel limitRange (by omega), hfd, bind_none_eq]
  have e6 : (2 ^ 30 : Nat) = (2 ^ 30 - 1) + 1 := by norm_num
  rw [updatePriorities_data_unfold, hlen, e1, e2, e3, e4, bind_some_eq, e6, hloop,
    bind_none_eq]

theorem ofRange_unfold (compare : α → α → Bool) (vs : List α) :
    ofRange compare vs = updatePriorities compare { data := vs } := rfl

/-- The range constructor is undefined on `limitRange`. -/
theorem ofRange_limitRange : ofRange lessNat limitRange = none := by
  rw [ofRange_unfold, updatePriorities_limitRange]

end BinaryPQ

/-!
## Comparators and states used as concrete instances
-/

theorem lessNat_swo : StrictWeakOrder lessNat := by
  refine ⟨?_, ?_, ?_⟩
  · intro a; simp [lessNat]
  · intro a b c; simp only [lessNat, decide_eq_true_eq]; omega
  · intro a b c; simp only [lessNat, decide_eq_false_iff_not]; omega

theorem lessNat_total : StrictTotalOrder lessNat := by
  refine ⟨lessNat_swo, ?_⟩
  intro a b; simp only [lessNat, decide_eq_false_iff_not]; omega

theorem greaterNat_swo : StrictWeakOrder greaterNat := by
  refine ⟨?_, ?_, ?_⟩
  · intro a; simp [greaterNat]
  · intro a b c; simp only [greaterNat, decide_eq_true_eq]; omega
  · intro a b c; simp only [greaterNat, decide_eq_false_iff_not]; omega

theorem lessFst_swo : StrictWeakOrder lessFst := by
  refine ⟨?_, ?_, ?_⟩
  · intro a; simp [lessFst]
  · intro a b c; simp only [lessFst, decide_eq_true_eq]; omega
  · intro a b c; simp only [lessFst, decide_eq_false_iff_not]; omega

theorem eq_some_getD {β : Type} {o : Option β} (d : β) (h : o.isSome = true) :
    o = some (o.getD d) := by
  cases o with
  | none => simp at h
  | some x => rfl

/-- Two lists sorted by a strict total order that are permutations of one another are
equal. -/
theorem eq_of_perm_of_sorted {α : Type} {compare : α → α → Bool}
    (ht : StrictTotalOrder compare) {l1 l2 : List α} (hp : l1.Perm l2)
    (h1 : l1.Pairwise (fun a b => compare b a = false))
    (h2 : l2.Pairwise (fun a b => compare b a = false)) : l1 = l2 := by
  haveI : IsAntisymm α (fun a b => compare b a = false) :=
    ⟨fun a b hab hba => ht.total a b hba hab⟩
  exact List.eq_of_perm_of_sorted hp h1 h2

namespace PairingPQ

variable {α : Type}

theorem Tree.cells_unique {t : Tree α} (hnd : t.addrs.Nodup) {n : Nat} {e e2 : α}
    (h1 : (n, e) ∈ t.cells) (h2 : (n, e2) ∈ t.cells) : e = e2 := by
  have hinj : ∀ l : List (Nat × α), (l.map Prod.fst).Nodup → (n, e) ∈ l → (n, e2) ∈ l →
      e = e2 := by
    intro l
    induction l with
    | nil => intro _ h; simp at h
    | cons x rest ih =>
      intro hnd h1 h2
      simp only [List.map_cons, List.nodup_cons] at hnd
      simp only [List.mem_cons] at h1 h2
      rcases h1 with h1 | h1 <;> rcases h2 with h2 | h2
      · rw [← h1] at h2
        exact (Prod.mk.inj h2).2.symm ▸ rfl
      · exact absurd (List.mem_map_of_mem Prod.fst h2) (by rw [← h1] at hnd; exact hnd.1)
      · exact absurd (List.mem_map_of_mem Prod.fst h1) (by rw [← h2] at hnd; exact hnd.1)
      · exact ih hnd.2 h1 h2
  exact hinj t.cells hnd h1 h2

/-- Overwriting the element of `n` replaces one cell and keeps the others. -/
theorem Tree.setElt_cells_perm (n : Nat) (v : α) (t : Tree α) (hnd : t.addrs.Nodup)
    (hn : n ∈ t.addrs) :
    ∃ e rest, t.cells.Perm ((n, e) :: rest) ∧ (Tree.setElt n v t).cells.Perm ((n, v) :: rest) := by
  obtain ⟨e, hp⟩ := Tree.cut_cells_perm n t hnd hn
  obtain ⟨e1, hp1⟩ := Tree.cut_cells_perm n (Tree.setElt n v t) (by simpa using hnd)
    (by simpa using hn)
  have he1 : e1 = v := Tree.mem_cells_setElt n v _ e1 (hp1.mem_iff.2 (by simp))
  rw [he1, Tree.cut_setElt _ _ _ hnd, Tree.childOf_setElt _ _ _ hnd] at hp1
  exact ⟨e, _, hp, hp1⟩

/-- In a heap-ordered tree nothing is more extreme than the root element. -/
theorem Tree.HeapOrdered.root_max {compare : α → α → Bool} (hs : StrictWeakOrder compare)
    {r : Nat} {x : α} {c : Tree α}
    (h : Tree.HeapOrdered compare (Tree.node r x c Tree.nil)) :
    ∀ y ∈ (Tree.node r x c Tree.nil).elts, compare y x = false := by
  intro y hy
  simp only [Tree.elts_node, Tree.elts_nil, List.nil_append, List.mem_cons] at hy
  rcases hy with rfl | hy
  · exact hs.irrefl _
  · exact h.1 y hy

/-- Pushing values into the empty queue gives a reachable state. -/
theorem reach_pushAll (compare : α → α → Bool) (vs : List α) :
    ∃ q t, pushAll compare empty_pq vs = some q ∧ Models q t ∧ t.elts.Perm vs ∧
      Reach compare (vs.map Op.push) q := by
  obtain ⟨q, t, h1, h2, h3, h4⟩ := pushAll_spec compare vs empty_pq Tree.nil [] models_empty
    Reach.empty
  exact ⟨q, t, h1, h2, by simpa using h3, by simpa using h4⟩

theorem demo_reach : Reach lessNat [Op.push 5, Op.push 3, Op.push 8] demo := by
  obtain ⟨q, t, h1, -, -, h4⟩ := reach_pushAll lessNat [5, 3, 8]
  have : demo = q := by rw [demo, h1]; rfl
  rw [this]
  exact h4

theorem demoMutated_shape : Shape demoMutated demoMutatedTree := by
  refine ⟨by decide!, ?_, by decide, by decide!, ?_⟩
  · exact ⟨⟨_, rfl, rfl, rfl, rfl⟩, ⟨⟨_, rfl, rfl, rfl, rfl⟩, trivial,
      ⟨⟨_, rfl, rfl, rfl, rfl⟩, trivial, trivial⟩⟩, trivial⟩
  · intro a ha
    have hf : demoMutated.fresh = 3 := by decide!
    rw [hf]
    simp [demoMutatedTree] at ha
    omega

end PairingPQ

namespace BinaryPQ

end BinaryPQ

/-!
## Range construction against successive insertion
-/

/-- Two lists in which no element compares below a later one, under a strict total order,
are equal when they are permutations of one another. -/
theorem eq_of_perm_of_descending {α : Type} {compare : α → α → Bool}
    (ht : StrictTotalOrder compare) {l1 l2 : List α} (hp : l1.Perm l2)
    (h1 : l1.Pairwise (fun a b => compare a b = false))
    (h2 : l2.Pairwise (fun a b => compare a b = false)) : l1 = l2 := by
  haveI : IsAntisymm α (fun a b => compare a b = false) :=
    ⟨fun a b hab hba => ht.total a b hab hba⟩
  exact List.eq_of_perm_of_sorted hp h1 h2

/-- In a list in which no element compares below a later one, the elements that `x`
compares below come first: if `x` compares below the element at position `i`, it compares
below at least `i + 1` elements. -/
theorem countP_above_of_descending {α : Type} {compare : α → α → Bool}
    (hs : StrictWeakOrder compare) {l : List α}
    (hl : l.Pairwise (fun a b => compare a b = false)) (x : α) {i : Nat} (hi : i < l.length)
    (hx : compare x l[i] = true) : i + 1 ≤ l.countP (fun y => compare x y) := by
  rw [List.pairwise_iff_getElem] at hl
  have hsplit : l = l.take (i + 1) ++ l.drop (i + 1) := (List.take_append_drop _ _).symm
  have hall : ∀ y ∈ l.take (i + 1), compare x y = true := by
    intro y hy
    obtain ⟨j, hj, hjy⟩ := List.getElem_of_mem hy
    rw [List.length_take] at hj
    rw [List.getElem_take] at hjy
    subst hjy
    by_cases hji : j = i
    · subst hji; exact hx
    · have := hl j i (by omega) hi (by omega)
      cases hc : compare x l[j] with
      | true => rfl
      | false =>
        have := hs.neg_trans hc this
        rw [hx] at this
        exact absurd this (by simp)
  have hc : (l.take (i + 1)).countP (fun y => compare x y) = i + 1 := by
    rw [List.countP_eq_length.2 hall, List.length_take]
    omega
  rw [hsplit, List.countP_append, hc]
  omega

/-- In such a list the element at position `i` compares below at most `i` elements. -/
theorem countP_above_self_of_descending {α : Type} {compare : α → α → Bool}
    (hs : StrictWeakOrder compare) {l : List α}
    (hl : l.Pairwise (fun a b => compare a b = false)) {i : Nat} (hi : i < l.length) :
    l.countP (fun y => compare l[i] y) ≤ i := by
  rw [List.pairwise_iff_getElem] at hl
  have hsplit : l.countP (fun y => compare l[i] y) =
      (l.take i).countP (fun y => compare l[i] y) + (l.drop i).countP (fun y => compare l[i] y) := by
    rw [← List.countP_append, List.take_append_drop]
  have hnone : ∀ y ∈ l.drop i, ¬ (compare l[i] y = true) := by
    intro y hy
    obtain ⟨j, hj, hjy⟩ := List.getElem_of_mem hy
    rw [List.length_drop] at hj
    rw [List.getElem_drop] at hjy
    subst hjy
    by_cases hj0 : j = 0
    · subst hj0
      simp [hs.irrefl]
    · have := hl i (i + j) hi (by omega) (by omega)
      simp [this]
  have hz : (l.drop i).countP (fun y => compare l[i] y) = 0 := List.countP_eq_zero.2 hnone
  have hle := List.countP_le_length (fun y => compare l[i] y) (l := l.take i)
  rw [List.length_take] at hle
  rw [hsplit, hz]
  omega

/-- Two lists in which no element compares below a later one, under a strict weak
ordering, hold equivalent elements position by position when they are permutations of one
another. -/
theorem equiv_of_perm_of_descending {α : Type} {compare : α → α → Bool}
    (hs : StrictWeakOrder compare) {l1 l2 : List α} (hp : l1.Perm l2)
    (h1 : l1.Pairwise (fun a b => compare a b = false))
    (h2 : l2.Pairwise (fun a b => compare a b = false)) :
    List.Forall₂ (fun a b => compare a b = false ∧ compare b a = false) l1 l2 := by
  rw [List.forall₂_iff_get]
  refine ⟨hp.length_eq, ?_⟩
  intro i hi1 hi2
  simp only [List.get_eq_getElem]
  constructor
  · cases hc : compare l1[i] l2[i] with
    | false => rfl
    | true =>
      have ha := countP_above_of_descending hs h2 l1[i] hi2 hc
      have hb := countP_above_self_of_descending hs h1 hi1
      have := hp.countP_eq (fun y => compare l1[i] y)
      omega
  · cases hc : compare l2[i] l1[i] with
    | false => rfl
    | true =>
      have ha := countP_above_of_descending hs h1 l2[i] hi1 hc
      have hb := countP_above_self_of_descending hs h2 hi2
      have := hp.countP_eq (fun y => compare l2[i] y)
      omega

namespace BinaryPQ

variable {α : Type}

theorem lessFst_tied_range :
    (ofRange lessFst tied).bind (extractAll lessFst) = some [(2, 1), (2, 0), (1, 1), (1, 0)] := by
  decide!

theorem lessFst_tied_push :
    (pushAll lessFst empty_pq tied).bind (extractAll lessFst)
      = some [(2, 0), (2, 1), (1, 0), (1, 1)] := by
  decide!

end BinaryPQ

/-!
## Concrete pairing heaps
-/

namespace PairingPQ

variable {α : Type}

theorem demoChain_reach : Reach lessNat [Op.push 2, Op.push 4, Op.push 1] demoChain := by
  obtain ⟨q, t, h1, -, -, h4⟩ := reach_pushAll lessNat [2, 4, 1]
  have : demoChain = q := by rw [demoChain, h1]; rfl
  rw [this]
  exact h4

theorem Reach.holdsHeapOrder {compare : α → α → Bool} (hs : StrictWeakOrder compare)
    {ops : List (Op α)} {q : PairingPQ α} (hr : Reach compare ops q) : HeapOrder compare q := by
  obtain ⟨t, hm, -, ho⟩ := hr.inv
  exact hm.heapOrder (ho hs)

/-!
## The links that `meld` writes
-/

/-- The effect of `meld` when the second root wins. -/
theorem meld_second_wins (compare : α → α → Bool) {m : Mem α} {a b : Nat} {an bn : Node α}
    (ha : m a = some an) (hb : m b = some bn) (hab : a ≠ b)
    (hc : compare bn.elt an.elt = true)
    (hch : ∀ c, bn.child = some c → c ≠ a ∧ c ≠ b ∧ ∃ cn, m c = some cn) :
    ∃ m2, meld compare m (some a) (some b) = some (m2, some b) ∧
      m2 a = some { elt := an.elt, child := an.child, sibling := bn.child, parent := some b } ∧
      m2 b = some { elt := bn.elt, child := some a, sibling := bn.sibling, parent := none } ∧
      (∀ c cn, bn.child = some c → m c = some cn → m2 c = some { cn with parent := some b }) ∧
      ∀ x, x ≠ a → x ≠ b → bn.child ≠ some x → m2 x = m x := by
  have hba : b ≠ a := fun h => hab h.symm
  cases hbc : bn.child with
  | none =>
    refine ⟨_, by simp [meld, setParent, setSibling, setChild, setParentIf, store, ha, hb, hc,
      hab, hba, hbc]; rfl, ?_, ?_, ?_, ?_⟩
    · simp [store, hab]
    · simp [store]
    · intro c cn h; simp at h
    · intro x hxa hxb _; simp [store, hxa, hxb]
  | some c =>
    obtain ⟨hca, hcb, cn, hcn⟩ := hch c hbc
    have hac : a ≠ c := fun h => hca h.symm
    have hbc2 : b ≠ c := fun h => hcb h.symm
    refine ⟨_, by simp [meld, setParent, setSibling, setChild, setParentIf, store, ha, hb, hc,
      hab, hba, hbc, hca, hcb, hcn, hac, hbc2]; rfl, ?_, ?_, ?_, ?_⟩
    · simp [store, hab, hac]
    · simp [store]
    · intro c2 cn2 h h2
      simp only [Option.some.injEq] at h
      subst h
      rw [hcn] at h2
      cases h2
      simp [store, hcb]
    · intro x hxa hxb hxc
      have : x ≠ c := fun h => hxc (by rw [h])
      simp [store, hxa, hxb, this]

/-- The effect of `meld` when the first root stays on top. -/
theorem meld_first_wins (compare : α → α → Bool) {m : Mem α} {a b : Nat} {an bn : Node α}
    (ha : m a = some an) (hb : m b = some bn) (hab : a ≠ b)
    (hc : compare bn.elt an.elt = false)
    (hch : ∀ c, an.child = some c → c ≠ a ∧ c ≠ b ∧ ∃ cn, m c = some cn) :
    ∃ m2, meld compare m (some a) (some b) = some (m2, some a) ∧
      m2 b = some { elt := bn.elt, child := bn.child, sibling := an.child, parent := some a } ∧
      m2 a = some { elt := an.elt, child := some b, sibling := an.sibling, parent := an.parent } ∧
      (∀ c cn, an.child = some c → m c = some cn → m2 c = some { cn with parent := some a }) ∧
      ∀ x, x ≠ a → x ≠ b → an.child ≠ some x → m2 x = m x := by
  have hba : b ≠ a := fun h => hab h.symm
  cases hac : an.child with
  | none =>
    refine ⟨_, by simp [meld, setParent, setSibling, setChild, setParentIf, store, ha, hb, hc,
      hab, hba, hac]; rfl, ?_, ?_, ?_, ?_⟩
    · simp [store, hba]
    · simp [store]
    · intro c cn h; simp at h
    · intro x hxa hxb _; simp [store, hxa, hxb]
  | some c =>
    obtain ⟨hca, hcb, cn, hcn⟩ := hch c hac
    have hac2 : a ≠ c := fun h => hca h.symm
    have hbc2 : b ≠ c := fun h => hcb h.symm
    refine ⟨_, by simp [meld, setParent, setSibling, setChild, setParentIf, store, ha, hb, hc,
      hab, hba, hac, hca, hcb, hcn, hac2, hbc2]; rfl, ?_, ?_, ?_, ?_⟩
    · simp [store, hba, hbc2]
    · simp [store]
    · intro c2 cn2 h h2
      simp only [Option.some.injEq] at h
      subst h
      rw [hcn] at h2
      cases h2
      simp [store, hca]
    · intro x hxa hxb hxc
      have : x ≠ c := fun h => hxc (by rw [h])
      simp [store, hxa, hxb, this]

/-!
## `pop` as a fold of `meld`
-/

theorem Built.models {compare : α → α → Bool} {q : PairingPQ α} (hb : Built compare q) :
    ∃ t, Models q t := by
  induction hb with
  | empty => exact ⟨Tree.nil, models_empty⟩
  | @push q q2 v _ hp ih =>
    obtain ⟨t, hm⟩ := ih
    obtain ⟨q3, h1, h2, -, -⟩ := push_spec compare hm v
    rw [hp] at h1
    cases h1
    exact ⟨_, h2⟩
  | @pop q q2 _ hne hp ih =>
    obtain ⟨t, hm⟩ := ih
    cases t with
    | nil =>
      have := hm.empty_iff.2 rfl
      rw [hne] at this
      exact absurd this (by simp)
    | node r e c s =>
      obtain ⟨q3, h1, h2, -, -⟩ := pop_spec compare hm
      rw [hp] at h1
      cases h1
      exact ⟨_, h2⟩
  | @updatePriorities q q2 _ hp ih =>
    obtain ⟨t, hm⟩ := ih
    obtain ⟨q3, h1, h2, -, -, -⟩ := updatePriorities_spec compare hm
    rw [hp] at h1
    cases h1
    exact ⟨_, h2⟩
  | @updateElt q q2 node v old _ hlive hp ih =>
    obtain ⟨t, hm⟩ := ih
    obtain ⟨q3, h1, h2, -, -, -⟩ := updateElt_spec compare hm (hm.mem_addrs hlive) v
    rw [hp] at h1
    cases h1
    exact ⟨_, h2⟩

theorem Reach.built {compare : α → α → Bool} {ops : List (Op α)} {q : PairingPQ α}
    (hr : Reach compare ops q) : Built compare q := by
  induction hr with
  | empty => exact Built.empty
  | push v _ hp ih => exact Built.push v ih hp
  | pop _ hne hp ih => exact Built.pop ih hne hp
  | updatePriorities _ hp ih => exact Built.updatePriorities ih hp
  | updateElt node v old _ hlive _ hp ih => exact Built.updateElt node v old ih hlive hp

/-- The parent link that `meld` finds on its second argument does not matter: both
branches overwrite it. -/
theorem meld_parent_second (compare : α → α → Bool) {m : Mem α} {s : Nat} {n : Node α}
    (hs : m s = some n) (f : Nat) (p : Option Nat) :
    meld compare (store m s { n with parent := p }) (some f) (some s) =
      meld compare m (some f) (some s) := by
  by_cases hfs : f = s
  · subst hfs
    simp [meld, setParent, hs]
  · cases hf : m f with
    | none => simp [meld, hs, hf, store, hfs]
    | some fn => simp [meld, setParent, hs, hf, store_other _ _ hfs]

/-- On two non-null arguments `meld` returns one of them. -/
theorem meld_ptr (compare : α → α → Bool) {m m2 : Mem α} {f s : Nat} {r : Option Nat}
    (h : meld compare m (some f) (some s) = some (m2, r)) : r = some f ∨ r = some s := by
  simp only [meld] at h
  cases hs : m s with
  | none => simp [hs] at h
  | some sn =>
    cases hf : m f with
    | none => simp [hs, hf] at h
    | some fn =>
      simp only [hs, hf, Option.bind_eq_bind, Option.some_bind] at h
      split at h
      · simp only [Option.bind_eq_some, Option.pure_def, Option.some.injEq, Prod.mk.injEq] at h
        obtain ⟨_, _, _, _, _, _, _, _, _, _, _, _, _, _, _, hr⟩ := h
        exact Or.inr hr.symm
      · simp only [Option.bind_eq_some, Option.pure_def, Option.some.injEq, Prod.mk.injEq] at h
        obtain ⟨_, _, _, _, _, _, _, _, _, _, _, _, _, hr⟩ := h
        exact Or.inl hr.symm

/-- The loop worded with calls of `meld` computes what the loop of `pop` computes. -/
theorem foldMeld_eq_popLoop (compare : α → α → Bool) :
    ∀ (fuel : Nat) (m : Mem α) (cur : Nat) (nxt : Option Nat),
      foldMeld compare fuel m (some cur) nxt =
        (popLoop compare fuel m cur nxt).map fun r => (r.1, some r.2) := by
  intro fuel
  induction fuel with
  | zero =>
    intro m cur nxt
    cases nxt with
    | none => simp [foldMeld, popLoop]
    | some ns => simp [foldMeld, popLoop]
  | succ k ih =>
    intro m cur nxt
    cases nxt with
    | none => simp [foldMeld, popLoop]
    | some ns =>
      rw [popLoop_succ]
      cases hns : m ns with
      | none => simp [foldMeld, hns]
      | some nsn =>
        have h1 : store m ns { nsn with sibling := none } ns
            = some { nsn with sibling := none } := store_same _ _ _
        have h2 := meld_parent_second compare h1 cur none
        simp only [store_store] at h2
        simp only [foldMeld, hns, setSibling, setParent, Option.map_some', Option.bind_eq_bind,
          Option.some_bind, store_same, store_store, h2]
        cases hm : meld compare (store m ns { nsn with sibling := none }) (some cur) (some ns) with
        | none => simp
        | some r =>
          obtain ⟨m2, c⟩ := r
          rcases meld_ptr compare hm with rfl | rfl
          · simp [ih]
          · simp [ih]

/-- On a well-formed state whose root has a child, the loop of `pop` returns a node whose
parent link is null. -/
theorem popLoop_root (compare : α → α → Bool) {q : PairingPQ α} {r : Nat} {e : α} {b : Nat}
    {f : α} {d s1 : Tree α}
    (h : Models q (Tree.node r e (Tree.node b f d s1) Tree.nil)) :
    ∃ m3 a3 n3, popLoop compare q.fresh (store q.mem b ⟨f, d.ptr, none, none⟩) b s1.ptr
        = some (m3, a3) ∧ m3 a3 = some n3 ∧ n3.parent = none := by
  obtain ⟨hroot, hrep, -, hnd, hcount, hown, hbound⟩ := h
  obtain ⟨hr, hc, -⟩ := hrep
  obtain ⟨hb, hd, hs1⟩ := hc
  simp [List.nodup_append] at hnd
  obtain ⟨⟨hrb, hrs1, hrd⟩, ⟨hbs1, hbd⟩, hs1n, hdn, hs1d⟩ := hnd
  have hndc : (b :: (d.addrs ++ s1.addrs)).Nodup := by
    simp [List.nodup_append, hbs1, hbd, hs1n, hdn, hs1d.symm]
  have hfuel : s1.size ≤ q.fresh :=
    Tree.size_le_of_bound hs1n (fun a ha => hbound a (by simp [ha]))
  have hacc : Rep (store q.mem b ⟨f, d.ptr, none, none⟩) none (Tree.node b f d Tree.nil) := by
    simp (disch := assumption) [Rep, Rep.store_iff, hd]
  have hrest : Rep (store q.mem b ⟨f, d.ptr, none, none⟩) (some r) s1 := by
    simp (disch := assumption) [Rep.store_iff, hs1]
  obtain ⟨m3, a3, e3, c3, -, hloop, hrep3, -⟩ :=
    popLoop_spec compare (some r) s1 q.fresh _ b f d hfuel hacc hrest hndc
  exact ⟨m3, a3, _, hloop, hrep3.1, rfl⟩

/-- On a well-formed non-empty state, `pop` worded with calls of `meld` returns what `pop`
returns. -/
theorem popByMeld_eq_pop (compare : α → α → Bool) {q : PairingPQ α} {r : Nat} {e : α}
    {c : Tree α} (h : Models q (Tree.node r e c Tree.nil)) :
    popByMeld compare q = pop compare q := by
  have hroot : q.root = some r := h.root
  have hr := h.rep.1
  cases c with
  | nil => simp [popByMeld, pop, hroot, hr]
  | node b f d s1 =>
    obtain ⟨m3, a3, n3, hloop, h3, hp3⟩ := popLoop_root compare h
    have hb := h.rep.2.1.1
    have hself : store m3 a3 { n3 with parent := none } = m3 := by
      have : ({ n3 with parent := none } : Node α) = n3 := by
        cases n3; simp at hp3; simp [hp3]
      rw [this]
      exact store_self h3
    simp [popByMeld, pop, hroot, hr, hb, setSibling, setParent, foldMeld_eq_popLoop, hloop, h3,
      hself]

/-!
## Parent links and the predecessor walk
-/

namespace Tree

theorem not_mem_childOf (n : Nat) (t : Tree α) (hnd : t.addrs.Nodup) :
    n ∉ (childOf n t).addrs := by
  induction t with
  | nil => simp [childOf]
  | node a e c s ihc ihs =>
    simp [List.nodup_append] at hnd
    obtain ⟨⟨has, hac⟩, hsn, hcn, -⟩ := hnd
    by_cases han : a = n
    · subst han
      simpa [childOf] using hac
    · by_cases hnc : n ∈ c.addrs
      · simpa [childOf, han, hnc] using ihc hcn
      · simpa [childOf, han, hnc] using ihs hsn

theorem nodup_childOf (n : Nat) (t : Tree α) (hnd : t.addrs.Nodup) :
    (childOf n t).addrs.Nodup := by
  induction t with
  | nil => simp [childOf]
  | node a e c s ihc ihs =>
    simp [List.nodup_append] at hnd
    obtain ⟨-, hsn, hcn, -⟩ := hnd
    by_cases han : a = n
    · simpa [childOf, han] using hcn
    · by_cases hnc : n ∈ c.addrs
      · simpa [childOf, han, hnc] using ihc hcn
      · simpa [childOf, han, hnc] using ihs hsn

/-- A node that is not on the top-level chain is on the child chain of some node. -/
theorem exists_parent (t : Tree α) (hnd : t.addrs.Nodup) :
    ∀ x ∈ t.addrs, x ∉ t.top → ∃ p ∈ t.addrs, x ∈ (childOf p t).top := by
  induction t with
  | nil => intro x hx; simp at hx
  | node a e c s ihc ihs =>
    intro x hx hxt
    have hnd0 := hnd
    simp [List.nodup_append] at hnd
    obtain ⟨⟨has, hac⟩, hsn, hcn, hsc⟩ := hnd
    simp only [top, List.mem_cons, not_or] at hxt
    simp only [addrs_node, List.mem_cons, List.mem_append] at hx
    rcases hx with hx | hx | hx
    · exact absurd hx hxt.1
    · obtain ⟨p, hp, hxp⟩ := ihs hsn x hx hxt.2
      have hap : a ≠ p := by rintro rfl; exact has hp
      have hpc : p ∉ c.addrs := fun h => hsc hp h
      exact ⟨p, by simp [hp], by simpa [childOf, hap, hpc] using hxp⟩
    · by_cases hxc : x ∈ c.top
      · exact ⟨a, by simp, by simpa [childOf] using hxc⟩
      · obtain ⟨p, hp, hxp⟩ := ihc hcn x hx hxc
        have hap : a ≠ p := by rintro rfl; exact hac hp
        exact ⟨p, by simp [hp], by simpa [childOf, hap, hp] using hxp⟩

end Tree

/-- Every node of the top-level chain carries the parent link of the chain. -/
theorem Rep.top_parent {m : Mem α} {u : Tree α} {par : Option Nat} (h : Rep m par u) :
    ∀ x ∈ u.top, ∃ xn, m x = some xn ∧ xn.parent = par := by
  induction u with
  | nil => intro x hx; simp [Tree.top] at hx
  | node a e c s _ ihs =>
    intro x hx
    simp only [Tree.top, List.mem_cons] at hx
    rcases hx with rfl | hx
    · exact ⟨_, h.1, rfl⟩
    · exact ihs h.2.2 x hx

/-- The sibling link of a node of the top-level chain stays on the chain. -/
theorem Rep.top_sibling {m : Mem α} {u : Tree α} {par : Option Nat} (h : Rep m par u) :
    ∀ y ∈ u.top, ∀ (yn : Node α) (x : Nat), m y = some yn → yn.sibling = some x →
      x ∈ u.top := by
  induction u with
  | nil => intro y hy; simp [Tree.top] at hy
  | node a e c s _ ihs =>
    intro y hy yn x hyn hsib
    simp only [Tree.top, List.mem_cons] at hy ⊢
    rcases hy with rfl | hy
    · rw [h.1] at hyn
      cases hyn
      exact Or.inr (Tree.ptr_mem_top hsib)
    · exact Or.inr (ihs h.2.2 y hy yn x hyn hsib)

/-- The statement `if (node->sibling) node->sibling->parent = node->parent;` changes
nothing when `node` is on a chain whose nodes all carry the same parent link. -/
theorem Rep.setParentIf_top {m : Mem α} {u : Tree α} {par : Option Nat} (h : Rep m par u) :
    ∀ n ∈ u.top, ∀ nn : Node α, m n = some nn → setParentIf m nn.sibling par = some m := by
  induction u with
  | nil => intro n hn; simp [Tree.top] at hn
  | node a e c s _ ihs =>
    intro n hn nn hnn
    simp only [Tree.top, List.mem_cons] at hn
    rcases hn with rfl | hn
    · rw [h.1] at hnn
      cases hnn
      exact h.2.2.setParentIf_head
    · exact ihs h.2.2 n hn nn hnn

theorem chain_spec {m : Mem α} (u : Tree α) :
    ∀ fuel : Nat, u.size ≤ fuel → Links m u → chain fuel m u.ptr = some u.top := by
  induction u with
  | nil => intro fuel _ _; cases fuel <;> simp [chain, Tree.top]
  | node a e c s _ ihs =>
    intro fuel hfuel hl
    obtain ⟨⟨n, hn, -, -, hsib⟩, -, hs⟩ := hl
    cases fuel with
    | zero => simp [Tree.size] at hfuel
    | succ k =>
      have := ihs k (by simp [Tree.size] at hfuel; omega) hs
      simp [chain, hn, hsib, this, Tree.top]

theorem findPrev_sound {m : Mem α} {n : Nat} :
    ∀ (fuel : Nat) (a prev : Nat), findPrev fuel m a n = some prev →
      ∃ pn, m prev = some pn ∧ pn.sibling = some n := by
  intro fuel
  induction fuel with
  | zero => intro a prev h; simp [findPrev] at h
  | succ k ih =>
    intro a prev h
    simp only [findPrev, Option.bind_eq_bind, Option.pure_def] at h
    cases ha : m a with
    | none => simp [ha] at h
    | some an =>
      simp only [ha, Option.some_bind] at h
      split at h
      · cases h
        exact ⟨an, ha, by assumption⟩
      · cases hs : an.sibling with
        | none => simp [hs] at h
        | some nxt =>
          simp only [hs, Option.some_bind] at h
          exact ih nxt prev h

/-- The child chain of a node of a well-formed state, as the pointer graph has it. -/
theorem Models.children_eq {q : PairingPQ α} {t : Tree α} (h : Models q t) {p : Nat}
    (hp : p ∈ t.addrs) : children q p = some (Tree.childOf p t).top := by
  obtain ⟨pn, hpn, hch, hrep⟩ := h.rep.childOf_held p t h.nodup hp
  have hfuel : (Tree.childOf p t).size ≤ q.fresh :=
    (Tree.size_childOf_le p t).trans (Tree.size_le_of_bound h.nodup h.bound)
  simp [children, hpn, hch, chain_spec _ q.fresh hfuel hrep.links]

/-!
## Parent links of well-formed states
-/

/-- In a well-formed state the root has null parent and sibling links. -/
theorem Models.root_links {q : PairingPQ α} {t : Tree α} (h : Models q t) :
    ∀ r, q.root = some r → ∃ rn, q.mem r = some rn ∧ rn.parent = none ∧ rn.sibling = none ∧
      t.top = [r] := by
  intro r hr
  cases t with
  | nil =>
    rw [h.root] at hr
    simp at hr
  | node a e c s =>
    have hs : s = Tree.nil := h.noSib
    subst hs
    rw [h.root] at hr
    simp only [Tree.ptr_node, Option.some.injEq] at hr
    subst hr
    exact ⟨_, h.rep.1, rfl, rfl, rfl⟩

/-- In a well-formed state a node other than the root is on the child chain of the node
its parent link designates. -/
theorem Models.parent_of {q : PairingPQ α} {t : Tree α} (h : Models q t) {x : Nat}
    (hx : x ∈ t.addrs) (hroot : q.root ≠ some x) :
    ∃ xn p, q.mem x = some xn ∧ xn.parent = some p ∧ p ∈ t.addrs ∧ p ≠ x ∧
      x ∈ (Tree.childOf p t).top ∧ Rep q.mem (some p) (Tree.childOf p t) := by
  have hxt : x ∉ t.top := by
    cases t with
    | nil => simp [Tree.top]
    | node a e c s =>
      have hs : s = Tree.nil := h.noSib
      subst hs
      have hr := h.root
      simp only [Tree.ptr_node] at hr
      simp only [Tree.top, List.mem_singleton]
      rintro rfl
      exact hroot hr
  obtain ⟨p, hp, hxp⟩ := Tree.exists_parent t h.nodup x hx hxt
  obtain ⟨pn, -, -, hrep⟩ := h.rep.childOf_held p t h.nodup hp
  obtain ⟨xn, hxn, hpar⟩ := hrep.top_parent x hxp
  refine ⟨xn, p, hxn, hpar, hp, ?_, hxp, hrep⟩
  intro hpx
  rw [hpx] at hxp
  exact Tree.not_mem_childOf x t h.nodup (Tree.top_subset _ x hxp)

/-- The parent links of a well-formed state: the parent link of a node other than the
root designates the one node whose child chain contains it, and never the node whose
sibling link designates it. -/
theorem Models.parent_links {q : PairingPQ α} {t : Tree α} (h : Models q t) {x : Nat}
    (hx : x ∈ t.addrs) (hroot : q.root ≠ some x) :
    ∃ xn p ch, q.mem x = some xn ∧ xn.parent = some p ∧ p ∈ t.addrs ∧
      children q p = some ch ∧ x ∈ ch ∧
      (∀ p2 ∈ t.addrs, ∀ ch2, children q p2 = some ch2 → x ∈ ch2 → p2 = p) ∧
      (∀ (y : Nat) (yn : Node α), q.mem y = some yn → yn.sibling = some x →
        xn.parent ≠ some y ∧ yn.parent = some p) := by
  obtain ⟨xn, p, hxn, hpar, hp, -, hxp, -⟩ := h.parent_of hx hroot
  refine ⟨xn, p, _, hxn, hpar, hp, h.children_eq hp, hxp, ?_, ?_⟩
  · intro p2 hp2 ch2 hch2 hx2
    rw [h.children_eq hp2] at hch2
    cases hch2
    obtain ⟨-, -, -, hrep2⟩ := h.rep.childOf_held p2 t h.nodup hp2
    obtain ⟨xn2, hxn2, hpar2⟩ := hrep2.top_parent x hx2
    rw [hxn] at hxn2
    cases hxn2
    rw [hpar] at hpar2
    exact (Option.some.inj hpar2).symm
  · intro y yn hyn hsib
    have hy := h.mem_addrs hyn
    have hyroot : q.root ≠ some y := by
      intro hr
      obtain ⟨rn, hrn, -, hrs, -⟩ := h.root_links y hr
      rw [hyn] at hrn
      cases hrn
      rw [hrs] at hsib
      exact absurd hsib (by simp)
    obtain ⟨yn2, p2, hyn2, hypar, hp2, hne, hyp, hrep2⟩ := h.parent_of hy hyroot
    rw [hyn] at hyn2
    cases hyn2
    have hx2 := hrep2.top_sibling y hyp yn x hyn hsib
    obtain ⟨xn2, hxn2, hpar2⟩ := hrep2.top_parent x hx2
    rw [hxn] at hxn2
    cases hxn2
    rw [hpar] at hpar2
    have hpp : p = p2 := Option.some.inj hpar2
    subst hpp
    refine ⟨?_, hypar⟩
    rw [hpar]
    intro hc
    exact hne (Option.some.inj hc)

/-- The links `updateElt` follows on a well-formed state and a live node other than the
root: after the first two statements the store differs from the initial one only in the
element of `node`; the parent link of `node` designates a live node whose `child` link is
not null, and when that child is not `node` the walk along sibling links finds the node
whose sibling link designates `node`. -/
theorem Models.walk {q : PairingPQ α} {t : Tree α} (h : Models q t) {n : Nat} {nn : Node α}
    (hlive : q.mem n = some nn) (hroot : q.root ≠ some n) (v : α) :
    ∃ p pn first, nn.parent = some p ∧ q.mem p = some pn ∧ pn.child = some first ∧
      (setElt q.mem n v).bind (fun m0 => setParentIf m0 nn.sibling nn.parent)
        = some (store q.mem n { nn with elt := v }) ∧
      (first ≠ n → ∃ prev prevn,
        findPrev q.fresh (store q.mem n { nn with elt := v }) first n = some prev ∧
        store q.mem n { nn with elt := v } prev = some prevn ∧ prevn.sibling = some n) := by
  have hn := h.mem_addrs hlive
  obtain ⟨nn2, hnn2, hrep0⟩ := Rep.setElt n v t h.rep hn
  rw [hlive] at hnn2
  cases hnn2
  have hnd0 : (Tree.setElt n v t).addrs.Nodup := by simpa using h.nodup
  have hn0 : n ∈ (Tree.setElt n v t).addrs := by simpa using hn
  have hnt : n ∉ (Tree.setElt n v t).top := by
    rw [Tree.top_setElt]
    cases t with
    | nil => simp [Tree.top]
    | node a e c s =>
      have hs : s = Tree.nil := h.noSib
      subst hs
      have hr := h.root
      simp only [Tree.ptr_node] at hr
      simp only [Tree.top, List.mem_singleton]
      rintro rfl
      exact hroot hr
  obtain ⟨p, hp, hnp⟩ := Tree.exists_parent _ hnd0 n hn0 hnt
  obtain ⟨pn, hpn, hch, hrep⟩ := hrep0.childOf_held p _ hnd0 hp
  obtain ⟨xn, hxn, hpar⟩ := hrep.top_parent n hnp
  rw [store_same] at hxn
  cases hxn
  have hpar' : nn.parent = some p := hpar
  have hpn' : p ≠ n := by
    intro hpx
    rw [hpx] at hnp
    exact Tree.not_mem_childOf n _ hnd0 (Tree.top_subset _ n hnp)
  rw [store_other _ _ hpn'] at hpn
  have hset := hrep.setParentIf_top n hnp _ (store_same _ _ _)
  have hndu := Tree.nodup_childOf p _ hnd0
  have hfuel : (Tree.childOf p (Tree.setElt n v t)).size ≤ q.fresh := by
    refine (Tree.size_childOf_le p _).trans ?_
    rw [Tree.size_setElt]
    exact Tree.size_le_of_bound h.nodup h.bound
  cases hu : Tree.childOf p (Tree.setElt n v t) with
  | nil =>
    rw [hu] at hnp
    simp [Tree.top] at hnp
  | node a e c s =>
    rw [hu] at hch hnp hrep hndu hfuel
    refine ⟨p, pn, a, hpar', hpn, by simpa using hch, ?_, ?_⟩
    · simp only [setElt_of hlive, Option.some_bind]
      exact (congrArg (setParentIf (store q.mem n { nn with elt := v }) nn.sibling) hpar').trans
        hset
    · intro han
      have hns : n ∈ (Tree.node a e c s).sib.top := by
        simp only [Tree.top, List.mem_cons] at hnp
        rcases hnp with rfl | hnp
        · exact absurd rfl han
        · exact hnp
      obtain ⟨a2, prev, pnode, nn3, ha2, -, hfind, -, -, -, -, -, -, -, -⟩ :=
        walk_spec n _ (some p) _ q.fresh hrep hndu hns hfuel
      simp only [Tree.ptr_node, Option.some.injEq] at ha2
      subst ha2
      obtain ⟨prevn, hprev, hsib⟩ := findPrev_sound _ _ _ hfind
      exact ⟨prev, prevn, hfind, hprev, hsib⟩

end PairingPQ

/-!
## Properties of the two queues
-/

/-- C1: pushing any list of values into an empty `PairingPQ` and extracting with `top`
and `pop` until `empty` terminates and yields a permutation of the input in which no
later output is more extreme than an earlier one: for positions `i < j`,
`compare(out[j], out[i])` is false. -/
theorem PairingPQ.c1_extraction_order {α : Type} {compare : α → α → Bool}
    (hs : StrictWeakOrder compare) (vs : List α) :
    ∃ q out, PairingPQ.pushAll compare PairingPQ.empty_pq vs = some q ∧
      PairingPQ.extractAll compare q = some out ∧ out.Perm vs ∧
      ∀ (i j : Nat) x y, i < j → out[i]? = some x → out[j]? = some y → compare y x = false := by
  obtain ⟨q, t, hpush, hm, hperm, hr⟩ := PairingPQ.reach_pushAll compare vs
  obtain ⟨t2, hm2, -, ho⟩ := hr.inv
  obtain ⟨out, hout, hp, hsorted⟩ :=
    PairingPQ.extractAll_spec hs t2.size q t2 rfl hm2 (ho hs)
  have het : t2.elts = t.elts := by
    have h1 := hm.elements_eq
    rw [hm2.elements_eq] at h1
    exact Option.some.inj h1
  refine ⟨q, out, hpush, hout, hp.trans (het ▸ hperm), ?_⟩
  intro i j x y hij hx hy
  rw [List.pairwise_iff_getElem] at hsorted
  have hj : j < out.length := by
    by_contra h
    rw [List.getElem?_eq_none (by omega)] at hy
    exact absurd hy (by simp)
  have hi : i < out.length := by omega
  rw [List.getElem?_eq_getElem hi] at hx
  rw [List.getElem?_eq_getElem hj] at hy
  cases hx
  cases hy
  exact hsorted i j hi hj hij

theorem PairingPQ.c1_extraction_order_witness :
    StrictWeakOrder lessNat ∧
      ∃ q out, PairingPQ.pushAll lessNat PairingPQ.empty_pq [5, 3, 8, 3] = some q ∧
        PairingPQ.extractAll lessNat q = some out ∧ out.Perm [5, 3, 8, 3] ∧
        ∀ (i j : Nat) x y, i < j → out[i]? = some x → out[j]? = some y → lessNat y x = false :=
  ⟨lessNat_swo, PairingPQ.c1_extraction_order lessNat_swo [5, 3, 8, 3]⟩

/-- C2: in every state reached from the empty queue by `push`/`addNode`, `pop` on a
non-empty queue, `updatePriorities` and `updateElt` on a live node with a strictly more
extreme value, every node reachable from the root is live and no descendant of it
(reached through child and sibling links) holds an element more extreme than its own;
and from such a state every operation returns under its precondition, so every such
sequence of calls does produce a state. -/
theorem PairingPQ.c2_heap_order {α : Type} {compare : α → α → Bool}
    (hs : StrictWeakOrder compare) {ops : List (PairingPQ.Op α)} {q : PairingPQ α}
    (hr : PairingPQ.Reach compare ops q) :
    PairingPQ.HeapOrder compare q ∧ PairingPQ.Progress compare q := by
  obtain ⟨t, hm, -, ho⟩ := hr.inv
  exact ⟨hm.heapOrder (ho hs), hm.progress compare⟩

theorem PairingPQ.c2_heap_order_witness :
    StrictWeakOrder lessNat ∧
      PairingPQ.Reach lessNat [PairingPQ.Op.push 5, PairingPQ.Op.push 3, PairingPQ.Op.push 8]
        PairingPQ.demo ∧
      PairingPQ.HeapOrder lessNat PairingPQ.demo ∧ PairingPQ.Progress lessNat PairingPQ.demo :=
  ⟨lessNat_swo, PairingPQ.demo_reach,
    PairingPQ.c2_heap_order lessNat_swo PairingPQ.demo_reach⟩

/-- C3: insert 10, 5, 8, 3 under the max-extreme comparator, then `updateElt` on the node
returned for 8 with the value 20: `top()` is 20 and the full extraction is 20, 10, 5, 3. -/
theorem PairingPQ.c3_decrease_key_example :
    ∃ q n8 q1,
      PairingPQ.pushAll greaterNat PairingPQ.empty_pq [10, 5] = some q ∧
      PairingPQ.addNode greaterNat q 8 = some n8 ∧
      PairingPQ.push greaterNat n8.1 3 = some q1 ∧
      ∃ q2, PairingPQ.updateElt greaterNat q1 n8.2 20 = some q2 ∧
        PairingPQ.top q2 = some 20 ∧
        PairingPQ.extractAll greaterNat q2 = some [20, 10, 5, 3] := by
  refine ⟨_, _, _, rfl, rfl, rfl, _, rfl, ?_, ?_⟩
  · decide!
  · decide!

/-- C4: `updateElt(n, v)` on a reachable state, a live node `n` and a value `v` strictly
more extreme than the element of `n` returns; the reachable nodes with their elements are
the old ones with the element of `n` replaced by `v` (`rest` is untouched), `size()` is
unchanged, the node `n` holds `v`, the reachable nodes are the same distinct nodes as
before and `n` is among them, and no stored element is more extreme than `top()`. -/
theorem PairingPQ.c4_updateElt_contents {α : Type} {compare : α → α → Bool}
    (hs : StrictWeakOrder compare) {ops : List (PairingPQ.Op α)} {q : PairingPQ α}
    (hr : PairingPQ.Reach compare ops q) {n : Nat} {old : PairingPQ.Node α}
    (hlive : q.mem n = some old) {v : α} (hv : compare v old.elt = true) :
    ∃ q2 cs cs2 rest, PairingPQ.updateElt compare q n v = some q2 ∧
      PairingPQ.contents q = some cs ∧ cs.Perm ((n, old.elt) :: rest) ∧
      PairingPQ.contents q2 = some cs2 ∧ cs2.Perm ((n, v) :: rest) ∧
      PairingPQ.size q2 = PairingPQ.size q ∧
      (∃ nn, q2.mem n = some nn ∧ nn.elt = v) ∧
      (∃ ns ns2, PairingPQ.nodes q = some ns ∧ PairingPQ.nodes q2 = some ns2 ∧
        ns2.Perm ns ∧ ns2.Nodup ∧ n ∈ ns2) ∧
      (∃ x es, PairingPQ.top q2 = some x ∧ PairingPQ.elements q2 = some es ∧
        ∀ y ∈ es, compare y x = false) := by
  obtain ⟨t, hm, -, ho⟩ := hr.inv
  have hn := hm.mem_addrs hlive
  have hcell := hm.mem_cells hlive
  obtain ⟨q2, hup, hm2, -, hcnt, hperm⟩ := PairingPQ.updateElt_spec compare hm hn v
  obtain ⟨e, rest, hp1, hp2⟩ := PairingPQ.Tree.setElt_cells_perm n v t hm.nodup hn
  have he : e = old.elt :=
    PairingPQ.Tree.cells_unique hm.nodup (hp1.mem_iff.2 (by simp)) hcell
  rw [he] at hp1
  have ho2 := (ho hs).updateElt hs hm.noSib hm.nodup hcell hv
  have hpa : (PairingPQ.Tree.updateElt compare n v t).addrs.Perm t.addrs := by
    have := PairingPQ.Tree.addrs_perm hperm
    rwa [PairingPQ.Tree.addrs_setElt] at this
  have hnv : (n, v) ∈ (PairingPQ.Tree.updateElt compare n v t).cells :=
    (hperm.trans hp2).mem_iff.2 (by simp)
  refine ⟨q2, t.cells, _, rest, hup, hm.contents_eq, hp1, hm2.contents_eq, hperm.trans hp2,
    hcnt, ?_, ?_, ?_⟩
  · obtain ⟨nn, h1, h2⟩ := hm2.rep.cells_held _ hnv
    exact ⟨nn, h1, h2⟩
  · exact ⟨_, _, hm.nodes_eq, hm2.nodes_eq, hpa, hm2.nodup, hpa.mem_iff.2 hn⟩
  · have hsib := hm2.noSib
    cases ht2 : PairingPQ.Tree.updateElt compare n v t with
    | nil =>
      rw [ht2] at hnv
      simp [PairingPQ.Tree.cells] at hnv
    | node r x c s =>
      rw [ht2] at hm2 ho2 hsib
      simp only [PairingPQ.Tree.sib] at hsib
      subst hsib
      exact ⟨x, _, hm2.top_eq, hm2.elements_eq, PairingPQ.Tree.HeapOrdered.root_max hs ho2⟩

theorem PairingPQ.c4_updateElt_contents_witness :
    StrictWeakOrder lessNat ∧
      PairingPQ.demo.mem 0 = some ⟨5, none, none, some 1⟩ ∧ lessNat 1 5 = true ∧
      ∃ q2 cs cs2 rest, PairingPQ.updateElt lessNat PairingPQ.demo 0 1 = some q2 ∧
        PairingPQ.contents PairingPQ.demo = some cs ∧ cs.Perm ((0, 5) :: rest) ∧
        PairingPQ.contents q2 = some cs2 ∧ cs2.Perm ((0, 1) :: rest) ∧
        PairingPQ.size q2 = PairingPQ.size PairingPQ.demo ∧
        (∃ nn, q2.mem 0 = some nn ∧ nn.elt = 1) ∧
        (∃ ns ns2, PairingPQ.nodes PairingPQ.demo = some ns ∧ PairingPQ.nodes q2 = some ns2 ∧
          ns2.Perm ns ∧ ns2.Nodup ∧ 0 ∈ ns2) ∧
        (∃ x es, PairingPQ.top q2 = some x ∧ PairingPQ.elements q2 = some es ∧
          ∀ y ∈ es, lessNat y x = false) :=
  ⟨lessNat_swo, rfl, rfl,
    PairingPQ.c4_updateElt_contents lessNat_swo PairingPQ.demo_reach
      (show PairingPQ.demo.mem 0 = some ⟨5, none, none, some 1⟩ from rfl)
      (show lessNat 1 5 = true from rfl)⟩

/-- C5: in every reachable state `size()` is the number of `push`/`addNode` calls minus
the number of `pop` calls of the history, it is the number of (distinct) nodes reachable
from the root, `empty()` holds exactly when `size()` is 0, and that is exactly when the
root is null; every operation returns from such a state under its precondition. -/
theorem PairingPQ.c5_size_accounting {α : Type} {compare : α → α → Bool}
    {ops : List (PairingPQ.Op α)} {q : PairingPQ α} (hr : PairingPQ.Reach compare ops q) :
    PairingPQ.size q = PairingPQ.countPush ops - PairingPQ.countPop ops ∧
      PairingPQ.countPop ops ≤ PairingPQ.countPush ops ∧
      (∃ ns, PairingPQ.nodes q = some ns ∧ ns.Nodup ∧ ns.length = PairingPQ.size q) ∧
      (PairingPQ.empty q = true ↔ PairingPQ.size q = 0) ∧
      (PairingPQ.size q = 0 ↔ q.root = none) ∧
      PairingPQ.Progress compare q := by
  obtain ⟨t, hm, hc, -⟩ := hr.inv
  refine ⟨?_, ?_, ⟨t.addrs, hm.nodes_eq, hm.nodup, ?_⟩, ?_, ?_, hm.progress compare⟩
  · simp only [PairingPQ.size]; omega
  · omega
  · rw [PairingPQ.Tree.length_addrs]; exact hm.count.symm
  · simp [PairingPQ.empty, PairingPQ.size]
  · rw [hm.nil_iff, PairingPQ.size, hm.count]
    cases t with
    | nil => simp [PairingPQ.Tree.size]
    | node a e c s => simp [PairingPQ.Tree.size]

theorem PairingPQ.c5_size_accounting_witness :
    PairingPQ.Reach lessNat [PairingPQ.Op.push 5, PairingPQ.Op.push 3, PairingPQ.Op.push 8]
        PairingPQ.demo ∧
      PairingPQ.size PairingPQ.demo =
        PairingPQ.countPush [PairingPQ.Op.push 5, PairingPQ.Op.push 3, PairingPQ.Op.push 8] -
          PairingPQ.countPop [PairingPQ.Op.push 5, PairingPQ.Op.push 3, PairingPQ.Op.push 8] ∧
      PairingPQ.countPop [PairingPQ.Op.push 5, PairingPQ.Op.push 3, PairingPQ.Op.push 8] ≤
        PairingPQ.countPush [PairingPQ.Op.push 5, PairingPQ.Op.push 3, PairingPQ.Op.push 8] ∧
      (∃ ns, PairingPQ.nodes PairingPQ.demo = some ns ∧ ns.Nodup ∧
        ns.length = PairingPQ.size PairingPQ.demo) ∧
      (PairingPQ.empty PairingPQ.demo = true ↔ PairingPQ.size PairingPQ.demo = 0) ∧
      (PairingPQ.size PairingPQ.demo = 0 ↔ PairingPQ.demo.root = none) ∧
      PairingPQ.Progress lessNat PairingPQ.demo :=
  ⟨PairingPQ.demo_reach, PairingPQ.c5_size_accounting PairingPQ.demo_reach⟩

/-- C6, evaluation at the failing input: under the strict total order `lessNat`, pushing
1 then 2 makes `top()` return 2 on `BinaryPQ` and 1 on `PairingPQ`, and the two full
extractions are 2, 1 and 1, 2. -/
theorem c6_backends_disagree :
    StrictTotalOrder lessNat ∧
      (BinaryPQ.pushAll lessNat BinaryPQ.empty_pq [1, 2]).bind BinaryPQ.top = some 2 ∧
      (PairingPQ.pushAll lessNat PairingPQ.empty_pq [1, 2]).bind PairingPQ.top = some 1 ∧
      (BinaryPQ.pushAll lessNat BinaryPQ.empty_pq [1, 2]).bind (BinaryPQ.extractAll lessNat)
        = some [2, 1] ∧
      (PairingPQ.pushAll lessNat PairingPQ.empty_pq [1, 2]).bind (PairingPQ.extractAll lessNat)
        = some [1, 2] :=
  ⟨lessNat_total, by decide!, by decide!, by decide!, by decide!⟩

/-- C7, evaluation at the failing input: `lessNat` is a strict weak ordering, and pushing
1 then 2 into an empty `BinaryPQ` and extracting with `top` and `pop` until `empty` gives
2, 1, where `compare(out[1], out[0])` is `compare(1, 2)`, which is true. -/
theorem BinaryPQ.c7_extraction_reversed :
    StrictWeakOrder lessNat ∧
      (BinaryPQ.pushAll lessNat BinaryPQ.empty_pq [1, 2]).bind (BinaryPQ.extractAll lessNat)
        = some [2, 1] ∧
      lessNat ([2, 1].get ⟨1, by decide⟩) ([2, 1].get ⟨0, by decide⟩) = true :=
  ⟨lessNat_swo, by decide!, by decide⟩

/-- C8: on any tree `t` under child and sibling links with `nodeCount` distinct nodes,
whatever the elements, the nodes reachable from the root are the nodes of `t` and `size()`
is their number, and `updatePriorities()` returns a state that satisfies the heap-order
invariant, whose reachable nodes are the nodes of `t`, each once, in which every node holds
the element it held, whose `size()` is unchanged, whose root is null only if `t` is empty,
and which holds a heap-ordered tree with true parent links on the cells of `t`; on an
empty queue the state is returned as it is. -/
theorem PairingPQ.c8_updatePriorities_rebuild {α : Type} {compare : α → α → Bool}
    (hs : StrictWeakOrder compare) {q : PairingPQ α} {t : PairingPQ.Tree α}
    (h : PairingPQ.Shape q t) :
    PairingPQ.nodes q = some t.addrs ∧ PairingPQ.size q = t.addrs.length ∧
    ∃ q2, PairingPQ.updatePriorities compare q = some q2 ∧ PairingPQ.HeapOrder compare q2 ∧
      (∃ ns ns2, PairingPQ.nodes q = some ns ∧ PairingPQ.nodes q2 = some ns2 ∧ ns2.Perm ns) ∧
      (∃ ns2, PairingPQ.nodes q2 = some ns2 ∧ ns2.Perm t.addrs ∧ ns2.Nodup ∧
        ns2.length = PairingPQ.size q2) ∧
      (∀ a, (q2.mem a).map PairingPQ.Node.elt = (q.mem a).map PairingPQ.Node.elt) ∧
      (∀ a ∈ t.addrs, ∃ n n2, q.mem a = some n ∧ q2.mem a = some n2 ∧ n2.elt = n.elt) ∧
      PairingPQ.size q2 = PairingPQ.size q ∧
      (q2.root = none ↔ t = PairingPQ.Tree.nil) ∧
      (∃ t2, PairingPQ.Shape q2 t2 ∧ PairingPQ.Rep q2.mem none t2 ∧
        t2.sib = PairingPQ.Tree.nil ∧ t2.cells.Perm t.cells ∧
        PairingPQ.Tree.HeapOrdered compare t2) ∧
      (PairingPQ.empty q = true → q2 = q) := by
  obtain ⟨q2, hup, hroot2, hrep2, hsib2, hfresh, hcnt, hperm, hframe, hnil⟩ :=
    PairingPQ.updatePriorities_shape compare h
  have hpa : (PairingPQ.Tree.updatePriorities compare t).addrs.Perm t.addrs :=
    PairingPQ.Tree.addrs_perm hperm
  have hnd2 := hpa.nodup_iff.2 h.nodup
  have hb2 : ∀ a ∈ (PairingPQ.Tree.updatePriorities compare t).addrs, a < q2.fresh := by
    intro a ha
    rw [hfresh]
    exact h.bound a (hpa.mem_iff.1 ha)
  have hn1 : PairingPQ.nodes q = some t.addrs := by
    have := PairingPQ.makeDeque_spec t q.fresh []
      (PairingPQ.Tree.size_le_of_bound h.nodup h.bound) h.links
    simpa [PairingPQ.nodes, h.root] using this
  have hn2 : PairingPQ.nodes q2 = some (PairingPQ.Tree.updatePriorities compare t).addrs := by
    have := PairingPQ.makeDeque_spec (PairingPQ.Tree.updatePriorities compare t) q2.fresh []
      (PairingPQ.Tree.size_le_of_bound hnd2 hb2) hrep2.links
    simpa [PairingPQ.nodes, hroot2] using this
  have hsz : ∀ u : PairingPQ.Tree α, u.addrs.length = u.size := by
    intro u
    induction u with
    | nil => rfl
    | node a e c s ihc ihs =>
      simp only [PairingPQ.Tree.addrs, PairingPQ.Tree.cells, PairingPQ.Tree.size,
        List.map_cons, List.map_append, List.length_cons, List.length_append,
        List.length_map] at ihc ihs ⊢
      omega
  have hsize2 : (PairingPQ.Tree.updatePriorities compare t).size = t.size :=
    PairingPQ.Tree.size_eq_of_perm hperm
  have helt : ∀ a ∈ t.addrs, ∃ n n2, q.mem a = some n ∧ q2.mem a = some n2 ∧
      n2.elt = n.elt := by
    intro a ha
    have hc : ∃ x ∈ t.cells, x.1 = a := by simpa [PairingPQ.Tree.addrs] using ha
    obtain ⟨x, hx, hxa⟩ := hc
    obtain ⟨n1, hn1', he1⟩ := h.links.cells_linked x hx
    obtain ⟨n2, hn2', he2⟩ := hrep2.cells_held x (hperm.mem_iff.2 hx)
    rw [hxa] at hn1' hn2'
    exact ⟨n1, n2, hn1', hn2', by rw [he1, he2]⟩
  have hshape2 : PairingPQ.Shape q2 (PairingPQ.Tree.updatePriorities compare t) :=
    ⟨hroot2, hrep2.links, hnd2, by rw [hcnt, h.count, hsize2], hb2⟩
  refine ⟨hn1, by rw [hsz]; exact h.count, q2, hup,
    PairingPQ.heapOrder_of_rep hroot2 hrep2 hnd2 hb2
      (PairingPQ.Tree.HeapOrdered.updatePriorities hs t),
    ⟨_, _, hn1, hn2, hpa⟩,
    ⟨_, hn2, hpa, hnd2, by rw [hsz, hsize2]; exact (hcnt.trans h.count).symm⟩, ?_, helt, hcnt,
    ?_, ⟨_, hshape2, hrep2, hsib2, hperm,
      PairingPQ.Tree.HeapOrdered.updatePriorities hs t⟩, ?_⟩
  · intro a
    by_cases ha : a ∈ t.addrs
    · obtain ⟨n, n2, e1, e2, e3⟩ := helt a ha
      rw [e1, e2]
      simp [e3]
    · rw [hframe a ha]
  · rw [hroot2]
    constructor
    · intro hp
      have ht2 : PairingPQ.Tree.updatePriorities compare t = PairingPQ.Tree.nil :=
        PairingPQ.Tree.ptr_eq_none.1 hp
      have hz : t.size = 0 := by rw [← hsize2, ht2]; rfl
      cases t with
      | nil => rfl
      | node a e c s => simp [PairingPQ.Tree.size] at hz
    · intro ht
      have hz : (PairingPQ.Tree.updatePriorities compare t).size = 0 := by
        rw [hsize2, ht]; rfl
      cases hu : PairingPQ.Tree.updatePriorities compare t with
      | nil => rfl
      | node a e c s => rw [hu] at hz; simp [PairingPQ.Tree.size] at hz
  · intro he
    apply hnil
    have hz : t.size = 0 := by
      have := h.count
      simp only [PairingPQ.empty, beq_iff_eq] at he
      omega
    have ht : t = PairingPQ.Tree.nil := by
      cases t with
      | nil => rfl
      | node a e c s => simp [PairingPQ.Tree.size] at hz
    rw [h.root, ht]
    rfl

theorem PairingPQ.c8_updatePriorities_rebuild_witness :
    StrictWeakOrder lessNat ∧ PairingPQ.Shape PairingPQ.demoMutated PairingPQ.demoMutatedTree ∧
    (PairingPQ.nodes PairingPQ.demoMutated = some PairingPQ.demoMutatedTree.addrs ∧
    PairingPQ.size PairingPQ.demoMutated = PairingPQ.demoMutatedTree.addrs.length ∧
    ∃ q2, PairingPQ.updatePriorities lessNat PairingPQ.demoMutated = some q2 ∧
      PairingPQ.HeapOrder lessNat q2 ∧
      (∃ ns ns2, PairingPQ.nodes PairingPQ.demoMutated = some ns ∧
        PairingPQ.nodes q2 = some ns2 ∧ ns2.Perm ns) ∧
      (∃ ns2, PairingPQ.nodes q2 = some ns2 ∧ ns2.Perm PairingPQ.demoMutatedTree.addrs ∧
        ns2.Nodup ∧ ns2.length = PairingPQ.size q2) ∧
      (∀ a, (q2.mem a).map PairingPQ.Node.elt =
        (PairingPQ.demoMutated.mem a).map PairingPQ.Node.elt) ∧
      (∀ a ∈ PairingPQ.demoMutatedTree.addrs, ∃ n n2, PairingPQ.demoMutated.mem a = some n ∧
        q2.mem a = some n2 ∧ n2.elt = n.elt) ∧
      PairingPQ.size q2 = PairingPQ.size PairingPQ.demoMutated ∧
      (q2.root = none ↔ PairingPQ.demoMutatedTree = PairingPQ.Tree.nil) ∧
      (∃ t2, PairingPQ.Shape q2 t2 ∧ PairingPQ.Rep q2.mem none t2 ∧
        t2.sib = PairingPQ.Tree.nil ∧ t2.cells.Perm PairingPQ.demoMutatedTree.cells ∧
        PairingPQ.Tree.HeapOrdered lessNat t2) ∧
      (PairingPQ.empty PairingPQ.demoMutated = true → q2 = PairingPQ.demoMutated)) ∧
    PairingPQ.nodes PairingPQ.demoMutated = some [1, 2, 0] ∧
    PairingPQ.contents PairingPQ.demoMutated = some [(1, 9), (2, 8), (0, 5)] ∧
    (PairingPQ.updatePriorities lessNat PairingPQ.demoMutated).bind PairingPQ.nodes
      = some [0, 2, 1] ∧
    (PairingPQ.updatePriorities lessNat PairingPQ.demoMutated).bind PairingPQ.contents
      = some [(0, 5), (2, 8), (1, 9)] ∧
    (PairingPQ.updatePriorities lessNat PairingPQ.demoMutated).map PairingPQ.size = some 3 :=
  ⟨lessNat_swo, PairingPQ.demoMutated_shape,
    PairingPQ.c8_updatePriorities_rebuild lessNat_swo PairingPQ.demoMutated_shape,
    by decide!, by decide!, by decide!, by decide!, by decide!⟩

/-- C11 fails as stated: `lessFst` is a strict weak ordering, and for the input
(1,0), (1,1), (2,0), (2,1) the queue built from the range extracts
(2,1), (2,0), (1,1), (1,0) while the queue built by pushing the values one at a time
extracts (2,0), (2,1), (1,0), (1,1). And on `limitRange`, 2^30 values with a zero at slot
2^29 - 1 among ones, construction from the range is undefined under `lessNat`: the first
`fixDown` moves the zero to slot 2^30 - 1, where `2 * i + 2` is not representable in
`int`. -/
theorem BinaryPQ.c11_counterexample :
    StrictWeakOrder lessFst ∧
      (BinaryPQ.ofRange lessFst BinaryPQ.tied).bind (BinaryPQ.extractAll lessFst)
        = some [(2, 1), (2, 0), (1, 1), (1, 0)] ∧
      (BinaryPQ.pushAll lessFst BinaryPQ.empty_pq BinaryPQ.tied).bind
        (BinaryPQ.extractAll lessFst) = some [(2, 0), (2, 1), (1, 0), (1, 1)] ∧
      (BinaryPQ.ofRange lessFst BinaryPQ.tied).bind (BinaryPQ.extractAll lessFst) ≠
        (BinaryPQ.pushAll lessFst BinaryPQ.empty_pq BinaryPQ.tied).bind
          (BinaryPQ.extractAll lessFst) ∧
      StrictWeakOrder lessNat ∧ BinaryPQ.limitRange.length = 2 ^ 30 ∧
      BinaryPQ.ofRange lessNat BinaryPQ.limitRange = none := by
  refine ⟨lessFst_swo, BinaryPQ.lessFst_tied_range, BinaryPQ.lessFst_tied_push, ?_,
    lessNat_swo, BinaryPQ.length_limitRange, BinaryPQ.ofRange_limitRange⟩
  rw [BinaryPQ.lessFst_tied_range, BinaryPQ.lessFst_tied_push]
  decide

/-- C11 as amended: for every strict-weak-ordering comparator and every list of fewer
than 2^30 values, construction from the range and construction by pushing the values one
at a time both return, both full extractions terminate, each output is a permutation of
the input, the two outputs hold equivalent values position by position (neither compares
below the other), and the two outputs are equal when the comparator is a strict total
order. -/
theorem BinaryPQ.c11_bulk_construction {α : Type} {compare : α → α → Bool}
    (hs : StrictWeakOrder compare) (vs : List α) (hn : vs.length < 2 ^ 30) :
    ∃ q1 q2 out1 out2, BinaryPQ.ofRange compare vs = some q1 ∧
      BinaryPQ.pushAll compare BinaryPQ.empty_pq vs = some q2 ∧
      BinaryPQ.extractAll compare q1 = some out1 ∧
      BinaryPQ.extractAll compare q2 = some out2 ∧
      out1.Perm vs ∧ out2.Perm vs ∧
      List.Forall₂ (fun a b => compare a b = false ∧ compare b a = false) out1 out2 ∧
      (StrictTotalOrder compare → out1 = out2) := by
  obtain ⟨q1, hq1, hheap1, hperm1⟩ := BinaryPQ.ofRange_bounded hs vs hn
  obtain ⟨q2, hq2, hheap2, hperm2, -⟩ :=
    BinaryPQ.pushAll_bounded hs vs BinaryPQ.empty_pq BinaryPQ.Reach.empty
      (by simpa [BinaryPQ.empty_pq] using hn)
  have hperm2b : q2.data.Perm vs := by simpa [BinaryPQ.empty_pq] using hperm2
  have hl1 : q1.data.length ≤ 2 ^ 30 := by rw [hperm1.length_eq]; omega
  have hl2 : q2.data.length ≤ 2 ^ 30 := by rw [hperm2b.length_eq]; omega
  obtain ⟨out1, hout1, hp1, hs1⟩ :=
    BinaryPQ.extractAll_bounded hs q1.data.length q1 rfl hl1 hheap1
  obtain ⟨out2, hout2, hp2, hs2⟩ :=
    BinaryPQ.extractAll_bounded hs q2.data.length q2 rfl hl2 hheap2
  have h1 : out1.Perm vs := hp1.trans hperm1
  have h2 : out2.Perm vs := hp2.trans hperm2b
  exact ⟨q1, q2, out1, out2, hq1, hq2, hout1, hout2, h1, h2,
    equiv_of_perm_of_descending hs (h1.trans h2.symm) hs1 hs2,
    fun ht => eq_of_perm_of_descending ht (h1.trans h2.symm) hs1 hs2⟩

theorem BinaryPQ.c11_bulk_construction_witness :
    StrictWeakOrder lessNat ∧ [5, 3, 8, 3].length < 2 ^ 30 ∧
      (∃ q1 q2 out1 out2, BinaryPQ.ofRange lessNat [5, 3, 8, 3] = some q1 ∧
        BinaryPQ.pushAll lessNat BinaryPQ.empty_pq [5, 3, 8, 3] = some q2 ∧
        BinaryPQ.extractAll lessNat q1 = some out1 ∧
        BinaryPQ.extractAll lessNat q2 = some out2 ∧
        out1.Perm [5, 3, 8, 3] ∧ out2.Perm [5, 3, 8, 3] ∧
        List.Forall₂ (fun a b => lessNat a b = false ∧ lessNat b a = false) out1 out2 ∧
        (StrictTotalOrder lessNat → out1 = out2)) ∧
      (BinaryPQ.ofRange lessNat [5, 3, 8, 3]).bind (BinaryPQ.extractAll lessNat)
        = some [8, 5, 3, 3] ∧
      (BinaryPQ.pushAll lessNat BinaryPQ.empty_pq [5, 3, 8, 3]).bind
        (BinaryPQ.extractAll lessNat) = some [8, 5, 3, 3] :=
  ⟨lessNat_swo, by norm_num,
    BinaryPQ.c11_bulk_construction lessNat_swo [5, 3, 8, 3] (by norm_num),
    by decide!, by decide!⟩

/-- C12, evaluated at the failing input: the only `makeDeque` of the source fills a deque
of node pointers. On the heap built by pushing 5, 3, 8, the call the copy constructor
makes yields the node addresses 1, 2, 0; the values stored in those nodes, which the
constructor is to collect and insert, are 3, 8, 5. -/
theorem PairingPQ.c12_makeDeque_yields_nodes :
    PairingPQ.makeDeque PairingPQ.demo.fresh PairingPQ.demo.mem PairingPQ.demo.root []
        = some [1, 2, 0] ∧
      PairingPQ.elements PairingPQ.demo = some [3, 8, 5] :=
  ⟨by decide!, by decide!⟩

/-- C13, evaluated at the failing input: move construction from the heap built by pushing
5, 3, 8 gives a destination that holds the root and the count of the source, and leaves
the source with the same non-null root and `size()` 3. The destructor of the destination
releases the three nodes, after which the destructor of the source deletes a node that is
no longer live: `destroy` fails on the root of the source at its first dereference,
whatever the fuel. -/
theorem PairingPQ.c13_move_shares_nodes :
    (PairingPQ.moveCtor PairingPQ.demo).1.root = PairingPQ.demo.root ∧
      (PairingPQ.moveCtor PairingPQ.demo).1.nodeCount = PairingPQ.demo.nodeCount ∧
      (PairingPQ.moveCtor PairingPQ.demo).2.root = some 1 ∧
      PairingPQ.size (PairingPQ.moveCtor PairingPQ.demo).2 = 3 ∧
      ∃ d, PairingPQ.destructor (PairingPQ.moveCtor PairingPQ.demo).1 = some d ∧
        (d.mem 0).isNone = true ∧ (d.mem 1).isNone = true ∧ (d.mem 2).isNone = true ∧
        (∀ fuel, PairingPQ.destroy fuel d.mem (PairingPQ.moveCtor PairingPQ.demo).2.root
          = none) ∧
        PairingPQ.destructor { (PairingPQ.moveCtor PairingPQ.demo).2 with mem := d.mem }
          = none := by
  have h1 : (((PairingPQ.destructor (PairingPQ.moveCtor PairingPQ.demo).1).getD
      PairingPQ.empty_pq).mem 1).isNone = true := by decide!
  have hr : (PairingPQ.moveCtor PairingPQ.demo).2.root = some 1 := by decide!
  refine ⟨rfl, rfl, hr, by decide!,
    (PairingPQ.destructor (PairingPQ.moveCtor PairingPQ.demo).1).getD PairingPQ.empty_pq,
    rfl, by decide!, h1, by decide!, ?_, rfl⟩
  intro fuel
  rw [hr]
  cases fuel with
  | zero => rfl
  | succ k => simp [PairingPQ.destroy, Option.isNone_iff_eq_none.1 h1]

/-- C14 fails as stated: in the store of the heap that holds 3 at its root (address 1)
with the single child 5 (address 0), `meld` of the root with the new node 8 (address 2)
returns the root 3; the loser 8 becomes its first child and gets the former first child 5
as its sibling; the parent link of 5 then designates the winner at address 1, not the
loser at address 2. -/
theorem PairingPQ.c14_counterexample :
    ∃ m2, PairingPQ.meld lessNat PairingPQ.demoAlloc (some 1) (some 2) = some (m2, some 1) ∧
      (PairingPQ.demoAlloc 1).map PairingPQ.Node.child = some (some 0) ∧
      (PairingPQ.demoAlloc 1).map PairingPQ.Node.sibling = some none ∧
      (PairingPQ.demoAlloc 2).map PairingPQ.Node.sibling = some none ∧
      (m2 1).map PairingPQ.Node.child = some (some 2) ∧
      (m2 2).map PairingPQ.Node.sibling = some (some 0) ∧
      (m2 0).map PairingPQ.Node.parent = some (some 1) ∧
      (m2 0).map PairingPQ.Node.parent ≠ some (some 2) := by
  refine ⟨_, rfl, by decide!, by decide!, by decide!, by decide!, by decide!, by decide!,
    by decide!⟩

/-- C14 as amended: if either argument is null, `meld` returns the other with the store
unchanged. For two distinct live nodes `a` (first) and `b` (second), the winner is `b`
when `compare(b.elt, a.elt)` and `a` otherwise; if the winner's `child` link is null or
designates a live node other than `a` and `b`, `meld` returns the winner, the loser is
the winner's new first child with the winner as parent and the winner's former first
child as sibling, the parent link of that former first child designates the winner, the
winner's parent link is null when it is `b` and is left as it was when it is `a`, and no
other node of the store changes. -/
theorem PairingPQ.c14_meld_postcondition {α : Type} (compare : α → α → Bool)
    (m : PairingPQ.Mem α) :
    (∀ p, PairingPQ.meld compare m none p = some (m, p)) ∧
    (∀ p, PairingPQ.meld compare m p none = some (m, p)) ∧
    ∀ (a b : Nat) (an bn : PairingPQ.Node α), m a = some an → m b = some bn → a ≠ b →
      (compare bn.elt an.elt = true →
        (∀ c, bn.child = some c → c ≠ a ∧ c ≠ b ∧ ∃ cn, m c = some cn) →
        ∃ m2, PairingPQ.meld compare m (some a) (some b) = some (m2, some b) ∧
          m2 a = some ⟨an.elt, an.child, bn.child, some b⟩ ∧
          m2 b = some ⟨bn.elt, some a, bn.sibling, none⟩ ∧
          (∀ c cn, bn.child = some c → m c = some cn →
            m2 c = some ⟨cn.elt, cn.child, cn.sibling, some b⟩) ∧
          ∀ x, x ≠ a → x ≠ b → bn.child ≠ some x → m2 x = m x) ∧
      (compare bn.elt an.elt = false →
        (∀ c, an.child = some c → c ≠ a ∧ c ≠ b ∧ ∃ cn, m c = some cn) →
        ∃ m2, PairingPQ.meld compare m (some a) (some b) = some (m2, some a) ∧
          m2 b = some ⟨bn.elt, bn.child, an.child, some a⟩ ∧
          m2 a = some ⟨an.elt, some b, an.sibling, an.parent⟩ ∧
          (∀ c cn, an.child = some c → m c = some cn →
            m2 c = some ⟨cn.elt, cn.child, cn.sibling, some a⟩) ∧
          ∀ x, x ≠ a → x ≠ b → an.child ≠ some x → m2 x = m x) :=
  ⟨fun p => PairingPQ.meld_none_left compare m p, fun p => PairingPQ.meld_none_right compare m p,
    fun _ _ _ _ ha hb hab =>
      ⟨fun hc hch => PairingPQ.meld_second_wins compare ha hb hab hc hch,
        fun hc hch => PairingPQ.meld_first_wins compare ha hb hab hc hch⟩⟩

theorem PairingPQ.c14_meld_postcondition_witness :
    PairingPQ.demoAlloc 1 = some ⟨3, some 0, none, none⟩ ∧
      PairingPQ.demoAlloc 2 = some ⟨8, none, none, none⟩ ∧ 1 ≠ 2 ∧ lessNat 8 3 = false ∧
      (∀ c, some 0 = some c → c ≠ 1 ∧ c ≠ 2 ∧ ∃ cn, PairingPQ.demoAlloc c = some cn) ∧
      ∃ m2, PairingPQ.meld lessNat PairingPQ.demoAlloc (some 1) (some 2) = some (m2, some 1) ∧
        m2 2 = some ⟨8, none, some 0, some 1⟩ ∧
        m2 1 = some ⟨3, some 2, none, none⟩ ∧
        (∀ c cn, some 0 = some c → PairingPQ.demoAlloc c = some cn →
          m2 c = some ⟨cn.elt, cn.child, cn.sibling, some 1⟩) ∧
        ∀ x, x ≠ 1 → x ≠ 2 → some 0 ≠ some x → m2 x = PairingPQ.demoAlloc x :=
  have hch : ∀ c, some 0 = some c →
      c ≠ 1 ∧ c ≠ 2 ∧ ∃ cn, PairingPQ.demoAlloc c = some cn := by
    intro c hc
    cases hc
    exact ⟨by decide, by decide, _, rfl⟩
  ⟨rfl, rfl, by decide, rfl, hch,
    ((PairingPQ.c14_meld_postcondition lessNat PairingPQ.demoAlloc).2.2 1 2
      ⟨3, some 0, none, none⟩ ⟨8, none, none, none⟩ rfl rfl (by decide)).2 rfl hch⟩

/-- C15: on every non-empty state built by the public operations, `pop()` returns the
state that the fold of `meld` over the children of the root returns (`popByMeld`: each
child is detached from its sibling and parent links and melded with the tree accumulated
so far, in sibling-chain order); when the root has no child the queue becomes empty; the
nodes with their elements afterwards are the distinct nodes before without the old root,
the elements are the old ones without one occurrence of the old `top()`, and `size()`
decreases by one. -/
theorem PairingPQ.c15_pop_folds_meld {α : Type} {compare : α → α → Bool} {q : PairingPQ α}
    (hb : PairingPQ.Built compare q) (hne : PairingPQ.empty q = false) :
    ∃ q2 r rn x, q.root = some r ∧ q.mem r = some rn ∧ PairingPQ.top q = some x ∧
      PairingPQ.pop compare q = some q2 ∧ PairingPQ.popByMeld compare q = some q2 ∧
      (rn.child = none → q2.root = none ∧ PairingPQ.empty q2 = true) ∧
      (∃ cs cs2, PairingPQ.contents q = some cs ∧ PairingPQ.contents q2 = some cs2 ∧
        cs.Perm ((r, x) :: cs2) ∧ (cs.map Prod.fst).Nodup) ∧
      (∃ es es2, PairingPQ.elements q = some es ∧ PairingPQ.elements q2 = some es2 ∧
        es.Perm (x :: es2)) ∧
      PairingPQ.size q2 + 1 = PairingPQ.size q := by
  obtain ⟨t, hm⟩ := hb.models
  cases t with
  | nil =>
    have := hm.empty_iff.2 rfl
    rw [hne] at this
    exact absurd this (by simp)
  | node r e c s =>
    have hs : s = PairingPQ.Tree.nil := hm.noSib
    subst hs
    obtain ⟨q2, hpop, hm2, -, hcnt⟩ := PairingPQ.pop_spec compare hm
    have hperm := PairingPQ.Tree.pop_cells_perm compare r e c
    have hpos : 0 < q.nodeCount := by
      rw [hm.count]; simp [PairingPQ.Tree.size]
    refine ⟨q2, r, _, e, hm.root, hm.rep.1, hm.top_eq, hpop,
      (PairingPQ.popByMeld_eq_pop compare hm).trans hpop, ?_, ?_, ?_, ?_⟩
    · intro hc
      have hcn : c = PairingPQ.Tree.nil := PairingPQ.Tree.ptr_eq_none.1 hc
      subst hcn
      exact ⟨hm2.root, hm2.empty_iff.2 rfl⟩
    · refine ⟨_, _, hm.contents_eq, hm2.contents_eq, ?_, hm.nodup⟩
      simpa [PairingPQ.Tree.cells] using hperm.symm
    · refine ⟨_, _, hm.elements_eq, hm2.elements_eq, ?_⟩
      simpa using (PairingPQ.Tree.elts_perm hperm).symm
    · simp only [PairingPQ.size, hcnt]
      omega

theorem PairingPQ.c15_pop_folds_meld_witness :
    PairingPQ.Built lessNat PairingPQ.demo ∧ PairingPQ.empty PairingPQ.demo = false ∧
      ∃ q2 r rn x, PairingPQ.demo.root = some r ∧ PairingPQ.demo.mem r = some rn ∧
        PairingPQ.top PairingPQ.demo = some x ∧
        PairingPQ.pop lessNat PairingPQ.demo = some q2 ∧
        PairingPQ.popByMeld lessNat PairingPQ.demo = some q2 ∧
        (rn.child = none → q2.root = none ∧ PairingPQ.empty q2 = true) ∧
        (∃ cs cs2, PairingPQ.contents PairingPQ.demo = some cs ∧
          PairingPQ.contents q2 = some cs2 ∧
          cs.Perm ((r, x) :: cs2) ∧ (cs.map Prod.fst).Nodup) ∧
        (∃ es es2, PairingPQ.elements PairingPQ.demo = some es ∧
          PairingPQ.elements q2 = some es2 ∧ es.Perm (x :: es2)) ∧
        PairingPQ.size q2 + 1 = PairingPQ.size PairingPQ.demo :=
  ⟨PairingPQ.demo_reach.built, rfl,
    PairingPQ.c15_pop_folds_meld PairingPQ.demo_reach.built rfl⟩

/-- C16: the heap built by pushing 2, 4, 1 under `lessNat` is reachable and heap-ordered;
its node at address 0 holds 2 and the value 7 is strictly less extreme (`compare(2, 7)`).
`updateElt` on that node with 7 returns a state, with no error reported; in that state
the node at address 0 holds 7 and its descendant at address 1 holds 4, which is strictly
more extreme, so the heap-order invariant fails; after one `pop`, `top()` is 7 although
the stored element 4 is strictly more extreme. -/
theorem PairingPQ.c16_updateElt_less_extreme :
    ∃ q2, StrictWeakOrder lessNat ∧
      PairingPQ.Reach lessNat [PairingPQ.Op.push 2, PairingPQ.Op.push 4, PairingPQ.Op.push 1]
        PairingPQ.demoChain ∧
      PairingPQ.HeapOrder lessNat PairingPQ.demoChain ∧
      PairingPQ.demoChain.mem 0 = some ⟨2, some 1, none, some 2⟩ ∧ lessNat 2 7 = true ∧
      PairingPQ.updateElt lessNat PairingPQ.demoChain 0 7 = some q2 ∧
      ¬ PairingPQ.HeapOrder lessNat q2 ∧
      (PairingPQ.nodes q2 = some [2, 0, 1] ∧ PairingPQ.descendants q2 0 = some [1] ∧
        (q2.mem 0).map PairingPQ.Node.elt = some 7 ∧
        (q2.mem 1).map PairingPQ.Node.elt = some 4 ∧ lessNat 4 7 = true) ∧
      ∃ q3, PairingPQ.pop lessNat q2 = some q3 ∧ PairingPQ.top q3 = some 7 ∧
        PairingPQ.elements q3 = some [7, 4] ∧ lessNat 4 7 = true := by
  have hn : PairingPQ.nodes ((PairingPQ.updateElt lessNat PairingPQ.demoChain 0 7).getD
      PairingPQ.empty_pq) = some [2, 0, 1] := by decide!
  have hd : PairingPQ.descendants ((PairingPQ.updateElt lessNat PairingPQ.demoChain 0 7).getD
      PairingPQ.empty_pq) 0 = some [1] := by decide!
  have h0 : (((PairingPQ.updateElt lessNat PairingPQ.demoChain 0 7).getD
      PairingPQ.empty_pq).mem 0).map PairingPQ.Node.elt = some 7 := by decide!
  have h1 : (((PairingPQ.updateElt lessNat PairingPQ.demoChain 0 7).getD
      PairingPQ.empty_pq).mem 1).map PairingPQ.Node.elt = some 4 := by decide!
  refine ⟨(PairingPQ.updateElt lessNat PairingPQ.demoChain 0 7).getD PairingPQ.empty_pq,
    lessNat_swo, PairingPQ.demoChain_reach, PairingPQ.demoChain_reach.holdsHeapOrder lessNat_swo,
    rfl, rfl, rfl, ?_, ⟨hn, hd, h0, h1, rfl⟩, _, rfl, by decide!, by decide!, rfl⟩
  rintro ⟨ns, hns, h⟩
  rw [hn] at hns
  cases hns
  obtain ⟨pn, ds, hp, hds, hall⟩ := h 0 (by simp)
  rw [hd] at hds
  cases hds
  obtain ⟨dn, hdn, hc⟩ := hall 1 (by simp)
  rw [hp] at h0
  rw [hdn] at h1
  simp only [Option.map_some', Option.some.injEq] at h0 h1
  rw [h0, h1] at hc
  exact absurd hc (by decide)

/-- C17: in every state built from the empty queue by `push`/`addNode`, `pop` on a
non-empty queue, `updatePriorities` and `updateElt` on a live node, the parent and sibling
links of the root are null, and every other node `x` reachable from the root has a parent
link that designates a reachable node `p` whose child chain (`p.child` followed by sibling
links) contains `x`; no other node has `x` on its child chain, and the parent link of `x`
does not designate a node whose sibling link designates `x`. -/
theorem PairingPQ.c17_parent_links {α : Type} {compare : α → α → Bool} {q : PairingPQ α}
    (hb : PairingPQ.Built compare q) :
    (∀ r, q.root = some r → ∃ rn, q.mem r = some rn ∧ rn.parent = none ∧ rn.sibling = none) ∧
    ∃ ns, PairingPQ.nodes q = some ns ∧ ∀ x ∈ ns, q.root ≠ some x →
      ∃ xn p ch, q.mem x = some xn ∧ xn.parent = some p ∧ p ∈ ns ∧
        PairingPQ.children q p = some ch ∧ x ∈ ch ∧
        (∀ p2 ch2, PairingPQ.children q p2 = some ch2 → x ∈ ch2 → p2 = p) ∧
        (∀ (y : Nat) (yn : PairingPQ.Node α), q.mem y = some yn → yn.sibling = some x →
          xn.parent ≠ some y) := by
  obtain ⟨t, hm⟩ := hb.models
  refine ⟨?_, t.addrs, hm.nodes_eq, ?_⟩
  · intro r hr
    obtain ⟨rn, h1, h2, h3, -⟩ := hm.root_links r hr
    exact ⟨rn, h1, h2, h3⟩
  · intro x hx hroot
    obtain ⟨xn, p, ch, h1, h2, h3, h4, h5, h6, h7⟩ := hm.parent_links hx hroot
    refine ⟨xn, p, ch, h1, h2, h3, h4, h5, ?_, fun y yn hy hs => (h7 y yn hy hs).1⟩
    intro p2 ch2 hch2 hx2
    cases hp2 : q.mem p2 with
    | none => simp [PairingPQ.children, hp2] at hch2
    | some pn2 => exact h6 p2 (hm.mem_addrs hp2) ch2 hch2 hx2

theorem PairingPQ.c17_parent_links_witness :
    PairingPQ.Built lessNat PairingPQ.demo ∧
      (∀ r, PairingPQ.demo.root = some r →
        ∃ rn, PairingPQ.demo.mem r = some rn ∧ rn.parent = none ∧ rn.sibling = none) ∧
      ∃ ns, PairingPQ.nodes PairingPQ.demo = some ns ∧ ∀ x ∈ ns, PairingPQ.demo.root ≠ some x →
        ∃ xn p ch, PairingPQ.demo.mem x = some xn ∧ xn.parent = some p ∧ p ∈ ns ∧
          PairingPQ.children PairingPQ.demo p = some ch ∧ x ∈ ch ∧
          (∀ p2 ch2, PairingPQ.children PairingPQ.demo p2 = some ch2 → x ∈ ch2 → p2 = p) ∧
          (∀ (y : Nat) (yn : PairingPQ.Node Nat), PairingPQ.demo.mem y = some yn →
            yn.sibling = some x → xn.parent ≠ some y) :=
  ⟨PairingPQ.demo_reach.built, PairingPQ.c17_parent_links PairingPQ.demo_reach.built⟩

/-- C18: on every state reached from the empty queue by the public operations under
their preconditions, for a live node `n` that is not the root and any value `v`: the
parent link of `n` designates a live node `p` whose `child` link designates a node
`first`; the first two statements of `updateElt(n, v)` leave a store that differs from
the initial one only in the element of `n`; when `first` is not `n`, the walk from
`first` along sibling links returns, within the fuel given by the allocation counter, a
live node whose sibling link designates `n`; and the call `updateElt(n, v)` returns. -/
theorem PairingPQ.c18_updateElt_walk {α : Type} {compare : α → α → Bool}
    {ops : List (PairingPQ.Op α)} {q : PairingPQ α} (hr : PairingPQ.Reach compare ops q)
    {n : Nat} {nn : PairingPQ.Node α} (hlive : q.mem n = some nn) (hroot : q.root ≠ some n)
    (v : α) :
    ∃ p pn first, nn.parent = some p ∧ q.mem p = some pn ∧ pn.child = some first ∧
      (PairingPQ.setElt q.mem n v).bind
          (fun m0 => PairingPQ.setParentIf m0 nn.sibling nn.parent)
        = some (PairingPQ.store q.mem n { nn with elt := v }) ∧
      (first ≠ n → ∃ prev prevn,
        PairingPQ.findPrev q.fresh (PairingPQ.store q.mem n { nn with elt := v }) first n
          = some prev ∧
        PairingPQ.store q.mem n { nn with elt := v } prev = some prevn ∧
        prevn.sibling = some n) ∧
      ∃ q2, PairingPQ.updateElt compare q n v = some q2 := by
  obtain ⟨t, hm, -, -⟩ := hr.inv
  obtain ⟨p, pn, first, h1, h2, h3, h4, h5⟩ := hm.walk hlive hroot v
  obtain ⟨q2, hup, -⟩ := PairingPQ.updateElt_spec compare hm (hm.mem_addrs hlive) v
  exact ⟨p, pn, first, h1, h2, h3, h4, h5, q2, hup⟩

theorem PairingPQ.c18_updateElt_walk_witness :
    PairingPQ.Reach lessNat [PairingPQ.Op.push 5, PairingPQ.Op.push 3, PairingPQ.Op.push 8]
        PairingPQ.demo ∧
      PairingPQ.demo.mem 0 = some ⟨5, none, none, some 1⟩ ∧ PairingPQ.demo.root ≠ some 0 ∧
      ∃ p pn first, some 1 = some p ∧ PairingPQ.demo.mem p = some pn ∧
        pn.child = some first ∧
        (PairingPQ.setElt PairingPQ.demo.mem 0 1).bind
            (fun m0 => PairingPQ.setParentIf m0 none (some 1))
          = some (PairingPQ.store PairingPQ.demo.mem 0 ⟨1, none, none, some 1⟩) ∧
        (first ≠ 0 → ∃ prev prevn,
          PairingPQ.findPrev PairingPQ.demo.fresh
            (PairingPQ.store PairingPQ.demo.mem 0 ⟨1, none, none, some 1⟩) first 0
            = some prev ∧
          PairingPQ.store PairingPQ.demo.mem 0 ⟨1, none, none, some 1⟩ prev = some prevn ∧
          prevn.sibling = some 0) ∧
        ∃ q2, PairingPQ.updateElt lessNat PairingPQ.demo 0 1 = some q2 :=
  ⟨PairingPQ.demo_reach, rfl, by decide!,
    PairingPQ.c18_updateElt_walk PairingPQ.demo_reach
      (show PairingPQ.demo.mem 0 = some ⟨5, none, none, some 1⟩ from rfl) (by decide!) 1⟩

